import Mathlib

/-!
rcopy: a shallow embedding of `main.go`.

The development follows the source file top to bottom.

* File metadata and the copy engine: `checkDiff`, `copyFile`, the size label and
  the body of the worker loop `CopyFile`.
* Discovery: `getFiles` and the loop of `main` over the top-level entries.
* Command-line options: the `flag` calls at the head of `main`.
* The pipeline as a labelled transition system: `main`, the `GetFiles`
  goroutines and the `CopyFile` workers, synchronising on the two unbuffered
  channels `ch` and `chErr`, up to `close(ch)` and the return of `main`; its
  invariants; and the same pipeline run on a file system, where the worker's
  stats and copies are those of `checkDiff` and `copyFile` and the log file is
  written.

The definitions come first, the theorems after them.

A Go run-time panic (calling a method on the nil `fs.FileInfo`) is modelled by
`none` in the pure functions and by the `crashed` flag in the pipeline.
-/

namespace Rcopy

/-! ## File metadata and the file system -/

/-- The two fields of `fs.FileInfo` the program reads: `Size()` (an `int64`) and
`ModTime()` (an instant, counted in nanoseconds). -/
structure FileInfo where
  size : Int
  modTime : Int
deriving DecidableEq, Repr

/-- A file or a directory: its bytes, its modification time, and whether it is a
directory.  For a directory the length of `data` stands for what `Size()`
reports, which depends on the system; the size and the time stamp of a directory
are taken as they are at the start of a run. -/
structure File where
  data : List Nat
  modTime : Int
  isDir : Bool := false
deriving DecidableEq, Repr

/-- The files and directories of the file system, by path. -/
abbrev FileSystem := String → Option File

/-- The path names a directory. -/
def isDirectory (fs : FileSystem) (path : String) : Bool :=
  match fs path with
  | none => false
  | some f => f.isDir

/-- The path names a regular file. -/
def isPlainFile (fs : FileSystem) (path : String) : Bool :=
  match fs path with
  | none => false
  | some f => !f.isDir

/-- `os.Stat(path)`: the metadata of the file, `none` when the call fails.  In
`checkDiff` a failed call leaves the returned `fs.FileInfo` nil. -/
def stat (fs : FileSystem) (path : String) : Option FileInfo :=
  match fs path with
  | none => none
  | some f => some { size := (f.data.length : Int), modTime := f.modTime }

/-- `filepath.Join(dir, name)` for operands that are already clean: the two
parts separated by one slash. -/
def joinPath (dir name : String) : String :=
  dir ++ "/" ++ name

/-- `filepath.Join(srcDir, file)` and `filepath.Join(dstDir, file)` in the worker
(main.go 239-240).  `file` is a name received from `ch`; it is the empty string
when the receive was from the closed channel, and `Join` drops an empty
element. -/
def taskPath (dir file : String) : String :=
  if file = "" then dir else joinPath dir file

/-- The time stamp a file system with resolution `res` (in nanoseconds, 1 for a
file system that keeps nanoseconds) stores for the instant `t`: the last
multiple of `res` that is not after `t`. -/
def truncStamp (res t : Int) : Int :=
  t - t % res

/-- The file system with resolution `res` stores the modification time of the
file at `path` as it is. -/
def stampKept (res : Int) (fs : FileSystem) (path : String) : Bool :=
  match stat fs path with
  | none => true
  | some s => decide (truncStamp res s.modTime = s.modTime)

/-! ## The copy engine -/

/-- `checkDiff` (main.go 153-175) as a function of the two `os.Stat` results.
`srcInfo` is `none` when the stat of the source failed (line 156 discards the
error, the value is nil); `dstInfo` is `none` when `err != nil` at line 159.
The result is `none` when the call panics: `srcInfo.Size()` at line 163 on a nil
`srcInfo`. -/
def checkDiff (srcInfo dstInfo : Option FileInfo) : Option (Bool × Option FileInfo) :=
  match dstInfo with
  | none => some (true, srcInfo)
  | some d =>
    match srcInfo with
    | none => none
    | some s =>
      if s.size ≠ d.size then some (true, srcInfo)
      else if d.modTime < s.modTime then some (true, srcInfo)
      else some (false, srcInfo)

/-- The size label computed by the worker (main.go 244-253).  Every branch
starts with `srcInfo.Size()`, so a nil `srcInfo` panics (`none`). -/
def sizeLabel (srcInfo : Option FileInfo) : Option String :=
  match srcInfo with
  | none => none
  | some s =>
    if 1073741824 < s.size then some (toString (s.size / 1073741824) ++ "GB")
    else if 1048576 < s.size then some (toString (s.size / 1048576) ++ "MB")
    else if 1024 < s.size then some (toString (s.size / 1024) ++ "KB")
    else some (toString s.size ++ "B")

/-- The operating-system call of `copyFile` that fails, when one does. -/
inductive Fault where
  | openSrc
  | createDst
  | copyData (written : Nat)
  | chtimes
deriving DecidableEq, Repr

/-- How a call of `copyFile` ends: `nil`, a non-nil error, or a panic. -/
inductive CopyResult where
  | ok
  | err
  | panic
deriving DecidableEq, Repr

/-- `copyFile` (main.go 178-228).  `res` is the resolution of the time stamps of
the destination's file system, `fault` names the system call that fails for a
reason outside the model (permissions, full disk, ...), `now` is the clock that
stamps a file when it is written.  `os.MkdirAll` is not modelled: its result is
ignored by the code and the directories it makes hold no task.  The steps, in
order: `os.Open` of the source (a directory can be opened), `os.Create` of the
destination (it empties a file and fails on a directory), `io.Copy` (reading
from a directory fails), `srcInfo.ModTime()`, `os.Chtimes` (the file system
stores the stamp at its resolution).  A partly written destination is left in
place. -/
def copyFile (fs : FileSystem) (res now : Int) (fault : Option Fault)
    (srcFile dstFile : String) (srcInfo : Option FileInfo) : FileSystem × CopyResult :=
  match fs srcFile with
  | none => (fs, .err)
  | some _ =>
    if fault = some .openSrc then (fs, .err)
    else if fault = some .createDst then (fs, .err)
    else if isDirectory fs dstFile then (fs, .err)
    else
      let fs1 := Function.update fs dstFile (some { data := [], modTime := now })
      match fs1 srcFile with
      | none => (fs1, .err)
      | some src =>
        if src.isDir then (fs1, .err)
        else
          match fault with
          | some (.copyData n) =>
            (Function.update fs1 dstFile (some { data := src.data.take n, modTime := now }), .err)
          | _ =>
            let fs2 := Function.update fs1 dstFile (some { data := src.data, modTime := now })
            match srcInfo with
            | none => (fs2, .panic)
            | some info =>
              if fault = some .chtimes then (fs2, .err)
              else
                (Function.update fs2 dstFile
                  (some { data := src.data, modTime := truncStamp res info.modTime }), .ok)

/-- What one iteration of the worker loop decides for its task. -/
inductive Outcome where
  | skip
  | done
  | fail
  | panic
deriving DecidableEq, Repr

/-- The decision of one iteration of `CopyFile` (main.go 241-279) from the two
stat results and the result of `copyFile`, which is only consulted when
`checkDiff` asks for a copy. -/
def taskOutcome (srcInfo dstInfo : Option FileInfo) (copy : CopyResult) : Outcome :=
  match checkDiff srcInfo dstInfo with
  | none => .panic
  | some (diff, info) =>
    match sizeLabel info with
    | none => .panic
    | some _ =>
      if diff then
        match copy with
        | .ok => .done
        | .err => .fail
        | .panic => .panic
      else .skip

/-- One iteration of the worker loop on a file system: the paths are joined
(lines 239-240), `checkDiff` stats both files, the size label is computed, and
`copyFile` runs when a copy is needed. -/
def copyTask (fs : FileSystem) (res now : Int) (fault : Option Fault)
    (srcDir dstDir file : String) : FileSystem × Outcome :=
  let srcFile := taskPath srcDir file
  let dstFile := taskPath dstDir file
  match checkDiff (stat fs srcFile) (stat fs dstFile) with
  | none => (fs, .panic)
  | some (diff, info) =>
    match sizeLabel info with
    | none => (fs, .panic)
    | some _ =>
      if diff then
        match copyFile fs res now fault srcFile dstFile info with
        | (fs1, .ok) => (fs1, .done)
        | (fs1, .err) => (fs1, .fail)
        | (fs1, .panic) => (fs1, .panic)
      else (fs, .skip)

/-! ## Discovery -/

/-- An entry of a directory listing (`fs.DirEntry`): a non-directory entry, or a
directory with its own listing.  `readable` tells whether `os.ReadDir` on the
directory succeeds; the listing of an unreadable directory is never seen. -/
inductive Entry where
  | file (name : String)
  | dir (name : String) (readable : Bool) (children : List Entry)

/-- The `Name()` of a directory entry. -/
def Entry.name : Entry → String
  | .file n => n
  | .dir n _ _ => n

/-- What discovery has done so far: the value of `fileCount` and the names sent
on `ch`, oldest first. -/
structure Discovered where
  fileCount : Nat
  sent : List String
deriving DecidableEq, Repr

/-- Lines 311-314 (and 93-96 in `main`): `fileCount++` under the lock, then the
name is sent on `ch`. -/
def publish (st : Discovered) (name : String) : Discovered :=
  { fileCount := st.fileCount + 1, sent := st.sent ++ [name] }

mutual
/-- The body of the loop of `getFiles` (main.go 304-315) for one entry of the
directory `dir`.  For a sub-directory the recursive call reads its listing and
returns at once when `os.ReadDir` fails (lines 297-301). -/
def getFilesEntry (dir : String) : Entry → Discovered → Discovered
  | .file n, st => publish st (joinPath dir n)
  | .dir n r cs, st => if r then getFilesLoop (joinPath dir n) cs st else st
/-- The loop of `getFiles` (main.go 303-316) over the listing of `dir`. -/
def getFilesLoop (dir : String) : List Entry → Discovered → Discovered
  | [], st => st
  | e :: rest, st => getFilesLoop dir rest (getFilesEntry dir e st)
end

/-- `getFiles(baseDir, dir, ch)` (main.go 292-317): `readable` and `files` are
the result of `os.ReadDir` on the directory. -/
def getFiles (dir : String) (readable : Bool) (files : List Entry) (st : Discovered) :
    Discovered :=
  if readable then getFilesLoop dir files st else st

/-- The loop of `main` over the top-level entries (main.go 88-98) followed by
`wg.Wait()`.  A top-level directory is handed to a `GetFiles` goroutine, a
top-level file is published by `main` itself under its bare name.  The
goroutines are run one after the other here; in the program their sends
interleave, which changes the order of `sent` only. -/
def mainDiscover : List Entry → Discovered → Discovered
  | [], st => st
  | .file n :: rest, st => mainDiscover rest (publish st n)
  | .dir n r cs :: rest, st => mainDiscover rest (getFiles n r cs st)

/-! ### The tree, as the specification sees it -/

mutual
/-- The non-directory entries in or beneath an entry, each as the list of names
leading to it. -/
def Entry.filePaths : Entry → List (List String)
  | .file n => [[n]]
  | .dir n _ cs => (listFilePaths cs).map (fun p => n :: p)
/-- The non-directory entries beneath a listing. -/
def listFilePaths : List Entry → List (List String)
  | [] => []
  | e :: rest => e.filePaths ++ listFilePaths rest
end

/-- A relative path written out: the names separated by slashes. -/
def relPath : List String → String
  | [] => ""
  | [n] => n
  | n :: m :: rest => n ++ "/" ++ relPath (m :: rest)

mutual
/-- Every directory in or beneath the entry can be read. -/
def Entry.allReadable : Entry → Bool
  | .file _ => true
  | .dir _ r cs => r && listAllReadable cs
/-- Every directory beneath the listing can be read. -/
def listAllReadable : List Entry → Bool
  | [] => true
  | e :: rest => e.allReadable && listAllReadable rest
end

/-- A name as a directory listing gives it: it contains no separator. -/
def goodName (n : String) : Bool :=
  !(n.data.contains '/')

mutual
/-- A listing as a file system gives it: the names contain no slash and no two
entries of one directory have the same name. -/
def Entry.wellFormed : Entry → Bool
  | .file n => goodName n
  | .dir n _ cs => goodName n && ((cs.map Entry.name).Nodup && listWellFormed cs)
/-- Well-formedness of every entry of a listing. -/
def listWellFormed : List Entry → Bool
  | [] => true
  | e :: rest => e.wellFormed && listWellFormed rest
end

/-- A source root as a file system gives it. -/
def treeWellFormed (top : List Entry) : Bool :=
  (top.map Entry.name).Nodup && listWellFormed top

/-! ## Command-line options (main.go 27-44)

The package `flag` of the Go library, as far as `main` uses it: a flag is a
named cell holding a value; `flag.Int` and its siblings create the cell with the
default value and return a pointer to it; `flag.Parse` stores the values given
on the command line into the cells. -/

/-- The value held by a flag. -/
inductive FlagValue where
  | int (v : Int)
  | str (v : String)
  | bool (v : Bool)
deriving DecidableEq, Repr

/-- The command-line flag set: the cells of the defined flags, and the arguments
that remain after the flags (`flag.Args()`). -/
structure FlagSet where
  formal : List (String × FlagValue)
  args : List String
deriving DecidableEq, Repr

/-- The current content of the cell of a flag. -/
def FlagSet.lookup (f : FlagSet) (name : String) : Option FlagValue :=
  match f.formal.find? (fun p => p.1 == name) with
  | none => none
  | some p => some p.2

/-- The calls `flag.Int`, `flag.String`, `flag.Bool`: a new cell holding the default. -/
def FlagSet.define (f : FlagSet) (name : String) (value : FlagValue) : FlagSet :=
  { f with formal := f.formal ++ [(name, value)] }

/-- Stores a value into the cell of a flag. -/
def FlagSet.store (f : FlagSet) (name : String) (value : FlagValue) : FlagSet :=
  { f with formal := f.formal.map (fun p => if p.1 == name then (name, value) else p) }

/-- Reading through the pointer returned by `flag.Int`. -/
def FlagSet.derefInt (f : FlagSet) (name : String) : Int :=
  match f.lookup name with
  | some (.int v) => v
  | _ => 0

/-- Reading through the pointer returned by `flag.String`. -/
def FlagSet.derefString (f : FlagSet) (name : String) : String :=
  match f.lookup name with
  | some (.str v) => v
  | _ => ""

/-- Reading through the pointer returned by `flag.Bool`. -/
def FlagSet.derefBool (f : FlagSet) (name : String) : Bool :=
  match f.lookup name with
  | some (.bool v) => v
  | _ => false

/-- `strconv.ParseBool`. -/
def parseBool (s : String) : Option Bool :=
  if s ∈ ["1", "t", "T", "TRUE", "true", "True"] then some true
  else if s ∈ ["0", "f", "F", "FALSE", "false", "False"] then some false
  else none

/-- The value a flag takes from its textual argument; `atoi` stands for the
integer reader of the library (`strconv.ParseInt`). -/
def FlagValue.parse (atoi : String → Option Int) (old : FlagValue) (text : String) :
    Option FlagValue :=
  match old with
  | .int _ => (atoi text).map .int
  | .str _ => some (.str text)
  | .bool _ => (parseBool text).map .bool

/-- Splits `name=value` at the first `=` that is not the first character. -/
def splitAssign (name : List Char) : String × Option String :=
  match name with
  | [] => ("", none)
  | c :: rest =>
    match rest.span (fun x => x != '=') with
    | (pre, []) => (String.mk (c :: pre), none)
    | (pre, _ :: value) => (String.mk (c :: pre), some (String.mk value))

/-- The result of looking at the next argument. -/
inductive ParseStep where
  | more (f : FlagSet)
  | stop (f : FlagSet)
  | fail (status : Nat)

/-- One round of the flag parser of the Go library (`parseOne`): the next
argument is a flag when it has at least two characters and starts with `-`;
`--` ends the flags; a flag that is not boolean takes its value from `=` or
from the next argument.  With the `ExitOnError` policy of the command-line flag
set an error ends the process with status 2 (0 after `-h` or `-help`). -/
def parseOne (atoi : String → Option Int) (f : FlagSet) : ParseStep :=
  match f.args with
  | [] => .stop f
  | s :: rest =>
    match s.data with
    | '-' :: c :: cs =>
      if c = '-' ∧ cs = [] then .stop { f with args := rest }
      else
        let name := if c = '-' then cs else c :: cs
        match name with
        | [] => .fail 2
        | c0 :: _ =>
          if c0 = '-' ∨ c0 = '=' then .fail 2
          else
            match splitAssign name with
            | (key, value) =>
              match f.lookup key with
              | none => if key = "help" ∨ key = "h" then .fail 0 else .fail 2
              | some (.bool b) =>
                match FlagValue.parse atoi (.bool b) (value.getD "true") with
                | none => .fail 2
                | some v => .more ({ f with args := rest }.store key v)
              | some old =>
                match value, rest with
                | some text, _ =>
                  match FlagValue.parse atoi old text with
                  | none => .fail 2
                  | some v => .more ({ f with args := rest }.store key v)
                | none, text :: rest1 =>
                  match FlagValue.parse atoi old text with
                  | none => .fail 2
                  | some v => .more ({ f with args := rest1 }.store key v)
                | none, [] => .fail 2
    | _ => .stop f

/-- The loop of `flag.Parse`; every round consumes an argument, so as many rounds
as there are arguments suffice. -/
def parseLoop (atoi : String → Option Int) : Nat → FlagSet → Except Nat FlagSet
  | 0, f => .ok f
  | fuel + 1, f =>
    match parseOne atoi f with
    | .stop f1 => .ok f1
    | .fail status => .error status
    | .more f1 => parseLoop atoi fuel f1

/-- `flag.Parse()` on the arguments of the command line. -/
def FlagSet.Parse (atoi : String → Option Int) (f : FlagSet) (arguments : List String) :
    Except Nat FlagSet :=
  parseLoop atoi (arguments.length + 1) { f with args := arguments }

/-- The values `main` works with after line 44. -/
structure Options where
  thread : Int
  displayTime : Int
  retryCount : Int
  waitTime : Int
  logFileName : String
  debugMode : Bool
  srcDir : String
  dstDir : String
deriving DecidableEq, Repr

/-- Lines 27-44 of `main`.  Each of the six variables is assigned by reading
through the pointer in the same statement that defines the flag (`thread :=
*flag.Int("t", 16, ...)`), that is before `flag.Parse()` at line 36 runs.  After
the parse the two positional arguments are taken; with fewer than two the usage
is printed and the process exits with status 1. -/
def mainOptions (atoi : String → Option Int) (arguments : List String) : Except Nat Options :=
  let f0 : FlagSet := { formal := [], args := [] }
  let f1 := f0.define "t" (.int 16)
  let thread := f1.derefInt "t"
  let f2 := f1.define "d" (.int 1)
  let displayTime := f2.derefInt "d"
  let f3 := f2.define "r" (.int 30)
  let retryCount := f3.derefInt "r"
  let f4 := f3.define "w" (.int 3)
  let waitTime := f4.derefInt "w"
  let f5 := f4.define "l" (.str "rcopy.log")
  let logFileName := f5.derefString "l"
  let f6 := f5.define "v" (.bool false)
  let debugMode := f6.derefBool "v"
  match f6.Parse atoi arguments with
  | .error status => .error status
  | .ok f7 =>
    match f7.args with
    | srcDir :: dstDir :: _ =>
      .ok { thread := thread, displayTime := displayTime, retryCount := retryCount,
            waitTime := waitTime, logFileName := logFileName, debugMode := debugMode,
            srcDir := srcDir, dstDir := dstDir }
    | _ => .error 1

/-- The flag cells as `flag.Parse()` leaves them for `main` (the same six
definitions as in `mainOptions`). -/
def mainFlags (atoi : String → Option Int) (arguments : List String) : Except Nat FlagSet :=
  let f0 : FlagSet := { formal := [], args := [] }
  (((((f0.define "t" (.int 16)).define "d" (.int 1)).define "r" (.int 30)).define "w"
    (.int 3)).define "l" (.str "rcopy.log")).define "v" (.bool false) |>.Parse atoi arguments

/-- A reader of decimal integers with an optional sign, for evaluating the
parser on concrete command lines. -/
def digitsValue : List Char → Nat → Option Nat
  | [], acc => some acc
  | c :: cs, acc => if c.isDigit then digitsValue cs (acc * 10 + (c.toNat - 48)) else none

/-- See `digitsValue`. -/
def atoiDecimal (s : String) : Option Int :=
  match s.data with
  | [] => none
  | '-' :: c :: cs => (digitsValue (c :: cs) 0).map (fun n => -(n : Int))
  | '+' :: c :: cs => (digitsValue (c :: cs) 0).map (fun n => (n : Int))
  | cs => (digitsValue cs 0).map (fun n => (n : Int))

/-! ## The pipeline: goroutines and unbuffered channels

`ch` and `chErr` are made without a capacity (main.go 76-77), so a send and the
matching receive happen together, as one step of the two goroutines involved.
The counters are updated under the lock `mu`, one update per step.
`displayProcess` only reads the counters and has no step of its own. -/

/-- The parameters of a run: the number of `CopyFile` goroutines started at lines
80-82, the bound of the retry loop at line 104, the name of the log file opened
at line 52, and the listing of the source root read at line 69. -/
structure Config where
  thread : Nat
  retryCount : Nat
  logFileName : String
  topFiles : List Entry

/-- Where a `CopyFile` goroutine stands. -/
inductive Worker where
  /-- Line 236: blocked on the receive from `ch`. -/
  | recv
  /-- Lines 239-258: holds a task. -/
  | work (file : String)
  /-- Line 263: `copyFile` failed, blocked on the send to `chErr`. -/
  | sendErr (file : String)
  /-- Lines 264-266: the send to `chErr` was taken, `errorCount++` is next. -/
  | countErr
deriving DecidableEq, Repr

/-- A `GetFiles` goroutine: the names its traversal still has to publish, and the
name for which `fileCount++` is done while the send on `ch` is not (blocked at
line 314). -/
structure Walker where
  pending : List String
  sending : Option String
deriving DecidableEq, Repr

/-- The `GetFiles` goroutine started at line 91 for a top-level directory: its
script is what `getFiles` publishes for that directory. -/
def walkerFor (n : String) (r : Bool) (cs : List Entry) : Walker :=
  { pending := (getFiles n r cs ⟨0, []⟩).sent, sending := none }

/-- The goroutine has returned (`wg.Done()`). -/
def Walker.finished (w : Walker) : Bool :=
  w.pending.isEmpty && w.sending.isNone

/-- Where `main` stands, from line 88 on. -/
inductive MainPc where
  /-- Line 88: the loop over the top-level entries still to visit. -/
  | discover (rest : List Entry)
  /-- Line 96: blocked on the send of a top-level file name. -/
  | sendTop (name : String) (rest : List Entry)
  /-- Line 99: `wg.Wait()`. -/
  | wait
  /-- Line 104: the test `retCnt < retryCount`. -/
  | loopHead
  /-- Lines 105-115: waiting for a tick, then the completion test. -/
  | poll
  /-- Line 117: the test `errorCount == 0`. -/
  | checkErr
  /-- Line 123: after the sleep, blocked on the receive from `chErr`. -/
  | drainRecv
  /-- Line 124: blocked on the send of a failed name to `ch`. -/
  | drainSend (file : String)
  /-- Line 128: the loop is left, `close(ch)` is next. -/
  | loopExit
  /-- Line 129: `ch` is closed, `main` is about to return. -/
  | closed
  /-- The process has ended with this status. -/
  | exited (code : Nat)

/-- The shared counters (main.go 16-24), `main` and the goroutines. -/
structure State where
  completed : Nat
  skipCount : Nat
  errorCount : Nat
  fileCount : Nat
  retCnt : Nat
  main : MainPc
  walkers : List Walker
  workers : List Worker
  crashed : Bool

/-- The state after the workers are started (line 82): all counters are 0, every
worker waits on `ch`, `main` enters the loop over the top-level entries. -/
def init (cfg : Config) : State :=
  { completed := 0, skipCount := 0, errorCount := 0, fileCount := 0, retCnt := 0,
    main := .discover cfg.topFiles, walkers := [],
    workers := List.replicate cfg.thread .recv, crashed := false }

/-- Lines 27-82 of `main`: the options, the log file (line 52) and the listing of
the source root (line 69); a failure of either ends the process with status 1.
The workers are started from `thread` by the loop `for i := 0; i < thread; i++`
and the retry loop is bounded by `retryCount`. -/
def mainStart (atoi : String → Option Int) (arguments : List String)
    (openLog : String → Bool) (readDir : String → Option (List Entry)) : Except Nat Config :=
  match mainOptions atoi arguments with
  | .error status => .error status
  | .ok o =>
    if openLog o.logFileName then
      match readDir o.srcDir with
      | none => .error 1
      | some topFiles =>
        .ok { thread := o.thread.toNat, retryCount := o.retryCount.toNat,
              logFileName := o.logFileName, topFiles := topFiles }
    else .error 1

/-- The steps of the pipeline.  A step on a channel names both partners. -/
inductive Action where
  /-- A step of `main` that involves no channel. -/
  | main
  /-- A send of `main` on `ch` (line 96 or line 124) taken by worker `i`. -/
  | mainSend (i : Nat)
  /-- The receive of `main` from `chErr` (line 123), from worker `i`. -/
  | mainRecvErr (i : Nat)
  /-- Goroutine `j` of `GetFiles` counts its next file (lines 311-313). -/
  | walk (j : Nat)
  /-- The send of goroutine `j` on `ch` (line 314) taken by worker `i`. -/
  | walkSend (j i : Nat)
  /-- Worker `i` handles its task (lines 239-279) up to the counter update or
  the send on `chErr`; the stat results and the result of `copyFile` come from
  the file system. -/
  | work (i : Nat) (srcInfo dstInfo : Option FileInfo) (copy : CopyResult)
  /-- Worker `i` counts its error (lines 264-266). -/
  | countErr (i : Nat)
  /-- The receive of worker `i` (line 236) on the closed channel: it returns at
  once with the zero value, the empty string. -/
  | recvClosed (i : Nat)

/-- The steps of `main` that involve no channel (main.go 88-129).

* Line 91 starts a `GetFiles` goroutine for a top-level directory; its script is
  what `getFiles` publishes for that directory.
* Line 99 waits until every goroutine has returned; line 104 then sets `retCnt`
  to 0.
* The completion test of line 111 reads the four counters, without the lock,
  as one step: after `wg.Wait()` `fileCount` no longer changes and the three
  other counters only grow, so a test that holds on values read one after the
  other also holds on the values at the end of the read.  When the test fails
  the loop waits for the next tick and the state is unchanged.
* At `drainRecv` and `drainSend` `main` is blocked on a channel.  The `range`
  loop of line 123 ends only when `chErr` is closed, and no statement of the
  program closes it, so there is no step from the drain to `retCnt++`.
* Line 128 closes `ch`; then `main` returns, which ends the process with
  status 0.  Between the two the workers run on the closed channel. -/
def mainStep (cfg : Config) (s : State) : Option State :=
  match s.main with
  | .discover [] => some { s with main := .wait }
  | .discover (.file n :: rest) =>
    some { s with fileCount := s.fileCount + 1, main := .sendTop n rest }
  | .discover (.dir n r cs :: rest) =>
    some { s with walkers := s.walkers ++ [walkerFor n r cs], main := .discover rest }
  | .sendTop _ _ => none
  | .wait =>
    if s.walkers.all Walker.finished then some { s with retCnt := 0, main := .loopHead }
    else none
  | .loopHead =>
    if s.retCnt < cfg.retryCount then some { s with main := .poll }
    else some { s with main := .loopExit }
  | .poll =>
    if s.fileCount ≤ s.completed + s.errorCount + s.skipCount then
      some { s with main := .checkErr }
    else some s
  | .checkErr =>
    if s.errorCount = 0 then some { s with main := .loopExit }
    else some { s with main := .drainRecv }
  | .drainRecv => none
  | .drainSend _ => none
  | .loopExit => some { s with main := .closed }
  | .closed => some { s with main := .exited 0 }
  | .exited _ => none

/-- The end of one iteration of a worker (main.go 255-279): the counter of the
outcome is incremented and the worker returns to the receive; after a failed
copy the worker first has to send on `chErr`; a panic ends the process. -/
def finishTask (s : State) (i : Nat) (file : String) : Outcome → State
  | .skip => { s with skipCount := s.skipCount + 1, workers := s.workers.set i .recv }
  | .done => { s with completed := s.completed + 1, workers := s.workers.set i .recv }
  | .fail => { s with workers := s.workers.set i (.sendErr file) }
  | .panic => { s with crashed := true }

/-- One step of the pipeline; `none` when the step is not enabled.  Nothing runs
once the process has crashed or exited.  The receive at line 236 has no test for
a closed channel (`file := <-ch`), so once `main` has closed `ch` every waiting
worker receives the empty string and handles it like a task.  (No goroutine
sends on `ch` after `close(ch)`: `main` is past its own sends and, being past
`wg.Wait()`, past those of the `GetFiles` goroutines.) -/
def step (cfg : Config) (s : State) (a : Action) : Option State :=
  if s.crashed then none
  else
    match s.main, a with
    | .exited _, _ => none
    | _, .main => mainStep cfg s
    | .sendTop n rest, .mainSend i =>
      match s.workers.get? i with
      | some .recv => some { s with workers := s.workers.set i (.work n), main := .discover rest }
      | _ => none
    | .drainSend f, .mainSend i =>
      match s.workers.get? i with
      | some .recv => some { s with workers := s.workers.set i (.work f), main := .drainRecv }
      | _ => none
    | _, .mainSend _ => none
    | .drainRecv, .mainRecvErr i =>
      match s.workers.get? i with
      | some (.sendErr f) =>
        some { s with workers := s.workers.set i .countErr, main := .drainSend f }
      | _ => none
    | _, .mainRecvErr _ => none
    | _, .walk j =>
      match s.walkers.get? j with
      | some { pending := f :: rest, sending := none } =>
        some { s with fileCount := s.fileCount + 1,
                      walkers := s.walkers.set j { pending := rest, sending := some f } }
      | _ => none
    | _, .walkSend j i =>
      match s.walkers.get? j, s.workers.get? i with
      | some { pending := p, sending := some f }, some .recv =>
        some { s with walkers := s.walkers.set j { pending := p, sending := none },
                      workers := s.workers.set i (.work f) }
      | _, _ => none
    | _, .work i srcInfo dstInfo copy =>
      match s.workers.get? i with
      | some (.work f) => some (finishTask s i f (taskOutcome srcInfo dstInfo copy))
      | _ => none
    | _, .countErr i =>
      match s.workers.get? i with
      | some .countErr =>
        some { s with errorCount := s.errorCount + 1, workers := s.workers.set i .recv }
      | _ => none
    | .closed, .recvClosed i =>
      match s.workers.get? i with
      | some .recv => some { s with workers := s.workers.set i (.work "") }
      | _ => none
    | _, .recvClosed _ => none

/-- The states the pipeline can reach from `init`. -/
inductive Reachable (cfg : Config) : State → Prop where
  | init : Reachable cfg (init cfg)
  | step {s s1 : State} (a : Action) : Reachable cfg s → step cfg s a = some s1 →
      Reachable cfg s1

/-- The state after a sequence of steps, when all of them are enabled. -/
def run (cfg : Config) : State → List Action → Option State
  | s, [] => some s
  | s, a :: rest =>
    match step cfg s a with
    | none => none
    | some s1 => run cfg s1 rest

/-- The exit status of the process, once it has ended: the status given by
`main`, or 2 after a panic. -/
def exitStatus (s : State) : Option Nat :=
  if s.crashed then some 2
  else
    match s.main with
    | .exited c => some c
    | _ => none

/-! ## Invariants of the pipeline -/

/-- The tasks that are counted in `fileCount` and not yet in an outcome counter:
held by a worker, or offered on `ch` by a sender that has already counted. -/
def Worker.load : Worker → Nat
  | .work _ => 1
  | .sendErr _ => 1
  | _ => 0

/-- See `Worker.load`. -/
def Walker.load (w : Walker) : Nat :=
  if w.sending.isSome then 1 else 0

/-- See `Worker.load`. -/
def MainPc.load : MainPc → Nat
  | .sendTop _ _ => 1
  | _ => 0

/-- The number of tasks in flight. -/
def State.inFlight (s : State) : Nat :=
  (s.workers.map Worker.load).sum + (s.walkers.map Walker.load).sum + s.main.load

/-- The retry drain of lines 123-125: `main` is blocked on `chErr` or is
re-sending a failed name. -/
def MainPc.inDrain : MainPc → Bool
  | .drainRecv => true
  | .drainSend _ => true
  | _ => false

/-- `main` has not reached `close(ch)` yet. -/
def MainPc.chOpen : MainPc → Bool
  | .closed => false
  | .exited _ => false
  | _ => true

/-- `main` has left the retry loop. -/
def MainPc.pastLoop : MainPc → Bool
  | .loopExit => true
  | .closed => true
  | .exited _ => true
  | _ => false

/-- The inductive invariant of the pipeline: `errorCount` is 0, `main` is not in
the retry drain, no worker is past its send on `chErr`, and, as long as `ch` is
open, every counted task is either in an outcome counter or in flight. -/
def Invariant (s : State) : Prop :=
  s.errorCount = 0 ∧ s.main.inDrain = false ∧ (∀ w ∈ s.workers, w ≠ Worker.countErr) ∧
    (s.main.chOpen = true →
      s.completed + s.skipCount + s.errorCount + s.inFlight = s.fileCount)

/-- The steps of the pipeline up to `close(ch)`, other than the handling of a
task by a worker, one constructor per case of `step`: the statements of `main`,
the counting of a file by a `GetFiles` goroutine, the transfers over `ch` and
`chErr`, and the counting of an error. -/
inductive Move (cfg : Config) : State → State → Prop where
  | discoverDone {s : State} : s.crashed = false → s.main = .discover [] →
      Move cfg s { s with main := .wait }
  | countTop {s : State} {n : String} {rest : List Entry} : s.crashed = false →
      s.main = .discover (.file n :: rest) →
      Move cfg s { s with fileCount := s.fileCount + 1, main := .sendTop n rest }
  | spawn {s : State} {n : String} {r : Bool} {cs rest : List Entry} : s.crashed = false →
      s.main = .discover (.dir n r cs :: rest) →
      Move cfg s { s with walkers := s.walkers ++ [walkerFor n r cs], main := .discover rest }
  | waitDone {s : State} : s.crashed = false → s.main = .wait →
      s.walkers.all Walker.finished = true →
      Move cfg s { s with retCnt := 0, main := .loopHead }
  | loopEnter {s : State} : s.crashed = false → s.main = .loopHead →
      s.retCnt < cfg.retryCount → Move cfg s { s with main := .poll }
  | loopLimit {s : State} : s.crashed = false → s.main = .loopHead →
      ¬ s.retCnt < cfg.retryCount → Move cfg s { s with main := .loopExit }
  | pollPass {s : State} : s.crashed = false → s.main = .poll →
      s.fileCount ≤ s.completed + s.errorCount + s.skipCount →
      Move cfg s { s with main := .checkErr }
  | pollWait {s : State} : s.crashed = false → s.main = .poll → Move cfg s s
  | errNone {s : State} : s.crashed = false → s.main = .checkErr → s.errorCount = 0 →
      Move cfg s { s with main := .loopExit }
  | errSome {s : State} : s.crashed = false → s.main = .checkErr → s.errorCount ≠ 0 →
      Move cfg s { s with main := .drainRecv }
  | close {s : State} : s.crashed = false → s.main = .loopExit →
      Move cfg s { s with main := .closed }
  | sendTop {s : State} {n : String} {rest : List Entry} {i : Nat} : s.crashed = false →
      s.main = .sendTop n rest → s.workers.get? i = some .recv →
      Move cfg s { s with workers := s.workers.set i (.work n), main := .discover rest }
  | drainSend {s : State} {f : String} {i : Nat} : s.crashed = false →
      s.main = .drainSend f → s.workers.get? i = some .recv →
      Move cfg s { s with workers := s.workers.set i (.work f), main := .drainRecv }
  | drainRecv {s : State} {f : String} {i : Nat} : s.crashed = false →
      s.main = .drainRecv → s.workers.get? i = some (.sendErr f) →
      Move cfg s { s with workers := s.workers.set i .countErr, main := .drainSend f }
  | walk {s : State} {f : String} {rest : List String} {j : Nat} : s.crashed = false →
      s.walkers.get? j = some { pending := f :: rest, sending := none } →
      Move cfg s
        { s with fileCount := s.fileCount + 1,
                 walkers := s.walkers.set j { pending := rest, sending := some f } }
  | walkSend {s : State} {f : String} {p : List String} {j i : Nat} : s.crashed = false →
      s.walkers.get? j = some { pending := p, sending := some f } →
      s.workers.get? i = some .recv →
      Move cfg s
        { s with walkers := s.walkers.set j { pending := p, sending := none },
                 workers := s.workers.set i (.work f) }
  | countErr {s : State} {i : Nat} : s.crashed = false →
      s.workers.get? i = some .countErr →
      Move cfg s { s with errorCount := s.errorCount + 1, workers := s.workers.set i .recv }

/-- The steps of the pipeline once `ch` is closed, other than the handling of a
task by a worker: the return of `main`, and the receive of a worker from the
closed channel. -/
inductive Late : State → State → Prop where
  | exit {s : State} : s.crashed = false → s.main = .closed →
      Late s { s with main := .exited 0 }
  | recvClosed {s : State} {i : Nat} : s.crashed = false → s.main = .closed →
      s.workers.get? i = some .recv →
      Late s { s with workers := s.workers.set i (.work "") }

/-- `main` is past `wg.Wait()`. -/
def MainPc.pastWait : MainPc → Bool
  | .discover _ => false
  | .sendTop _ _ => false
  | .wait => false
  | _ => true

/-- `main` is past a completion test that held, and `ch` is open. -/
def MainPc.pastTest : MainPc → Bool
  | .checkErr => true
  | .loopExit => true
  | _ => false

/-- The files `main` has still to count itself or to hand to a goroutine. -/
def MainPc.uncounted : MainPc → Nat
  | .discover rest => (mainDiscover rest ⟨0, []⟩).fileCount
  | .sendTop _ rest => (mainDiscover rest ⟨0, []⟩).fileCount
  | _ => 0

/-- The files that are not counted in `fileCount` yet. -/
def State.uncounted (s : State) : Nat :=
  s.main.uncounted + (s.walkers.map (fun w => w.pending.length)).sum

/-- The inductive invariant of the pipeline, second part: once `main` is past
`wg.Wait()` every `GetFiles` goroutine has returned; `retCnt` is 0; with a
positive retry bound no task is in flight between a completion test that held
and `close(ch)`; and `fileCount` plus the files not counted yet is the number of
files that discovery publishes. -/
def Progress (cfg : Config) (s : State) : Prop :=
  (s.main.pastWait = true → s.walkers.all Walker.finished = true) ∧
  s.retCnt = 0 ∧
  (0 < cfg.retryCount → s.main.pastTest = true → s.inFlight = 0) ∧
  s.fileCount + s.uncounted = (mainDiscover cfg.topFiles ⟨0, []⟩).fileCount

/-- The inductive invariant of the pipeline, third part: the number of workers
is the one `main` started, and once `ch` is closed a worker holds no name but
the empty string it received from the closed channel. -/
def Closing (cfg : Config) (s : State) : Prop :=
  s.workers.length = cfg.thread ∧
  (0 < cfg.retryCount → s.main = .closed →
    ∀ w ∈ s.workers, w = Worker.recv ∨ w = Worker.work "" ∨ w = Worker.sendErr "")

/-- The effects of two stretches of discovery, one after the other. -/
def Discovered.append (a b : Discovered) : Discovered :=
  { fileCount := a.fileCount + b.fileCount, sent := a.sent ++ b.sent }

/-- The names `main` still has to publish. -/
def MainPc.tasks : MainPc → List String
  | .discover rest => (mainDiscover rest ⟨0, []⟩).sent
  | .sendTop n rest => n :: (mainDiscover rest ⟨0, []⟩).sent
  | .drainSend f => [f]
  | _ => []

/-- The names a `GetFiles` goroutine still has to publish. -/
def Walker.tasks (w : Walker) : List String :=
  w.sending.toList ++ w.pending

/-- The name a worker holds. -/
def Worker.tasks : Worker → List String
  | .work f => [f]
  | .sendErr f => [f]
  | _ => []

/-- The task `g` is somewhere in the pipeline: not published yet, or held by a
worker that has not counted it. -/
def State.hasTask (s : State) (g : String) : Prop :=
  g ∈ s.main.tasks ∨ (∃ w ∈ s.walkers, g ∈ w.tasks) ∨ (∃ w ∈ s.workers, g ∈ w.tasks)

/-- How far `main` is from the end of the retry loop. -/
def MainPc.rank : MainPc → Nat
  | .discover rest => 6 + rest.length
  | .sendTop _ rest => 7 + rest.length
  | .wait => 5
  | .loopHead => 4
  | .poll => 3
  | .checkErr => 2
  | _ => 0

/-- A bound on the number of steps to the end of the retry loop when no copy
fails: every file still has to be counted, sent and handled. -/
def State.potential (s : State) : Nat :=
  s.main.rank + 3 * s.uncounted + 2 * ((s.walkers.map Walker.load).sum + s.main.load) +
    (s.workers.map Worker.load).sum

/-! ## The pipeline on a file system -/

/-- The destination of a task exists, has the size of the source, and the source
is not newer: `checkDiff` asks for no copy. -/
def upToDate (fs : FileSystem) (srcDir dstDir file : String) : Prop :=
  ∃ s d, stat fs (taskPath srcDir file) = some s ∧ stat fs (taskPath dstDir file) = some d ∧
    s.size = d.size ∧ ¬ d.modTime < s.modTime

/-- The pipeline together with the file system it works on. -/
structure World where
  st : State
  fs : FileSystem

/-- The steps of the pipeline on a file system: a step that handles no file; the
handling of its task by worker `i`, where `now` is the clock and `fault` the
system call of `copyFile` that fails, if any; or a record written to the log
file by any of the goroutines. -/
inductive FsAction where
  | move (a : Action)
  | copy (i : Nat) (now : Int) (fault : Option Fault)
  | log (now : Int) (record : List Nat)

/-- A record written through the handle opened at line 52 (`O_APPEND`): it is
appended to the file at `path`.  When the path no longer names a regular file
nothing that the program can see changes. -/
def appendLog (fs : FileSystem) (path : String) (now : Int) (record : List Nat) : FileSystem :=
  match fs path with
  | none => fs
  | some f =>
    if f.isDir then fs
    else Function.update fs path (some { data := f.data ++ record, modTime := now })

/-- One step of the pipeline on a file system whose time stamps have resolution
`res`.  The worker's step is the step `Action.work` of the pipeline with the
answers the file system gives: the two stats of `checkDiff`, and the result and
the effect of `copyFile`; no other answer is possible.  A log record can be
written at any moment while the process runs (`logger.Info` in `main`, in the
goroutines and in the progress display).  Nothing but the program writes to the
file system. -/
def fsStep (cfg : Config) (srcDir dstDir : String) (res : Int) (w : World) :
    FsAction → Option World
  | .move (.work _ _ _ _) => none
  | .move a =>
    match step cfg w.st a with
    | none => none
    | some s1 => some { st := s1, fs := w.fs }
  | .copy i now fault =>
    match w.st.workers.get? i with
    | some (.work f) =>
      match step cfg w.st (.work i (stat w.fs (taskPath srcDir f)) (stat w.fs (taskPath dstDir f))
          (copyFile w.fs res now fault (taskPath srcDir f) (taskPath dstDir f)
            (stat w.fs (taskPath srcDir f))).2) with
      | none => none
      | some s1 => some { st := s1, fs := (copyTask w.fs res now fault srcDir dstDir f).1 }
    | _ => none
  | .log now record =>
    if w.st.crashed then none
    else
      match w.st.main with
      | .exited _ => none
      | _ => some { st := w.st, fs := appendLog w.fs cfg.logFileName now record }

/-- The worlds a run reaches from the file system `fs0`. -/
inductive FsReachable (cfg : Config) (srcDir dstDir : String) (res : Int) (fs0 : FileSystem) :
    World → Prop where
  | init : FsReachable cfg srcDir dstDir res fs0 { st := init cfg, fs := fs0 }
  | step {w w1 : World} (a : FsAction) : FsReachable cfg srcDir dstDir res fs0 w →
      fsStep cfg srcDir dstDir res w a = some w1 → FsReachable cfg srcDir dstDir res fs0 w1

/-- The world after a sequence of steps. -/
def fsRun (cfg : Config) (srcDir dstDir : String) (res : Int) :
    World → List FsAction → Option World
  | w, [] => some w
  | w, a :: rest =>
    match fsStep cfg srcDir dstDir res w a with
    | none => none
    | some w1 => fsRun cfg srcDir dstDir res w1 rest

/-- The names discovery publishes for the source root of a run. -/
def Config.tasks (cfg : Config) : List String :=
  (mainDiscover cfg.topFiles ⟨0, []⟩).sent

/-- The paths of a run are apart: nothing the program writes (the destination of
a task, the destination root itself, which a worker on the closed channel takes
for a destination, and the log file) is the source of a task; no file has an
empty name; and the log file is no destination of a task either. -/
def pathsApart (cfg : Config) (srcDir dstDir : String) : Prop :=
  "" ∉ cfg.tasks ∧
  (∀ f ∈ "" :: cfg.tasks, ∀ g ∈ cfg.tasks, taskPath dstDir f ≠ taskPath srcDir g) ∧
  (∀ g ∈ cfg.tasks, cfg.logFileName ≠ taskPath srcDir g ∧ cfg.logFileName ≠ taskPath dstDir g)

/-- Every discovered name is a regular file under the source root, and no
destination of a task is a directory. -/
def sourcesPlain (cfg : Config) (srcDir dstDir : String) (fs : FileSystem) : Prop :=
  ∀ g ∈ cfg.tasks, isPlainFile fs (taskPath srcDir g) = true ∧
    isDirectory fs (taskPath dstDir g) = false

/-- No goroutine has panicked and no worker is blocked on `chErr`. -/
def Quiet (s : State) : Prop :=
  s.crashed = false ∧ ∀ wk ∈ s.workers, ∀ f, wk ≠ Worker.sendErr f

/-- As long as `ch` is open: every task in the pipeline is a discovered name,
every discovered name is still in the pipeline or has an up-to-date
destination, and the source files are as they were at the start. -/
def Tracked (cfg : Config) (srcDir dstDir : String) (fs0 : FileSystem) (w : World) : Prop :=
  w.st.main.chOpen = true →
    (∀ g, w.st.hasTask g → g ∈ cfg.tasks) ∧
    (∀ g ∈ cfg.tasks, w.st.hasTask g ∨ upToDate w.fs srcDir dstDir g) ∧
    (∀ g ∈ cfg.tasks, w.fs (taskPath srcDir g) = fs0 (taskPath srcDir g))

/-- Once the retry loop is left every discovered name has an up-to-date
destination. -/
def Ended (cfg : Config) (srcDir dstDir : String) (w : World) : Prop :=
  w.st.main.pastLoop = true → ∀ g ∈ cfg.tasks, upToDate w.fs srcDir dstDir g

/-- As long as `ch` is open nothing has been copied: the file system is still
`fs1` but for the log file, no copy was needed or has failed, and every task in
the pipeline is a discovered name. -/
def Settled (cfg : Config) (fs1 : FileSystem) (w : World) : Prop :=
  w.st.main.chOpen = true →
    (∀ p, p ≠ cfg.logFileName → w.fs p = fs1 p) ∧ w.st.completed = 0 ∧
    w.st.crashed = false ∧
    (∀ wk ∈ w.st.workers, ∀ f, wk ≠ Worker.sendErr f) ∧
    (∀ g, w.st.hasTask g → g ∈ cfg.tasks)

/-- The source root is a directory, and no goroutine has panicked after the end
of the retry loop. -/
def Sound (srcDir : String) (w : World) : Prop :=
  isDirectory w.fs srcDir = true ∧ (w.st.main.pastLoop = true → w.st.crashed = false)

/-! ## Concrete runs -/

/-- A source root with the single file `a.txt`, with the numbers of workers and
of retries and the log file that `main` uses. -/
def cfgOne : Config :=
  { thread := 16, retryCount := 30, logFileName := "rcopy.log", topFiles := [.file "a.txt"] }

/-- Worker 0 has received `a.txt`. -/
def heldState : State :=
  { completed := 0, skipCount := 0, errorCount := 0, fileCount := 1, retCnt := 0,
    main := .discover [], walkers := [],
    workers := .work "a.txt" :: List.replicate 15 .recv, crashed := false }

/-- The copy of `a.txt` has failed: worker 0 waits at line 263. -/
def blockedState : State :=
  { heldState with workers := .sendErr "a.txt" :: List.replicate 15 .recv }

/-- An empty source root, with the numbers `main` uses. -/
def cfgEmpty : Config :=
  { thread := 16, retryCount := 30, logFileName := "rcopy.log", topFiles := [] }

/-- The steps of `main` from the end of discovery to `close(ch)`: past
`wg.Wait()`, into the retry loop, the completion test, the error test, out of
the loop, `close(ch)`. -/
def toClose : List Action :=
  [.main, .main, .main, .main, .main, .main]

/-- A worker on the closed channel: worker 0 receives the empty string and
handles it.  The two stats are those of the source root and of the destination
root, two directories of the same size, the destination the younger one. -/
def onClosed : List Action :=
  [.recvClosed 0,
   .work 0 (some ⟨4096, 1700000000000000000⟩) (some ⟨4096, 1700000100000000000⟩) .err]

/-- A command line that sets every flag. -/
def cmdLine : List String :=
  ["-t", "4", "-r", "2", "-d", "5", "-w=1", "-l", "my.log", "-v", "src", "dst"]

/-- The tree `a.txt`, `sub/b.txt`. -/
def sampleTree : List Entry :=
  [.file "a.txt", .dir "sub" true [.file "b.txt"]]

/-- The files of `sampleTree` under the directory `src` (10 and 20 bytes, with
time stamps in nanoseconds), the empty directory `dst`, and the log file. -/
def sampleFs : FileSystem := fun p =>
  if p = "src/a.txt" then some { data := List.replicate 10 0, modTime := 1700000000123456789 }
  else if p = "src/sub/b.txt" then
    some { data := List.replicate 20 0, modTime := 1700000001500000000 }
  else if p = "src" then
    some { data := List.replicate 128 0, modTime := 1700000001500000000, isDir := true }
  else if p = "src/sub" then
    some { data := List.replicate 96 0, modTime := 1700000001500000000, isDir := true }
  else if p = "dst" then
    some { data := List.replicate 64 0, modTime := 1700000050000000000, isDir := true }
  else if p = "rcopy.log" then some { data := [], modTime := 1700000090000000000 }
  else none

/-- The source root `a.txt`, `sub/b.txt`, with the numbers `main` uses. -/
def cfgTree : Config :=
  { thread := 16, retryCount := 30, logFileName := "rcopy.log", topFiles := sampleTree }

/-- A schedule of a whole run on `cfgTree` up to the end of the retry loop:
`main` counts and sends `a.txt`, starts the goroutine for `sub`, which counts and
sends `sub/b.txt`; workers 0 and 1 handle the two tasks; `main` passes
`wg.Wait()`, the completion test and the error test, and leaves the loop. -/
def sampleSchedule (now : Int) : List FsAction :=
  [.move .main, .move (.mainSend 0), .move .main, .move .main, .move (.walk 0),
   .move (.walkSend 0 1), .copy 0 now none, .copy 1 now none,
   .move .main, .move .main, .move .main, .move .main]

/-- The rest of the run: a record goes to the log, `main` closes `ch`, worker 0
receives the empty string from the closed channel and handles it, and `main`
returns. -/
def sampleClose (now : Int) : List FsAction :=
  [.log now [82, 10], .move .main, .move (.recvClosed 0), .copy 0 now none, .move .main]

/-- The world at the end of the retry loop of the first run, on a file system
that keeps nanoseconds. -/
def firstEnd : World :=
  (fsRun cfgTree "src" "dst" 1 { st := init cfgTree, fs := sampleFs }
    (sampleSchedule 1700000100000000000)).getD { st := init cfgTree, fs := sampleFs }

/-- The world at the end of the first run. -/
def firstExit : World :=
  (fsRun cfgTree "src" "dst" 1 firstEnd (sampleClose 1700000100000000000)).getD firstEnd

/-- The world at the end of the retry loop of the second run. -/
def secondEnd : World :=
  (fsRun cfgTree "src" "dst" 1 { st := init cfgTree, fs := firstExit.fs }
    (sampleSchedule 1700000200000000000)).getD { st := init cfgTree, fs := sampleFs }

/-- The same two runs on a destination that keeps whole seconds: the world at the
end of the first run. -/
def coarseExit : World :=
  (fsRun cfgTree "src" "dst" 1000000000 { st := init cfgTree, fs := sampleFs }
    (sampleSchedule 1700000100000000000 ++ sampleClose 1700000100000000000)).getD
    { st := init cfgTree, fs := sampleFs }

/-- The world at the end of the retry loop of the second run on that
destination. -/
def coarseSecond : World :=
  (fsRun cfgTree "src" "dst" 1000000000 { st := init cfgTree, fs := coarseExit.fs }
    (sampleSchedule 1700000200000000000)).getD { st := init cfgTree, fs := sampleFs }

/-! ## Theorems: the copy engine -/

/-- C1: with a source stat that was read, `checkDiff` asks for a copy exactly
when the destination stat failed, or the sizes differ, or the source is strictly
newer than the destination; the second result is always the source stat. -/
theorem checkDiff_needsCopy_iff (s : FileInfo) (dstInfo : Option FileInfo) :
    ∃ b : Bool, checkDiff (some s) dstInfo = some (b, some s) ∧
      (b = true ↔ (dstInfo = none ∨
        ∃ d, dstInfo = some d ∧ (s.size ≠ d.size ∨ d.modTime < s.modTime))) := by
  cases dstInfo with
  | none => exact ⟨true, rfl, by simp⟩
  | some d =>
    by_cases hsz : s.size = d.size
    · by_cases ht : d.modTime < s.modTime
      · exact ⟨true, by simp [checkDiff, hsz, ht], by simp [ht]⟩
      · exact ⟨false, by simp [checkDiff, hsz, ht], by simp [hsz, ht]⟩
    · exact ⟨true, by simp [checkDiff, hsz], by simp [hsz]⟩


/-! ## Theorems: the pipeline -/

theorem sum_map_set {α : Type} (f : α → Nat) (l : List α) (i : Nat) (a b : α)
    (h : l.get? i = some a) : ((l.set i b).map f).sum + f a = (l.map f).sum + f b := by
  induction l generalizing i with
  | nil => simp at h
  | cons x xs ih =>
    cases i with
    | zero =>
      simp at h
      subst h
      simp only [List.set, List.map, List.sum_cons]
      omega
    | succ n =>
      have := ih n (by simpa using h)
      simp only [List.set, List.map, List.sum_cons]
      omega

theorem ne_of_mem_set {l : List Worker} {i : Nat} {b w : Worker}
    (hl : ∀ w ∈ l, w ≠ Worker.countErr) (hb : b ≠ Worker.countErr)
    (hw : w ∈ l.set i b) : w ≠ Worker.countErr := by
  rcases List.mem_or_eq_of_mem_set hw with h | h
  · exact hl w h
  · exact h ▸ hb

theorem inv_mainStep {cfg : Config} {s s1 : State}
    (h : Invariant s) (hs : mainStep cfg s = some s1) : Invariant s1 := by
  obtain ⟨he, hd, hc, hn⟩ := h
  unfold mainStep at hs
  split at hs
  all_goals (try split at hs)
  all_goals (try (simp at hs))
  all_goals (try subst hs)
  all_goals (rename_i hm; refine ⟨?_, ?_, ?_, ?_⟩)
  all_goals
    (try simp_all [MainPc.inDrain, MainPc.chOpen, State.inFlight, MainPc.load, Walker.load,
      walkerFor])
  all_goals omega

/-- Every step of the pipeline preserves `Invariant`. -/
theorem inv_step {cfg : Config} {s s1 : State} {a : Action}
    (h : Invariant s) (hs : step cfg s a = some s1) : Invariant s1 := by
  have h0 := h
  obtain ⟨he, hd, hc, hn⟩ := h
  unfold step at hs
  split at hs
  · simp at hs
  · split at hs
    · simp at hs
    · exact inv_mainStep h0 hs
    · -- main's send of a top-level name
      rename_i n rest i hm
      split at hs
      · rename_i hw
        simp at hs; subst hs
        have := sum_map_set Worker.load s.workers i _ (Worker.work n) hw
        have hn := hn (by simp [hm, MainPc.chOpen])
        refine ⟨he, by simp [MainPc.inDrain], fun w hw => ne_of_mem_set hc (by simp) hw,
          fun _ => ?_⟩
        simp only [State.inFlight, hm, MainPc.load, Worker.load] at hn this ⊢
        omega
      · simp at hs
    · rename_i hm
      simp [hm, MainPc.inDrain] at hd
    · simp at hs
    · rename_i hm
      simp [hm, MainPc.inDrain] at hd
    · simp at hs
    · -- a goroutine counts a file
      rename_i j _
      split at hs
      · rename_i f rest hw
        simp at hs; subst hs
        have := sum_map_set Walker.load s.walkers j { pending := f :: rest, sending := none }
          { pending := rest, sending := some f } hw
        have e0 : Walker.load { pending := f :: rest, sending := none } = 0 := rfl
        have e1 : Walker.load { pending := rest, sending := some f } = 1 := rfl
        rw [e0, e1] at this
        refine ⟨he, hd, hc, fun ho => ?_⟩
        have hn := hn ho
        simp only [State.inFlight] at hn ⊢
        omega
      · simp at hs
    · -- a goroutine's send
      rename_i j i _
      split at hs
      · rename_i p f hw hk
        simp at hs; subst hs
        have h1 := sum_map_set Walker.load s.walkers j { pending := p, sending := some f }
          { pending := p, sending := none } hw
        have e0 : Walker.load { pending := p, sending := none } = 0 := rfl
        have e1 : Walker.load { pending := p, sending := some f } = 1 := rfl
        rw [e0, e1] at h1
        have h2 := sum_map_set Worker.load s.workers i _ (Worker.work f) hk
        refine ⟨he, hd, fun w hw => ne_of_mem_set hc (by simp) hw, fun ho => ?_⟩
        have hn := hn ho
        simp only [State.inFlight, Worker.load] at hn h2 ⊢
        omega
      · simp at hs
    · -- a worker handles its task
      rename_i i src dst copy _
      split at hs
      · rename_i f hw
        simp at hs; subst hs
        have h1 := sum_map_set Worker.load s.workers i _ Worker.recv hw
        have h2 := sum_map_set Worker.load s.workers i _ (Worker.sendErr f) hw
        simp only [Worker.load] at h1 h2
        cases ho : taskOutcome src dst copy <;> simp only [finishTask]
        · refine ⟨he, hd, fun w hw => ne_of_mem_set hc (by simp) hw, fun ho => ?_⟩
          have hn := hn ho
          simp only [State.inFlight] at hn ⊢
          omega
        · refine ⟨he, hd, fun w hw => ne_of_mem_set hc (by simp) hw, fun ho => ?_⟩
          have hn := hn ho
          simp only [State.inFlight] at hn ⊢
          omega
        · refine ⟨he, hd, fun w hw => ne_of_mem_set hc (by simp) hw, fun ho => ?_⟩
          have hn := hn ho
          simp only [State.inFlight] at hn ⊢
          omega
        · exact ⟨he, hd, hc, hn⟩
      · simp at hs
    · split at hs
      · rename_i hw
        exact absurd rfl (hc _ (List.get?_mem hw))
      · simp at hs
    · -- a worker receives from the closed channel
      rename_i hm
      split at hs
      · simp at hs; subst hs
        refine ⟨he, hd, fun w hw => ne_of_mem_set hc (by simp) hw, fun ho => ?_⟩
        simp [hm, MainPc.chOpen] at ho
      · simp at hs
    · simp at hs

theorem inv_init (cfg : Config) : Invariant (init cfg) := by
  refine ⟨rfl, rfl, ?_, ?_⟩
  · intro w hw
    simp [init] at hw
    simp [hw.2]
  · simp [init, State.inFlight, MainPc.load, Worker.load]

/-- The invariant holds in every reachable state. -/
theorem inv_reachable {cfg : Config} {s : State} (h : Reachable cfg s) : Invariant s := by
  induction h with
  | init => exact inv_init cfg
  | step a _ hs ih => exact inv_step ih hs


theorem mainStep_workers {cfg : Config} {s s1 : State} (hs : mainStep cfg s = some s1) :
    s1.workers = s.workers := by
  unfold mainStep at hs
  split at hs
  all_goals (try split at hs)
  all_goals (try (simp at hs))
  all_goals (try subst hs)
  all_goals rfl

theorem get?_set_other {l : List Worker} {i k : Nat} {a b c : Worker}
    (hi : l.get? i = some a) (hk : l.get? k = some c) (hne : a ≠ c) :
    (l.set k b).get? i = some a := by
  have hik : k ≠ i := by
    intro h
    subst h
    rw [hi] at hk
    exact hne (Option.some.inj hk)
  simpa [List.getElem?_set_ne hik] using hi

/-- While `main` is not in the drain, a worker blocked on `chErr` stays blocked. -/
theorem sendErr_stays {cfg : Config} {s s1 : State} {a : Action} {i : Nat} {f : String}
    (hd : s.main.inDrain = false) (hw : s.workers.get? i = some (.sendErr f))
    (hs : step cfg s a = some s1) : s1.workers.get? i = some (.sendErr f) := by
  unfold step at hs
  split at hs
  · simp at hs
  · split at hs
    · simp at hs
    · rw [mainStep_workers hs]; exact hw
    · split at hs
      · rename_i hk
        simp at hs; subst hs
        exact get?_set_other hw hk (by simp)
      · simp at hs
    · rename_i hm
      simp [hm, MainPc.inDrain] at hd
    · simp at hs
    · rename_i hm
      simp [hm, MainPc.inDrain] at hd
    · simp at hs
    · split at hs
      · simp at hs; subst hs
        exact hw
      · simp at hs
    · split at hs
      · rename_i hj hk
        simp at hs; subst hs
        exact get?_set_other hw hk (by simp)
      · simp at hs
    · rename_i k src dst copy _
      split at hs
      · rename_i g hk
        simp at hs; subst hs
        cases taskOutcome src dst copy <;> simp only [finishTask]
        · exact get?_set_other hw hk (by simp)
        · exact get?_set_other hw hk (by simp)
        · exact get?_set_other hw hk (by simp)
        · exact hw
      · simp at hs
    · split at hs
      · rename_i hk
        simp at hs; subst hs
        exact get?_set_other hw hk (by simp)
      · simp at hs
    · split at hs
      · rename_i hk
        simp at hs; subst hs
        exact get?_set_other hw hk (by simp)
      · simp at hs
    · simp at hs

theorem reachable_run {cfg : Config} {s : State} (h : Reachable cfg s) :
    ∀ (acts : List Action) (s1 : State), run cfg s acts = some s1 → Reachable cfg s1 := by
  intro acts
  induction acts generalizing s with
  | nil =>
    intro s1 hr
    simp [run] at hr
    exact hr ▸ h
  | cons a rest ih =>
    intro s1 hr
    simp only [run] at hr
    split at hr
    · simp at hr
    · rename_i s2 hs
      exact ih (Reachable.step a h hs) s1 hr


theorem blockedState_run :
    run cfgOne (init cfgOne) [.main, .mainSend 0, .work 0 (some ⟨10, 1⟩) none .err]
      = some blockedState := rfl

/-- C10: in every reachable state of the pipeline `errorCount` is 0, `main` is
not in the retry drain of lines 123-125, no worker is past its send on `chErr`,
and a worker blocked on that send is still blocked on it after any step. -/
theorem errorCount_always_zero (cfg : Config) (s : State) (h : Reachable cfg s) :
    s.errorCount = 0 ∧ s.main.inDrain = false ∧ (∀ w ∈ s.workers, w ≠ Worker.countErr) ∧
      ∀ i f, s.workers.get? i = some (.sendErr f) →
        ∀ a s1, step cfg s a = some s1 → s1.workers.get? i = some (.sendErr f) := by
  have hi := inv_reachable h
  exact ⟨hi.1, hi.2.1, hi.2.2.1, fun i f hw a s1 hs => sendErr_stays hi.2.1 hw hs⟩

/-- A witness for C10: the state in which worker 0 is blocked on `chErr` after a
failed copy of `a.txt` is reachable, and there `errorCount` is 0 and `main` is
not in the drain. -/
theorem errorCount_always_zero_witness :
    Reachable cfgOne blockedState ∧ blockedState.errorCount = 0 ∧
      blockedState.main.inDrain = false ∧
      blockedState.workers.get? 0 = some (.sendErr "a.txt") :=
  have h : Reachable cfgOne blockedState := reachable_run Reachable.init _ _ blockedState_run
  ⟨h, (errorCount_always_zero cfgOne blockedState h).1,
    (errorCount_always_zero cfgOne blockedState h).2.1, rfl⟩

/-- C8 (the code at a failing input): worker 0 has received the task `a.txt`
(`heldState`, reached from `init`).  With a source that cannot be stat'ed
`checkDiff` panics at line 163 when the destination exists, the size label
panics at line 245 when it does not, and in the pipeline the step of the worker
makes the process end with status 2: no goroutine takes another step. -/
theorem missing_source_crashes :
    run cfgOne (init cfgOne) [.main, .mainSend 0] = some heldState ∧
    checkDiff none (some ⟨10, 1⟩) = none ∧ sizeLabel none = none ∧
      (copyTask (fun _ => none) 1 0 none "src" "dst" "a.txt").2 = .panic ∧
      (∀ dstInfo copy, ∃ s1, step cfgOne heldState (.work 0 none dstInfo copy) = some s1 ∧
        s1.crashed = true ∧ exitStatus s1 = some 2 ∧ ∀ a, step cfgOne s1 a = none) := by
  refine ⟨rfl, rfl, rfl, rfl, ?_⟩
  intro dstInfo copy
  have ho : taskOutcome none dstInfo copy = .panic := by
    cases dstInfo <;> rfl
  refine ⟨{ heldState with crashed := true }, ?_, rfl, rfl, fun a => rfl⟩
  show some (finishTask heldState 0 "a.txt" (taskOutcome none dstInfo copy)) = _
  rw [ho]
  rfl


/-! ## Theorems: command-line options -/

/-- Whatever the command line is, `main` works with the default values. -/
theorem mainOptions_defaults {atoi : String → Option Int} {arguments : List String}
    {o : Options} (h : mainOptions atoi arguments = .ok o) :
    o.thread = 16 ∧ o.displayTime = 1 ∧ o.retryCount = 30 ∧ o.waitTime = 3 ∧
      o.logFileName = "rcopy.log" ∧ o.debugMode = false := by
  unfold mainOptions at h
  simp only at h
  split at h
  · simp at h
  · split at h
    · simp only [Except.ok.injEq] at h
      subst h
      exact ⟨rfl, rfl, rfl, rfl, rfl, rfl⟩
    · simp at h

/-- C9 (the code at a failing input): on the command line
`-t 4 -r 2 -d 5 -w=1 -l my.log -v src dst` the parser stores 4, 2, 5, 1,
`my.log` and `true` into the flag cells, but `main` works with the default
values 16, 30, 1, 3, `rcopy.log` and `false`, read before `flag.Parse()`;
it starts 16 workers and bounds the retry loop by 30. -/
theorem flags_ignored :
    mainOptions atoiDecimal cmdLine =
        .ok { thread := 16, displayTime := 1, retryCount := 30, waitTime := 3,
              logFileName := "rcopy.log", debugMode := false,
              srcDir := "src", dstDir := "dst" } ∧
      (∃ f, mainFlags atoiDecimal cmdLine = .ok f ∧ f.derefInt "t" = 4 ∧
        f.derefInt "r" = 2 ∧ f.derefInt "d" = 5 ∧ f.derefInt "w" = 1 ∧
        f.derefString "l" = "my.log" ∧ f.derefBool "v" = true) ∧
      (∃ cfg, mainStart atoiDecimal cmdLine (fun _ => true) (fun _ => some []) = .ok cfg ∧
        cfg.thread = 16 ∧ cfg.retryCount = 30) := by
  refine ⟨by rfl, ⟨_, by rfl, by rfl, by rfl, by rfl, by rfl, by rfl, by rfl⟩,
    ⟨_, by rfl, by rfl, by rfl⟩⟩

/-! ## Theorems: a failed copy -/

/-- A worker blocked on `chErr` in a reachable state is blocked in every later
state, and `errorCount` stays 0. -/
theorem blocked_forever {cfg : Config} (i : Nat) (f : String) (acts : List Action) :
    ∀ {s : State}, Reachable cfg s → s.workers.get? i = some (.sendErr f) →
      ∀ s1, run cfg s acts = some s1 →
        s1.workers.get? i = some (.sendErr f) ∧ s1.errorCount = 0 ∧ s1.main.inDrain = false := by
  induction acts with
  | nil =>
    intro s h hw s1 hr
    simp [run] at hr
    subst hr
    exact ⟨hw, (inv_reachable h).1, (inv_reachable h).2.1⟩
  | cons a rest ih =>
    intro s h hw s1 hr
    simp only [run] at hr
    split at hr
    · simp at hr
    · rename_i s2 hs
      exact ih (Reachable.step a h hs) (sendErr_stays (inv_reachable h).2.1 hw hs) s1 hr

/-- C2 (the code at a failing input): worker 0 holds the task `a.txt`
(`heldState`, reached from `init`).  When the
source cannot be stat'ed the step of the worker ends the process and no counter
changes.  When `copyFile` fails the worker moves to its send on `chErr` with all
three outcome counters still 0, and in every state reached afterwards it is
still blocked there and `errorCount` is 0. -/
theorem failed_copy_never_counted :
    run cfgOne (init cfgOne) [.main, .mainSend 0] = some heldState ∧
    (∀ dstInfo copy, ∃ s1, step cfgOne heldState (.work 0 none dstInfo copy) = some s1 ∧
      s1.crashed = true ∧ s1.completed = 0 ∧ s1.skipCount = 0 ∧ s1.errorCount = 0) ∧
    step cfgOne heldState (.work 0 (some ⟨10, 1⟩) none .err) = some blockedState ∧
    blockedState.completed = 0 ∧ blockedState.skipCount = 0 ∧ blockedState.errorCount = 0 ∧
    ∀ acts s1, run cfgOne blockedState acts = some s1 →
      s1.workers.get? 0 = some (.sendErr "a.txt") ∧ s1.errorCount = 0 := by
  refine ⟨rfl, ?_, rfl, rfl, rfl, rfl, ?_⟩
  · intro dstInfo copy
    have ho : taskOutcome none dstInfo copy = .panic := by
      cases dstInfo <;> rfl
    refine ⟨{ heldState with crashed := true }, ?_, rfl, rfl, rfl, rfl⟩
    show some (finishTask heldState 0 "a.txt" (taskOutcome none dstInfo copy)) = _
    rw [ho]
    rfl
  · intro acts s1 hr
    have h : Reachable cfgOne blockedState := reachable_run Reachable.init _ _ blockedState_run
    have := blocked_forever 0 "a.txt" acts h rfl s1 hr
    exact ⟨this.1, this.2.1⟩

/-! ## Theorems: the steps of the pipeline, one by one -/

theorem mainStep_cases {cfg : Config} {s s1 : State} (hc : s.crashed = false)
    (hs : mainStep cfg s = some s1) : Move cfg s s1 ∨ Late s s1 := by
  unfold mainStep at hs
  split at hs
  · rename_i hm; simp at hs; subst hs; exact Or.inl (Move.discoverDone hc hm)
  · rename_i hm; simp at hs; subst hs; exact Or.inl (Move.countTop hc hm)
  · rename_i hm; simp at hs; subst hs; exact Or.inl (Move.spawn hc hm)
  · simp at hs
  · rename_i hm
    split at hs
    · rename_i hw; simp at hs; subst hs; exact Or.inl (Move.waitDone hc hm hw)
    · simp at hs
  · rename_i hm
    split at hs
    · rename_i hw; simp at hs; subst hs; exact Or.inl (Move.loopEnter hc hm hw)
    · rename_i hw; simp at hs; subst hs; exact Or.inl (Move.loopLimit hc hm hw)
  · rename_i hm
    split at hs
    · rename_i hw; simp at hs; subst hs; exact Or.inl (Move.pollPass hc hm hw)
    · simp at hs; subst hs; exact Or.inl (Move.pollWait hc hm)
  · rename_i hm
    split at hs
    · rename_i hw; simp at hs; subst hs; exact Or.inl (Move.errNone hc hm hw)
    · rename_i hw; simp at hs; subst hs; exact Or.inl (Move.errSome hc hm hw)
  · simp at hs
  · simp at hs
  · rename_i hm; simp at hs; subst hs; exact Or.inl (Move.close hc hm)
  · rename_i hm; simp at hs; subst hs; exact Or.inr (Late.exit hc hm)
  · simp at hs

/-- Every step of `step` is a `Move`, or the step of a worker on its task, or a
step after `close(ch)`. -/
theorem step_cases {cfg : Config} {s s1 : State} {a : Action} (hs : step cfg s a = some s1) :
    (Move cfg s s1 ∧ ∀ i x y c, a ≠ .work i x y c) ∨
    (∃ i f srcInfo dstInfo copy, a = .work i srcInfo dstInfo copy ∧
      s.crashed = false ∧ s.workers.get? i = some (.work f) ∧
      s1 = finishTask s i f (taskOutcome srcInfo dstInfo copy)) ∨
    (Late s s1 ∧ ∀ i x y c, a ≠ .work i x y c) := by
  unfold step at hs
  split at hs
  · simp at hs
  · rename_i hc
    have hc : s.crashed = false := by simpa using hc
    split at hs
    · simp at hs
    · rcases mainStep_cases hc hs with h | h
      · exact Or.inl ⟨h, by simp⟩
      · exact Or.inr (Or.inr ⟨h, by simp⟩)
    · rename_i hm
      split at hs
      · rename_i hw
        simp at hs; subst hs
        exact Or.inl ⟨Move.sendTop hc hm hw, by simp⟩
      · simp at hs
    · rename_i hm
      split at hs
      · rename_i hw
        simp at hs; subst hs
        exact Or.inl ⟨Move.drainSend hc hm hw, by simp⟩
      · simp at hs
    · simp at hs
    · rename_i hm
      split at hs
      · rename_i hw
        simp at hs; subst hs
        exact Or.inl ⟨Move.drainRecv hc hm hw, by simp⟩
      · simp at hs
    · simp at hs
    · split at hs
      · rename_i hw
        simp at hs; subst hs
        exact Or.inl ⟨Move.walk hc hw, by simp⟩
      · simp at hs
    · split at hs
      · rename_i hw hk
        simp at hs; subst hs
        exact Or.inl ⟨Move.walkSend hc hw hk, by simp⟩
      · simp at hs
    · split at hs
      · rename_i hw
        simp at hs; subst hs
        exact Or.inr (Or.inl ⟨_, _, _, _, _, rfl, hc, hw, rfl⟩)
      · simp at hs
    · split at hs
      · rename_i hw
        simp at hs; subst hs
        exact Or.inl ⟨Move.countErr hc hw, by simp⟩
      · simp at hs
    · rename_i hm
      split at hs
      · rename_i hw
        simp at hs; subst hs
        exact Or.inr (Or.inr ⟨Late.recvClosed hc hm hw, by simp⟩)
      · simp at hs
    · simp at hs

theorem append_publish (st : Discovered) (n : String) :
    publish st n = st.append (publish ⟨0, []⟩ n) := by
  simp [publish, Discovered.append]

theorem discovered_append_assoc (a b c : Discovered) : (a.append b).append c = a.append (b.append c) := by
  simp [Discovered.append, Nat.add_assoc]

theorem append_zero (a : Discovered) : a.append ⟨0, []⟩ = a := by
  simp [Discovered.append]


mutual
theorem getFilesEntry_append : ∀ (e : Entry) (dir : String) (st : Discovered),
    getFilesEntry dir e st = st.append (getFilesEntry dir e ⟨0, []⟩)
  | .file n, dir, st => by simp only [getFilesEntry]; exact append_publish _ _
  | .dir n r cs, dir, st => by
    simp only [getFilesEntry]
    split
    · exact getFilesLoop_append cs _ st
    · exact (append_zero st).symm
theorem getFilesLoop_append : ∀ (es : List Entry) (dir : String) (st : Discovered),
    getFilesLoop dir es st = st.append (getFilesLoop dir es ⟨0, []⟩)
  | [], dir, st => by simp only [getFilesLoop]; exact (append_zero st).symm
  | e :: rest, dir, st => by
    simp only [getFilesLoop]
    rw [getFilesLoop_append rest dir (getFilesEntry dir e st),
      getFilesLoop_append rest dir (getFilesEntry dir e ⟨0, []⟩),
      getFilesEntry_append e dir st, discovered_append_assoc]
end

mutual
theorem getFilesEntry_count : ∀ (e : Entry) (dir : String),
    (getFilesEntry dir e ⟨0, []⟩).fileCount = (getFilesEntry dir e ⟨0, []⟩).sent.length
  | .file n, dir => by simp [getFilesEntry, publish]
  | .dir n r cs, dir => by
    simp only [getFilesEntry]
    split
    · exact getFilesLoop_count cs _
    · rfl
theorem getFilesLoop_count : ∀ (es : List Entry) (dir : String),
    (getFilesLoop dir es ⟨0, []⟩).fileCount = (getFilesLoop dir es ⟨0, []⟩).sent.length
  | [], dir => by simp [getFilesLoop]
  | e :: rest, dir => by
    simp only [getFilesLoop]
    rw [getFilesLoop_append rest dir (getFilesEntry dir e ⟨0, []⟩)]
    simp [Discovered.append, getFilesEntry_count e dir, getFilesLoop_count rest dir]
end

theorem getFiles_append (n : String) (r : Bool) (cs : List Entry) (st : Discovered) :
    getFiles n r cs st = st.append (getFiles n r cs ⟨0, []⟩) := by
  unfold getFiles
  split
  · exact getFilesLoop_append cs n st
  · exact (append_zero st).symm

theorem getFiles_count (n : String) (r : Bool) (cs : List Entry) :
    (getFiles n r cs ⟨0, []⟩).fileCount = (getFiles n r cs ⟨0, []⟩).sent.length := by
  unfold getFiles
  split
  · exact getFilesLoop_count cs n
  · rfl

theorem mainDiscover_append : ∀ (top : List Entry) (st : Discovered),
    mainDiscover top st = st.append (mainDiscover top ⟨0, []⟩)
  | [], st => by simp only [mainDiscover]; exact (append_zero st).symm
  | .file n :: rest, st => by
    simp only [mainDiscover]
    rw [mainDiscover_append rest (publish st n), mainDiscover_append rest (publish ⟨0, []⟩ n),
      append_publish st n, discovered_append_assoc]
  | .dir n r cs :: rest, st => by
    simp only [mainDiscover]
    rw [mainDiscover_append rest (getFiles n r cs st),
      mainDiscover_append rest (getFiles n r cs ⟨0, []⟩), getFiles_append n r cs st,
      discovered_append_assoc]

theorem mainDiscover_file (n : String) (rest : List Entry) :
    mainDiscover (.file n :: rest) ⟨0, []⟩ =
      { fileCount := 1 + (mainDiscover rest ⟨0, []⟩).fileCount,
        sent := n :: (mainDiscover rest ⟨0, []⟩).sent } := by
  simp only [mainDiscover]
  rw [mainDiscover_append]
  simp [publish, Discovered.append]

theorem mainDiscover_dir (n : String) (r : Bool) (cs rest : List Entry) :
    mainDiscover (.dir n r cs :: rest) ⟨0, []⟩ =
      { fileCount := (walkerFor n r cs).pending.length + (mainDiscover rest ⟨0, []⟩).fileCount,
        sent := (walkerFor n r cs).pending ++ (mainDiscover rest ⟨0, []⟩).sent } := by
  simp only [mainDiscover]
  rw [mainDiscover_append]
  simp [walkerFor, Discovered.append, getFiles_count]

theorem finished_of_all {l : List Walker} {j : Nat} {w : Walker}
    (h : l.all Walker.finished = true) (hw : l.get? j = some w) : w.finished = true := by
  rw [List.all_eq_true] at h
  exact h w (List.get?_mem hw)

theorem le_sum_of_get? {α : Type} (f : α → Nat) {l : List α} {i : Nat} {a : α}
    (h : l.get? i = some a) : f a ≤ (l.map f).sum := by
  induction l generalizing i with
  | nil => simp at h
  | cons x xs ih =>
    cases i with
    | zero =>
      simp at h
      subst h
      simp
    | succ n =>
      have := ih (i := n) (by simpa using h)
      simp only [List.map, List.sum_cons]
      omega

/-- Every `Move` preserves `Progress`. -/
theorem progress_move {cfg : Config} {s s1 : State} (hi : Invariant s) (hp : Progress cfg s)
    (h : Move cfg s s1) : Progress cfg s1 := by
  obtain ⟨he, hd, hce, hn⟩ := hi
  obtain ⟨hk, hr, ht, hu⟩ := hp
  cases h with
  | discoverDone hc hm =>
    refine ⟨?_, hr, ?_, ?_⟩
    · simp [MainPc.pastWait]
    · simp [MainPc.pastTest]
    · simpa [State.uncounted, MainPc.uncounted, hm, mainDiscover] using hu
  | countTop hc hm =>
    refine ⟨?_, hr, ?_, ?_⟩
    · simp [MainPc.pastWait]
    · simp [MainPc.pastTest]
    · simp only [State.uncounted, MainPc.uncounted, hm, mainDiscover_file] at hu ⊢
      omega
  | spawn hc hm =>
    refine ⟨?_, hr, ?_, ?_⟩
    · simp [MainPc.pastWait]
    · simp [MainPc.pastTest]
    · simp only [State.uncounted, MainPc.uncounted, hm, mainDiscover_dir, List.map_append,
        List.sum_append, List.map_cons, List.map_nil, List.sum_cons, List.sum_nil] at hu ⊢
      omega
  | waitDone hc hm hw =>
    refine ⟨fun _ => hw, rfl, ?_, ?_⟩
    · simp [MainPc.pastTest]
    · simpa [State.uncounted, MainPc.uncounted, hm] using hu
  | loopEnter hc hm hlt =>
    refine ⟨fun _ => hk (by simp [hm, MainPc.pastWait]), hr, ?_, ?_⟩
    · simp [MainPc.pastTest]
    · simpa [State.uncounted, MainPc.uncounted, hm] using hu
  | loopLimit hc hm hlt =>
    refine ⟨fun _ => hk (by simp [hm, MainPc.pastWait]), hr, ?_, ?_⟩
    · intro hpos
      omega
    · simpa [State.uncounted, MainPc.uncounted, hm] using hu
  | pollPass hc hm hle =>
    refine ⟨fun _ => hk (by simp [hm, MainPc.pastWait]), hr, ?_, ?_⟩
    · intro _ _
      have hn := hn (by simp [hm, MainPc.chOpen])
      have : s.inFlight = 0 := by omega
      simpa [State.inFlight, hm, MainPc.load] using this
    · simpa [State.uncounted, MainPc.uncounted, hm] using hu
  | pollWait hc hm => exact ⟨hk, hr, ht, hu⟩
  | errNone hc hm he0 =>
    refine ⟨fun _ => hk (by simp [hm, MainPc.pastWait]), hr, ?_, ?_⟩
    · intro hpos _
      have := ht hpos (by simp [hm, MainPc.pastTest])
      simpa [State.inFlight, hm, MainPc.load] using this
    · simpa [State.uncounted, MainPc.uncounted, hm] using hu
  | errSome hc hm he0 => exact absurd he he0
  | close hc hm =>
    refine ⟨fun _ => hk (by simp [hm, MainPc.pastWait]), hr, ?_, ?_⟩
    · simp [MainPc.pastTest]
    · simpa [State.uncounted, MainPc.uncounted, hm] using hu
  | sendTop hc hm hw =>
    refine ⟨?_, hr, ?_, ?_⟩
    · simp [MainPc.pastWait]
    · simp [MainPc.pastTest]
    · simpa [State.uncounted, MainPc.uncounted, hm] using hu
  | drainSend hc hm hw => simp [hm, MainPc.inDrain] at hd
  | drainRecv hc hm hw => simp [hm, MainPc.inDrain] at hd
  | walk hc hw =>
    rename_i f rest j
    have hnf : Walker.finished { pending := f :: rest, sending := none } = false := rfl
    have hnp : s.main.pastWait = false := by
      cases hpw : s.main.pastWait
      · rfl
      · have := finished_of_all (hk hpw) hw
        rw [hnf] at this
        exact absurd this (by simp)
    have hnt : s.main.pastTest = false := by
      cases hm : s.main <;> simp [hm, MainPc.pastWait, MainPc.pastTest] at hnp ⊢
    refine ⟨?_, hr, ?_, ?_⟩
    · intro h; simp [hnp] at h
    · intro _ h; simp [hnt] at h
    · have := sum_map_set (fun w : Walker => w.pending.length) s.walkers j _
        { pending := rest, sending := some f } hw
      simp only [State.uncounted, List.length_cons] at hu this ⊢
      omega
  | walkSend hc hw hwk =>
    rename_i f p j i
    have hnf : Walker.finished { pending := p, sending := some f } = false := by
      simp [Walker.finished]
    have hnp : s.main.pastWait = false := by
      cases hpw : s.main.pastWait
      · rfl
      · have := finished_of_all (hk hpw) hw
        rw [hnf] at this
        exact absurd this (by simp)
    have hnt : s.main.pastTest = false := by
      cases hm : s.main <;> simp [hm, MainPc.pastWait, MainPc.pastTest] at hnp ⊢
    refine ⟨?_, hr, ?_, ?_⟩
    · intro h; simp [hnp] at h
    · intro _ h; simp [hnt] at h
    · have := sum_map_set (fun w : Walker => w.pending.length) s.walkers j _
        { pending := p, sending := none } hw
      simp only [State.uncounted] at hu this ⊢
      omega
  | countErr hc hw => exact absurd rfl (hce _ (List.get?_mem hw))

theorem progress_finish {cfg : Config} {s : State} {i : Nat} {f : String} (o : Outcome)
    (hp : Progress cfg s) (hw : s.workers.get? i = some (.work f)) :
    Progress cfg (finishTask s i f o) := by
  obtain ⟨hk, hr, ht, hu⟩ := hp
  have hload := le_sum_of_get? Worker.load hw
  simp only [Worker.load] at hload
  have hnt : 0 < cfg.retryCount → s.main.pastTest = true → False := by
    intro hpos hpt
    have := ht hpos hpt
    simp only [State.inFlight] at this
    omega
  cases o <;> simp only [finishTask]
  · exact ⟨hk, hr, fun hpos hpt => absurd hpt (fun h => hnt hpos h), hu⟩
  · exact ⟨hk, hr, fun hpos hpt => absurd hpt (fun h => hnt hpos h), hu⟩
  · exact ⟨hk, hr, fun hpos hpt => absurd hpt (fun h => hnt hpos h), hu⟩
  · exact ⟨hk, hr, fun hpos hpt => absurd hpt (fun h => hnt hpos h), hu⟩

theorem progress_late {cfg : Config} {s s1 : State} (hp : Progress cfg s) (h : Late s s1) :
    Progress cfg s1 := by
  obtain ⟨hk, hr, ht, hu⟩ := hp
  cases h with
  | exit hc hm =>
    refine ⟨fun _ => hk (by simp [hm, MainPc.pastWait]), hr, ?_, ?_⟩
    · simp [MainPc.pastTest]
    · simpa [State.uncounted, MainPc.uncounted, hm] using hu
  | recvClosed hc hm hw =>
    refine ⟨hk, hr, ?_, hu⟩
    simp [hm, MainPc.pastTest]

theorem progress_step {cfg : Config} {s s1 : State} {a : Action} (hi : Invariant s)
    (hp : Progress cfg s) (hs : step cfg s a = some s1) : Progress cfg s1 := by
  rcases step_cases hs with h | ⟨i, f, _, _, _, _, _, hw, rfl⟩ | h
  · exact progress_move hi hp h.1
  · exact progress_finish _ hp hw
  · exact progress_late hp h.1

theorem progress_init (cfg : Config) : Progress cfg (init cfg) := by
  refine ⟨?_, rfl, ?_, ?_⟩
  · simp [init, MainPc.pastWait]
  · simp [init, MainPc.pastTest]
  · simp [init, State.uncounted, MainPc.uncounted]

/-- Both invariants hold in every reachable state. -/
theorem progress_reachable {cfg : Config} {s : State} (h : Reachable cfg s) :
    Invariant s ∧ Progress cfg s := by
  induction h with
  | init => exact ⟨inv_init cfg, progress_init cfg⟩
  | step a _ hs ih => exact ⟨inv_step ih.1 hs, progress_step ih.1 ih.2 hs⟩


theorem move_workers_length {cfg : Config} {s s1 : State} (h : Move cfg s s1) :
    s1.workers.length = s.workers.length := by
  cases h <;> simp

theorem finish_workers_length (s : State) (i : Nat) (f : String) (o : Outcome) :
    (finishTask s i f o).workers.length = s.workers.length := by
  cases o <;> simp [finishTask]

theorem finish_main (s : State) (i : Nat) (f : String) (o : Outcome) :
    (finishTask s i f o).main = s.main := by
  cases o <;> rfl

theorem load_zero_recv {w : Worker} (h : w.load = 0) (hc : w ≠ Worker.countErr) :
    w = Worker.recv := by
  cases w <;> simp [Worker.load] at h hc ⊢

/-- Every step of the pipeline preserves `Closing`. -/
theorem closing_step {cfg : Config} {s s1 : State} {a : Action} (hi : Invariant s)
    (hp : Progress cfg s) (hcl : Closing cfg s) (hs : step cfg s a = some s1) :
    Closing cfg s1 := by
  obtain ⟨he, hd, hce, hn⟩ := hi
  obtain ⟨hk, hr, ht, hu⟩ := hp
  obtain ⟨hlen, hcw⟩ := hcl
  have key : ∀ (i : Nat) (b : Worker),
      (b = Worker.recv ∨ b = Worker.work "" ∨ b = Worker.sendErr "") →
      (∀ w ∈ s.workers, w = Worker.recv ∨ w = Worker.work "" ∨ w = Worker.sendErr "") →
      ∀ w ∈ s.workers.set i b, w = Worker.recv ∨ w = Worker.work "" ∨ w = Worker.sendErr "" := by
    intro i b hb hall w hw
    rcases List.mem_or_eq_of_mem_set hw with h | h
    · exact hall w h
    · exact h ▸ hb
  rcases step_cases hs with h | ⟨i, f, x, y, c, _, _, hw, rfl⟩ | h
  · refine ⟨(move_workers_length h.1).trans hlen, fun hpos hm1 => ?_⟩
    cases h.1 with
    | close hc hm =>
      have hfl := ht hpos (by simp [hm, MainPc.pastTest])
      have hload : (s.workers.map Worker.load).sum = 0 := by
        simp only [State.inFlight] at hfl
        omega
      intro w hw
      have hw : w ∈ s.workers := hw
      have h0 : w.load = 0 := by
        obtain ⟨k, hk1⟩ := List.get?_of_mem hw
        have := le_sum_of_get? Worker.load hk1
        omega
      exact Or.inl (load_zero_recv h0 (hce w hw))
    | pollWait hc hm => simp [hm] at hm1
    | walk hc hw => exact hcw hpos hm1
    | walkSend hc hw hwk =>
      have hfin := finished_of_all (hk (by simp at hm1; simp [hm1, MainPc.pastWait])) hw
      simp [Walker.finished] at hfin
    | countErr hc hw => exact absurd rfl (hce _ (List.get?_mem hw))
    | _ => simp at hm1
  · refine ⟨(finish_workers_length _ _ _ _).trans hlen, fun hpos hm1 => ?_⟩
    have hm : s.main = .closed := by
      rw [finish_main] at hm1
      exact hm1
    have hall := hcw hpos hm
    have hf : f = "" := by
      rcases hall _ (List.get?_mem hw) with h | h | h <;> simp at h
      exact h
    subst hf
    cases ho : taskOutcome x y c <;> simp only [finishTask]
    · exact key _ _ (Or.inl rfl) hall
    · exact key _ _ (Or.inl rfl) hall
    · exact key _ _ (Or.inr (Or.inr rfl)) hall
    · exact hall
  · cases h.1 with
    | exit hc hm => exact ⟨hlen, fun _ hm1 => by simp at hm1⟩
    | recvClosed hc hm hw =>
      exact ⟨by simpa using hlen,
        fun hpos _ => key _ _ (Or.inr (Or.inl rfl)) (hcw hpos hm)⟩

theorem closing_init (cfg : Config) : Closing cfg (init cfg) :=
  ⟨by simp [init], fun _ hm => by simp [init] at hm⟩

/-- The three invariants hold in every reachable state. -/
theorem closing_reachable {cfg : Config} {s : State} (h : Reachable cfg s) :
    Invariant s ∧ Progress cfg s ∧ Closing cfg s := by
  induction h with
  | init => exact ⟨inv_init cfg, progress_init cfg, closing_init cfg⟩
  | step a _ hs ih =>
    exact ⟨inv_step ih.1 hs, progress_step ih.1 ih.2.1 hs, closing_step ih.1 ih.2.1 ih.2.2 hs⟩

/-! ## Theorems: discovery -/

theorem relPath_cons (n : String) {p : List String} (hp : p ≠ []) :
    relPath (n :: p) = n ++ "/" ++ relPath p := by
  cases p with
  | nil => exact absurd rfl hp
  | cons m rest => rfl

mutual
theorem filePaths_ne_nil : ∀ (e : Entry) (p : List String), p ∈ e.filePaths → p ≠ []
  | .file n, p, h => by
    simp [Entry.filePaths] at h
    simp [h]
  | .dir n _ cs, p, h => by
    simp [Entry.filePaths] at h
    obtain ⟨q, _, rfl⟩ := h
    simp
theorem listFilePaths_ne_nil : ∀ (es : List Entry) (p : List String),
    p ∈ listFilePaths es → p ≠ []
  | [], p, h => by simp [listFilePaths] at h
  | e :: rest, p, h => by
    simp [listFilePaths] at h
    rcases h with h | h
    · exact filePaths_ne_nil e p h
    · exact listFilePaths_ne_nil rest p h
end


mutual
theorem getFilesEntry_eq : ∀ (e : Entry) (dir : String) (st : Discovered),
    e.allReadable = true →
    getFilesEntry dir e st =
      { fileCount := st.fileCount + e.filePaths.length,
        sent := st.sent ++ e.filePaths.map (fun p => dir ++ "/" ++ relPath p) }
  | .file n, dir, st, _ => by
    simp [getFilesEntry, Entry.filePaths, publish, joinPath, relPath]
  | .dir n r cs, dir, st, h => by
    simp only [Entry.allReadable, Bool.and_eq_true] at h
    simp only [getFilesEntry, h.1, if_true, Entry.filePaths]
    rw [getFilesLoop_eq cs (joinPath dir n) st h.2]
    simp only [List.length_map, List.map_map]
    congr 2
    apply List.map_congr_left
    intro p hp
    simp only [Function.comp, relPath_cons n (listFilePaths_ne_nil cs p hp), joinPath,
      String.append_assoc]
theorem getFilesLoop_eq : ∀ (es : List Entry) (dir : String) (st : Discovered),
    listAllReadable es = true →
    getFilesLoop dir es st =
      { fileCount := st.fileCount + (listFilePaths es).length,
        sent := st.sent ++ (listFilePaths es).map (fun p => dir ++ "/" ++ relPath p) }
  | [], dir, st, _ => by simp [getFilesLoop, listFilePaths]
  | e :: rest, dir, st, h => by
    simp only [listAllReadable, Bool.and_eq_true] at h
    simp only [getFilesLoop, listFilePaths]
    rw [getFilesEntry_eq e dir st h.1, getFilesLoop_eq rest dir _ h.2]
    simp [Nat.add_assoc]
end

/-- With every directory readable, discovery sends the relative paths of the
files of the tree, in order. -/
theorem mainDiscover_eq : ∀ (top : List Entry) (st : Discovered),
    listAllReadable top = true →
    mainDiscover top st =
      { fileCount := st.fileCount + (listFilePaths top).length,
        sent := st.sent ++ (listFilePaths top).map relPath }
  | [], st, _ => by simp [mainDiscover, listFilePaths]
  | .file n :: rest, st, h => by
    simp only [listAllReadable, Bool.and_eq_true] at h
    simp only [mainDiscover, listFilePaths, Entry.filePaths]
    rw [mainDiscover_eq rest _ h.2]
    simp [publish, relPath, Nat.add_assoc, Nat.add_comm]
  | .dir n r cs :: rest, st, h => by
    simp only [listAllReadable, Entry.allReadable, Bool.and_eq_true] at h
    simp only [mainDiscover, listFilePaths, Entry.filePaths, getFiles, h.1.1, if_true]
    rw [getFilesLoop_eq cs n st h.1.2, mainDiscover_eq rest _ h.2]
    simp only [List.length_map, List.map_map, List.length_append, List.map_append,
      List.append_assoc, Nat.add_assoc]
    congr 2
    congr 1
    apply List.map_congr_left
    intro p hp
    simp only [Function.comp, relPath_cons n (listFilePaths_ne_nil cs p hp)]

theorem split_slash : ∀ {a b x y : List Char}, '/' ∉ a → '/' ∉ b →
    a ++ '/' :: x = b ++ '/' :: y → a = b ∧ x = y
  | [], [], _, _, _, _, h => by simpa using h
  | [], d :: b, _, _, _, hb, h => by
    simp at h
    exact absurd (List.mem_cons.2 (Or.inl h.1)) hb
  | c :: a, [], _, _, ha, _, h => by
    simp at h
    exact absurd (List.mem_cons.2 (Or.inl h.1.symm)) ha
  | c :: a, d :: b, x, y, ha, hb, h => by
    simp at h
    have := split_slash (fun e => ha (List.mem_cons_of_mem _ e))
      (fun e => hb (List.mem_cons_of_mem _ e)) h.2
    exact ⟨by rw [h.1, this.1], this.2⟩

theorem goodName_iff (n : String) : goodName n = true ↔ '/' ∉ n.data := by
  simp [goodName]

theorem join_slash_inj {n m x y : String} (hn : goodName n = true) (hm : goodName m = true)
    (h : n ++ "/" ++ x = m ++ "/" ++ y) : n = m ∧ x = y := by
  have h1 := congrArg String.data h
  simp only [String.data_append] at h1
  have h2 : n.data ++ '/' :: x.data = m.data ++ '/' :: y.data := by
    simpa using h1
  have := split_slash ((goodName_iff n).1 hn) ((goodName_iff m).1 hm) h2
  exact ⟨String.ext this.1, String.ext this.2⟩

/-- Two relative paths with slash-free names that are written the same are the
same. -/
theorem relPath_inj : ∀ (p q : List String), p ≠ [] → q ≠ [] →
    (∀ n ∈ p, goodName n = true) → (∀ n ∈ q, goodName n = true) →
    relPath p = relPath q → p = q
  | [], _, hp, _, _, _, _ => absurd rfl hp
  | _ :: _, [], _, hq, _, _, _ => absurd rfl hq
  | [n], [m], _, _, _, _, h => by simpa [relPath] using h
  | [n], m :: m2 :: r, _, _, gp, gq, h => by
    exfalso
    simp only [relPath] at h
    have hn := (goodName_iff n).1 (gp n (by simp))
    apply hn
    rw [h]
    simp [String.data_append]
  | n :: n2 :: r, [m], _, _, gp, gq, h => by
    exfalso
    simp only [relPath] at h
    have hm := (goodName_iff m).1 (gq m (by simp))
    apply hm
    rw [← h]
    simp [String.data_append]
  | n :: n2 :: r, m :: m2 :: r2, _, _, gp, gq, h => by
    simp only [relPath] at h
    have := join_slash_inj (gp n (by simp)) (gq m (by simp)) h
    have ih := relPath_inj (n2 :: r) (m2 :: r2) (by simp) (by simp)
      (fun k hk => gp k (List.mem_cons_of_mem _ hk)) (fun k hk => gq k (List.mem_cons_of_mem _ hk))
      this.2
    rw [this.1, ih]


theorem filePaths_head (e : Entry) (p : List String) (h : p ∈ e.filePaths) :
    p.head? = some e.name := by
  cases e with
  | file n =>
    simp [Entry.filePaths] at h
    simp [h, Entry.name]
  | dir n r cs =>
    simp [Entry.filePaths] at h
    obtain ⟨q, _, rfl⟩ := h
    simp [Entry.name]

theorem listFilePaths_head : ∀ (es : List Entry) (p : List String), p ∈ listFilePaths es →
    ∃ e ∈ es, p.head? = some e.name
  | [], p, h => by simp [listFilePaths] at h
  | e :: rest, p, h => by
    simp [listFilePaths] at h
    rcases h with h | h
    · exact ⟨e, by simp, filePaths_head e p h⟩
    · obtain ⟨e1, he1, hp⟩ := listFilePaths_head rest p h
      exact ⟨e1, List.mem_cons_of_mem _ he1, hp⟩

mutual
theorem filePaths_good : ∀ (e : Entry), e.wellFormed = true →
    ∀ p ∈ e.filePaths, ∀ n ∈ p, goodName n = true
  | .file m, h, p, hp, n, hn => by
    simp [Entry.filePaths] at hp
    subst hp
    simp at hn
    subst hn
    simpa [Entry.wellFormed] using h
  | .dir m r cs, h, p, hp, n, hn => by
    simp only [Entry.wellFormed, Bool.and_eq_true] at h
    simp [Entry.filePaths] at hp
    obtain ⟨q, hq, rfl⟩ := hp
    simp at hn
    rcases hn with hn | hn
    · subst hn; exact h.1
    · exact listFilePaths_good cs h.2.2 q hq n hn
theorem listFilePaths_good : ∀ (es : List Entry), listWellFormed es = true →
    ∀ p ∈ listFilePaths es, ∀ n ∈ p, goodName n = true
  | [], _, p, hp, _, _ => by simp [listFilePaths] at hp
  | e :: rest, h, p, hp, n, hn => by
    simp only [listWellFormed, Bool.and_eq_true] at h
    simp [listFilePaths] at hp
    rcases hp with hp | hp
    · exact filePaths_good e h.1 p hp n hn
    · exact listFilePaths_good rest h.2 p hp n hn
end

mutual
theorem filePaths_nodup : ∀ (e : Entry), e.wellFormed = true → e.filePaths.Nodup
  | .file m, _ => by simp [Entry.filePaths]
  | .dir m r cs, h => by
    simp only [Entry.wellFormed, Bool.and_eq_true, decide_eq_true_eq] at h
    simp only [Entry.filePaths]
    exact (listFilePaths_nodup cs h.2.1 h.2.2).map (fun a b hab => List.tail_eq_of_cons_eq hab)
theorem listFilePaths_nodup : ∀ (es : List Entry), (es.map Entry.name).Nodup →
    listWellFormed es = true → (listFilePaths es).Nodup
  | [], _, _ => by simp [listFilePaths]
  | e :: rest, hn, h => by
    simp only [listWellFormed, Bool.and_eq_true] at h
    simp only [List.map_cons, List.nodup_cons] at hn
    simp only [listFilePaths]
    refine List.Nodup.append (filePaths_nodup e h.1) (listFilePaths_nodup rest hn.2 h.2) ?_
    intro p hp1 hp2
    obtain ⟨e1, he1, hh⟩ := listFilePaths_head rest p hp2
    rw [filePaths_head e p hp1] at hh
    apply hn.1
    rw [Option.some.inj hh]
    exact List.mem_map_of_mem _ he1
end

/-! ## Theorems: the copy engine on a file system -/

theorem sizeLabel_some (s : FileInfo) : ∃ l, sizeLabel (some s) = some l := by
  unfold sizeLabel
  simp only
  split
  · exact ⟨_, rfl⟩
  · split
    · exact ⟨_, rfl⟩
    · split
      · exact ⟨_, rfl⟩
      · exact ⟨_, rfl⟩

theorem copyTask_upToDate {fs : FileSystem} {srcDir dstDir file : String}
    (h : upToDate fs srcDir dstDir file) (res now : Int) (fault : Option Fault) :
    copyTask fs res now fault srcDir dstDir file = (fs, .skip) := by
  obtain ⟨s, d, hs, hd, hsz, ht⟩ := h
  obtain ⟨l, hl⟩ := sizeLabel_some s
  simp [copyTask, hs, hd, checkDiff, hsz, ht, hl]

theorem stat_congr {fs fs1 : FileSystem} {p : String} (h : fs1 p = fs p) :
    stat fs1 p = stat fs p := by
  simp [stat, h]

theorem stat_update_same (fs : FileSystem) (p : String) (f : File) :
    stat (Function.update fs p (some f)) p =
      some { size := (f.data.length : Int), modTime := f.modTime } := by
  simp [stat]

theorem stat_update_other (fs : FileSystem) {p q : String} (v : Option File) (h : q ≠ p) :
    stat (Function.update fs p v) q = stat fs q := by
  simp [stat, Function.update_noteq h]

/-- What a call of `copyFile` that returns `nil` has found and done: no system
call failed, the source is a regular file, the destination is no directory, and
the destination now holds the bytes of the source under the stamp the file
system stores for the source's modification time. -/
theorem copyFile_ok_eq {fs : FileSystem} {res now : Int} {fault : Option Fault}
    {srcFile dstFile : String} {info : FileInfo}
    (h : (copyFile fs res now fault srcFile dstFile (some info)).2 = .ok) :
    ∃ f, fs srcFile = some f ∧ f.isDir = false ∧
      (copyFile fs res now fault srcFile dstFile (some info)).1 =
        Function.update fs dstFile
          (some { data := if srcFile = dstFile then [] else f.data,
                  modTime := truncStamp res info.modTime }) := by
  unfold copyFile at h ⊢
  cases hsrc : fs srcFile with
  | none => simp [hsrc] at h
  | some f =>
    simp only [hsrc] at h ⊢
    by_cases h1 : fault = some .openSrc
    · simp [h1] at h
    by_cases h2 : fault = some .createDst
    · simp [h2] at h
    by_cases h3 : isDirectory fs dstFile = true
    · simp [h1, h2, h3] at h
    simp only [h1, h2, h3, if_false] at h ⊢
    by_cases hsd : srcFile = dstFile
    · subst hsd
      simp only [Function.update_same] at h ⊢
      cases fault with
      | none => exact ⟨f, rfl, by simpa [isDirectory, hsrc] using h3, by simp [Function.update_idem]⟩
      | some flt => cases flt <;> simp at h1 h2 h
    · simp only [Function.update_noteq hsd, hsrc] at h ⊢
      by_cases hdir : f.isDir = true
      · simp [hdir] at h
      simp only [hdir, if_false] at h ⊢
      cases fault with
      | none => exact ⟨f, rfl, by simpa using hdir, by simp [Function.update_idem, hsd]⟩
      | some flt => cases flt <;> simp at h1 h2 h

/-- After a successful `copyFile` whose time stamp the destination's file system
keeps, source and destination have the same stat, and no other path has
changed. -/
theorem copyFile_ok {fs : FileSystem} {res now : Int} {fault : Option Fault}
    {srcFile dstFile : String}
    (h : (copyFile fs res now fault srcFile dstFile (stat fs srcFile)).2 = .ok)
    (hk : stampKept res fs srcFile = true) :
    (∃ s, stat (copyFile fs res now fault srcFile dstFile (stat fs srcFile)).1 srcFile = some s ∧
      stat (copyFile fs res now fault srcFile dstFile (stat fs srcFile)).1 dstFile = some s) ∧
    (∀ p, p ≠ dstFile →
      (copyFile fs res now fault srcFile dstFile (stat fs srcFile)).1 p = fs p) := by
  cases hst : stat fs srcFile with
  | none =>
    rw [hst] at h
    unfold copyFile at h
    unfold stat at hst
    cases hsrc : fs srcFile with
    | none => simp [hsrc] at h
    | some f => simp [hsrc] at hst
  | some info =>
    rw [hst] at h
    obtain ⟨f, hsrc, _, heq⟩ := copyFile_ok_eq h
    have hinfo : info = { size := (f.data.length : Int), modTime := f.modTime } := by
      simp [stat, hsrc] at hst
      exact hst.symm
    have hkept : truncStamp res info.modTime = info.modTime := by
      simpa [stampKept, hst] using hk
    rw [heq]
    refine ⟨?_, fun p hp => Function.update_noteq hp _ _⟩
    by_cases hsd : srcFile = dstFile
    · subst hsd
      exact ⟨_, stat_update_same _ _ _, stat_update_same _ _ _⟩
    · refine ⟨info, ?_, ?_⟩
      · rw [stat_update_other _ _ hsd, hst]
      · rw [stat_update_same, hinfo, ← hinfo, hkept]
        simp [hsd, hinfo]

theorem checkDiff_same (s : FileInfo) : checkDiff (some s) (some s) = some (false, some s) := by
  simp [checkDiff]

theorem joinPath_inj {d f g : String} (h : joinPath d f = joinPath d g) : f = g := by
  have h1 := congrArg String.data h
  simp only [joinPath, String.data_append, List.append_assoc] at h1
  exact String.ext (List.append_cancel_left (List.append_cancel_left h1))

theorem joinPath_ne_dir (d g : String) : joinPath d g ≠ d := by
  intro h
  have h1 := congrArg (fun x => x.data.length) h
  simp [joinPath, String.data_append] at h1

theorem taskPath_inj {d f g : String} (h : taskPath d f = taskPath d g) : f = g := by
  unfold taskPath at h
  by_cases hf : f = "" <;> by_cases hg : g = ""
  · rw [hf, hg]
  · simp only [hf, hg, if_true, if_false] at h
    exact absurd h.symm (joinPath_ne_dir d g)
  · simp only [hf, hg, if_true, if_false] at h
    exact absurd h (joinPath_ne_dir d f)
  · simp only [hf, hg, if_false] at h
    exact joinPath_inj h

theorem upToDate_of_agree {fs fs1 : FileSystem} {srcDir dstDir g : String}
    (h : upToDate fs srcDir dstDir g) (hs : fs1 (taskPath srcDir g) = fs (taskPath srcDir g))
    (hd : fs1 (taskPath dstDir g) = fs (taskPath dstDir g)) : upToDate fs1 srcDir dstDir g := by
  obtain ⟨s, d, h1, h2, h3, h4⟩ := h
  refine ⟨s, d, ?_, ?_, h3, h4⟩
  · simpa [stat, hs] using h1
  · simpa [stat, hd] using h2

theorem copyTask_copy {fs : FileSystem} {res now : Int} {fault : Option Fault}
    {srcDir dstDir file : String} {s : FileInfo}
    (hk : stampKept res fs (taskPath srcDir file) = true)
    (hs : stat fs (taskPath srcDir file) = some s)
    (hc : checkDiff (some s) (stat fs (taskPath dstDir file)) = some (true, some s)) :
    ((copyTask fs res now fault srcDir dstDir file).2 = .done ∧
      upToDate (copyTask fs res now fault srcDir dstDir file).1 srcDir dstDir file ∧
      ∀ p, p ≠ taskPath dstDir file → (copyTask fs res now fault srcDir dstDir file).1 p = fs p) ∨
    (copyTask fs res now fault srcDir dstDir file).2 = .fail ∨
    (copyTask fs res now fault srcDir dstDir file).2 = .panic := by
  obtain ⟨l, hl⟩ := sizeLabel_some s
  have hok := @copyFile_ok fs res now fault (taskPath srcDir file) (taskPath dstDir file)
  rw [hs] at hok
  simp only [copyTask, hs, hc, hl, if_true]
  cases hr : copyFile fs res now fault (taskPath srcDir file) (taskPath dstDir file) (some s) with
  | mk fs1 r =>
    rw [hr] at hok
    cases r with
    | ok =>
      left
      obtain ⟨⟨i, h1, h2⟩, h3⟩ := hok rfl hk
      exact ⟨rfl, ⟨i, i, h1, h2, rfl, lt_irrefl _⟩, h3⟩
    | err => right; left; rfl
    | panic => right; right; rfl

/-- The four ways one iteration of the worker loop can end, when the
destination's file system keeps the time stamp of the source. -/
theorem copyTask_cases (fs : FileSystem) (res now : Int) (fault : Option Fault)
    (srcDir dstDir file : String) (hk : stampKept res fs (taskPath srcDir file) = true) :
    (copyTask fs res now fault srcDir dstDir file = (fs, .skip) ∧
      upToDate fs srcDir dstDir file) ∨
    ((copyTask fs res now fault srcDir dstDir file).2 = .done ∧
      upToDate (copyTask fs res now fault srcDir dstDir file).1 srcDir dstDir file ∧
      ∀ p, p ≠ taskPath dstDir file → (copyTask fs res now fault srcDir dstDir file).1 p = fs p) ∨
    (copyTask fs res now fault srcDir dstDir file).2 = .fail ∨
    (copyTask fs res now fault srcDir dstDir file).2 = .panic := by
  cases hs : stat fs (taskPath srcDir file) with
  | none =>
    right; right; right
    cases hd : stat fs (taskPath dstDir file) <;> simp [copyTask, hs, hd, checkDiff, sizeLabel]
  | some s =>
    cases hd : stat fs (taskPath dstDir file) with
    | none =>
      right
      exact copyTask_copy hk hs (by simp [hd, checkDiff])
    | some d =>
      by_cases hsz : s.size = d.size
      · by_cases ht : d.modTime < s.modTime
        · right
          exact copyTask_copy hk hs (by simp [hd, checkDiff, hsz, ht])
        · left
          have hu : upToDate fs srcDir dstDir file := ⟨s, d, hs, hd, hsz, ht⟩
          exact ⟨copyTask_upToDate hu res now fault, hu⟩
      · right
        exact copyTask_copy hk hs (by simp [hd, checkDiff, hsz])


theorem copyFile_agree (fs : FileSystem) (res now : Int) (fault : Option Fault)
    (srcFile dstFile : String) (info : Option FileInfo) {p : String} (hp : p ≠ dstFile) :
    (copyFile fs res now fault srcFile dstFile info).1 p = fs p := by
  unfold copyFile
  split
  · rfl
  · split
    · rfl
    · split
      · rfl
      · split
        · rfl
        · simp only
          split
          · simp [Function.update_noteq hp]
          · split
            · simp [Function.update_noteq hp]
            · split
              · simp [Function.update_noteq hp]
              · split
                · simp [Function.update_noteq hp]
                · split <;> simp [Function.update_noteq hp]

theorem copyTask_fst (fs : FileSystem) (res now : Int) (fault : Option Fault)
    (srcDir dstDir f : String) :
    (copyTask fs res now fault srcDir dstDir f).1 = fs ∨
    ∃ info, (copyTask fs res now fault srcDir dstDir f).1 =
      (copyFile fs res now fault (taskPath srcDir f) (taskPath dstDir f) info).1 := by
  unfold copyTask
  simp only
  cases hcd : checkDiff (stat fs (taskPath srcDir f)) (stat fs (taskPath dstDir f)) with
  | none => exact Or.inl rfl
  | some r =>
    obtain ⟨diff, info⟩ := r
    simp only
    cases hl : sizeLabel info with
    | none => exact Or.inl rfl
    | some l =>
      simp only
      cases diff with
      | false => exact Or.inl (by simp)
      | true =>
        right
        refine ⟨info, ?_⟩
        simp only [if_true]
        cases hr : copyFile fs res now fault (taskPath srcDir f) (taskPath dstDir f) info with
        | mk fs1 r => cases r <;> rfl

theorem copyTask_agree (fs : FileSystem) (res now : Int) (fault : Option Fault)
    (srcDir dstDir f : String) {p : String} (hp : p ≠ taskPath dstDir f) :
    (copyTask fs res now fault srcDir dstDir f).1 p = fs p := by
  rcases copyTask_fst fs res now fault srcDir dstDir f with h | ⟨info, h⟩
  · rw [h]
  · rw [h]
    exact copyFile_agree fs res now fault _ _ info hp

/-- `copyFile` neither makes nor removes a directory. -/
theorem copyFile_isDirectory (fs : FileSystem) (res now : Int) (fault : Option Fault)
    (srcFile dstFile : String) (info : Option FileInfo) (p : String) :
    isDirectory (copyFile fs res now fault srcFile dstFile info).1 p = isDirectory fs p := by
  by_cases hp : p = dstFile
  · subst hp
    unfold copyFile
    split
    · rfl
    · split
      · rfl
      · split
        · rfl
        · split
          · rfl
          · rename_i hnd
            have hnd : isDirectory fs p = false := by simpa using hnd
            simp only
            split
            · simp [isDirectory, hnd] at hnd ⊢
              simpa [isDirectory] using hnd
            · split
              · simp [isDirectory] at hnd ⊢
                simpa [isDirectory] using hnd
              · split
                · simp [isDirectory] at hnd ⊢
                  simpa [isDirectory] using hnd
                · split
                  · simp [isDirectory] at hnd ⊢
                    simpa [isDirectory] using hnd
                  · split <;>
                      (simp [isDirectory] at hnd ⊢
                       simpa [isDirectory] using hnd)
  · simp only [isDirectory, copyFile_agree fs res now fault srcFile dstFile info hp]

theorem copyTask_isDirectory (fs : FileSystem) (res now : Int) (fault : Option Fault)
    (srcDir dstDir f p : String) :
    isDirectory (copyTask fs res now fault srcDir dstDir f).1 p = isDirectory fs p := by
  rcases copyTask_fst fs res now fault srcDir dstDir f with h | ⟨info, h⟩
  · rw [h]
  · rw [h]
    exact copyFile_isDirectory fs res now fault _ _ info p

theorem appendLog_agree (fs : FileSystem) (path : String) (now : Int) (record : List Nat)
    {p : String} (hp : p ≠ path) : appendLog fs path now record p = fs p := by
  unfold appendLog
  cases hf : fs path with
  | none => rfl
  | some f =>
    simp only
    split
    · rfl
    · exact Function.update_noteq hp _ _

theorem appendLog_isDirectory (fs : FileSystem) (path : String) (now : Int)
    (record : List Nat) (p : String) :
    isDirectory (appendLog fs path now record) p = isDirectory fs p := by
  by_cases hp : p = path
  · subst hp
    unfold appendLog
    cases hf : fs p with
    | none => simp [hf]
    | some f =>
      simp only
      split
      · simp [hf]
      · rename_i hd
        simp [isDirectory, hf, hd]
  · simp only [isDirectory, appendLog_agree fs path now record hp]

theorem stat_of_isDirectory {fs : FileSystem} {p : String} (h : isDirectory fs p = true) :
    ∃ s, stat fs p = some s := by
  unfold isDirectory at h
  unfold stat
  cases hf : fs p with
  | none => simp [hf] at h
  | some f => exact ⟨_, rfl⟩

/-- `copyFile` does not panic when it is given a source stat. -/
theorem copyFile_no_panic (fs : FileSystem) (res now : Int) (fault : Option Fault)
    (srcFile dstFile : String) (info : FileInfo) :
    (copyFile fs res now fault srcFile dstFile (some info)).2 ≠ .panic := by
  unfold copyFile
  split
  · simp
  · split
    · simp
    · split
      · simp
      · split
        · simp
        · simp only
          split
          · simp
          · split
            · simp
            · split
              · simp
              · split <;> simp

/-- An iteration of the worker loop whose source can be stat'ed does not
panic. -/
theorem copyTask_no_panic (fs : FileSystem) (res now : Int) (fault : Option Fault)
    (srcDir dstDir f : String) {s : FileInfo} (hs : stat fs (taskPath srcDir f) = some s) :
    (copyTask fs res now fault srcDir dstDir f).2 ≠ .panic := by
  obtain ⟨l, hl⟩ := sizeLabel_some s
  have hnp := copyFile_no_panic fs res now fault (taskPath srcDir f) (taskPath dstDir f) s
  unfold copyTask
  simp only [hs]
  cases hd : checkDiff (some s) (stat fs (taskPath dstDir f)) with
  | none =>
    exfalso
    cases hdd : stat fs (taskPath dstDir f) with
    | none => simp [checkDiff, hdd] at hd
    | some d =>
      simp only [checkDiff, hdd] at hd
      split at hd
      · simp at hd
      · split at hd <;> simp at hd
  | some r =>
    obtain ⟨diff, info⟩ := r
    have hinfo : info = some s := by
      cases hdd : stat fs (taskPath dstDir f) with
      | none =>
        simp [checkDiff, hdd] at hd
        exact hd.2.symm
      | some d =>
        simp only [checkDiff, hdd] at hd
        split at hd
        · simp at hd; exact hd.2.symm
        · split at hd <;> (simp at hd; exact hd.2.symm)
    subst hinfo
    simp only [hl]
    cases diff with
    | false => simp
    | true =>
      simp only [if_true]
      cases hr : copyFile fs res now fault (taskPath srcDir f) (taskPath dstDir f) (some s) with
      | mk fs1 r =>
        rw [hr] at hnp
        cases r with
        | ok => simp
        | err => simp
        | panic => exact absurd rfl hnp

/-! ## Theorems: the tasks in the pipeline -/

theorem exists_mem_split {α : Type} (t : α → List String) {l : List α} {i : Nat} {a : α}
    (g : String) (h : l.get? i = some a) :
    (∃ w ∈ l, g ∈ t w) ↔ (g ∈ t a ∨ ∃ w ∈ l.eraseIdx i, g ∈ t w) := by
  induction l generalizing i with
  | nil => simp at h
  | cons x xs ih =>
    cases i with
    | zero =>
      simp at h
      subst h
      simp [List.eraseIdx]
    | succ n =>
      have := ih (i := n) (by simpa using h)
      simp only [List.eraseIdx, List.mem_cons, exists_eq_or_imp, this]
      tauto

theorem exists_mem_set {α : Type} (t : α → List String) {l : List α} {i : Nat} {a : α}
    (b : α) (g : String) (h : l.get? i = some a) :
    (∃ w ∈ l.set i b, g ∈ t w) ↔ (g ∈ t b ∨ ∃ w ∈ l.eraseIdx i, g ∈ t w) := by
  induction l generalizing i with
  | nil => simp at h
  | cons x xs ih =>
    cases i with
    | zero => simp [List.set, List.eraseIdx]
    | succ n =>
      have := ih (i := n) (by simpa using h)
      simp only [List.set, List.eraseIdx, List.mem_cons, exists_eq_or_imp, this]
      tauto

/-- A `Move` neither creates nor loses a task. -/
theorem move_tasks {cfg : Config} {s s1 : State} (h : Move cfg s s1) (g : String) :
    s1.hasTask g ↔ s.hasTask g := by
  cases h with
  | discoverDone hc hm => simp [State.hasTask, hm, MainPc.tasks, mainDiscover]
  | countTop hc hm =>
    simp [State.hasTask, hm, MainPc.tasks, mainDiscover_file]
  | spawn hc hm =>
    rename_i n r cs rest
    have e : (∃ w ∈ s.walkers ++ [walkerFor n r cs], g ∈ w.tasks) ↔
        ((∃ w ∈ s.walkers, g ∈ w.tasks) ∨ g ∈ (walkerFor n r cs).pending) := by
      constructor
      · rintro ⟨w, hw, hg⟩
        rcases List.mem_append.1 hw with h | h
        · exact Or.inl ⟨w, h, hg⟩
        · rw [List.mem_singleton.1 h] at hg
          exact Or.inr hg
      · rintro (⟨w, hw, hg⟩ | hg)
        · exact ⟨w, List.mem_append.2 (Or.inl hw), hg⟩
        · exact ⟨_, List.mem_append.2 (Or.inr (List.mem_singleton.2 rfl)), hg⟩
    show (g ∈ (MainPc.discover rest).tasks ∨
        (∃ w ∈ s.walkers ++ [walkerFor n r cs], g ∈ w.tasks) ∨ ∃ w ∈ s.workers, g ∈ w.tasks) ↔
      (g ∈ s.main.tasks ∨ (∃ w ∈ s.walkers, g ∈ w.tasks) ∨ ∃ w ∈ s.workers, g ∈ w.tasks)
    rw [e, hm]
    simp only [MainPc.tasks, mainDiscover_dir, List.mem_append]
    generalize (∃ w ∈ s.walkers, g ∈ w.tasks) = A
    generalize (∃ w ∈ s.workers, g ∈ w.tasks) = B
    tauto
  | waitDone hc hm hw => simp [State.hasTask, hm, MainPc.tasks]
  | loopEnter hc hm hlt => simp [State.hasTask, hm, MainPc.tasks]
  | loopLimit hc hm hlt => simp [State.hasTask, hm, MainPc.tasks]
  | pollPass hc hm hle => simp [State.hasTask, hm, MainPc.tasks]
  | pollWait hc hm => rfl
  | errNone hc hm he0 => simp [State.hasTask, hm, MainPc.tasks]
  | errSome hc hm he0 => simp [State.hasTask, hm, MainPc.tasks]
  | close hc hm => simp [State.hasTask, hm, MainPc.tasks]
  | sendTop hc hm hw =>
    rename_i n rest i
    show (g ∈ (MainPc.discover rest).tasks ∨ (∃ w ∈ s.walkers, g ∈ w.tasks) ∨
        ∃ w ∈ s.workers.set i (.work n), g ∈ w.tasks) ↔
      (g ∈ s.main.tasks ∨ (∃ w ∈ s.walkers, g ∈ w.tasks) ∨ ∃ w ∈ s.workers, g ∈ w.tasks)
    rw [exists_mem_set Worker.tasks _ g hw, exists_mem_split Worker.tasks g hw, hm]
    simp only [MainPc.tasks, Worker.tasks, List.mem_cons, List.mem_singleton, List.not_mem_nil]
    generalize (∃ w ∈ s.walkers, g ∈ w.tasks) = A
    generalize (∃ w ∈ s.workers.eraseIdx i, g ∈ w.tasks) = B
    tauto
  | drainSend hc hm hw =>
    rename_i f i
    show (g ∈ MainPc.drainRecv.tasks ∨ (∃ w ∈ s.walkers, g ∈ w.tasks) ∨
        ∃ w ∈ s.workers.set i (.work f), g ∈ w.tasks) ↔
      (g ∈ s.main.tasks ∨ (∃ w ∈ s.walkers, g ∈ w.tasks) ∨ ∃ w ∈ s.workers, g ∈ w.tasks)
    rw [exists_mem_set Worker.tasks _ g hw, exists_mem_split Worker.tasks g hw, hm]
    simp only [MainPc.tasks, Worker.tasks, List.mem_singleton, List.not_mem_nil]
    generalize (∃ w ∈ s.walkers, g ∈ w.tasks) = A
    generalize (∃ w ∈ s.workers.eraseIdx i, g ∈ w.tasks) = B
    tauto
  | drainRecv hc hm hw =>
    rename_i f i
    show (g ∈ (MainPc.drainSend f).tasks ∨ (∃ w ∈ s.walkers, g ∈ w.tasks) ∨
        ∃ w ∈ s.workers.set i .countErr, g ∈ w.tasks) ↔
      (g ∈ s.main.tasks ∨ (∃ w ∈ s.walkers, g ∈ w.tasks) ∨ ∃ w ∈ s.workers, g ∈ w.tasks)
    rw [exists_mem_set Worker.tasks _ g hw, exists_mem_split Worker.tasks g hw, hm]
    simp only [MainPc.tasks, Worker.tasks, List.mem_singleton, List.not_mem_nil]
    generalize (∃ w ∈ s.walkers, g ∈ w.tasks) = A
    generalize (∃ w ∈ s.workers.eraseIdx i, g ∈ w.tasks) = B
    tauto
  | walk hc hw =>
    rename_i f rest j
    show (g ∈ s.main.tasks ∨
        (∃ w ∈ s.walkers.set j { pending := rest, sending := some f }, g ∈ w.tasks) ∨
        ∃ w ∈ s.workers, g ∈ w.tasks) ↔
      (g ∈ s.main.tasks ∨ (∃ w ∈ s.walkers, g ∈ w.tasks) ∨ ∃ w ∈ s.workers, g ∈ w.tasks)
    rw [exists_mem_set Walker.tasks _ g hw, exists_mem_split Walker.tasks g hw]
    simp only [Walker.tasks, Option.toList, List.nil_append, List.singleton_append]
  | walkSend hc hw hwk =>
    rename_i f p j i
    show (g ∈ s.main.tasks ∨
        (∃ w ∈ s.walkers.set j { pending := p, sending := none }, g ∈ w.tasks) ∨
        ∃ w ∈ s.workers.set i (.work f), g ∈ w.tasks) ↔
      (g ∈ s.main.tasks ∨ (∃ w ∈ s.walkers, g ∈ w.tasks) ∨ ∃ w ∈ s.workers, g ∈ w.tasks)
    rw [exists_mem_set Walker.tasks _ g hw, exists_mem_split Walker.tasks g hw,
      exists_mem_set Worker.tasks _ g hwk, exists_mem_split Worker.tasks g hwk]
    generalize (∃ w ∈ s.walkers.eraseIdx j, g ∈ w.tasks) = A
    generalize (∃ w ∈ s.workers.eraseIdx i, g ∈ w.tasks) = B
    simp only [Walker.tasks, Worker.tasks, Option.toList, List.nil_append,
      List.singleton_append, List.mem_cons, List.mem_singleton, List.not_mem_nil]
    tauto
  | countErr hc hw =>
    rename_i i
    show (g ∈ s.main.tasks ∨ (∃ w ∈ s.walkers, g ∈ w.tasks) ∨
        ∃ w ∈ s.workers.set i .recv, g ∈ w.tasks) ↔
      (g ∈ s.main.tasks ∨ (∃ w ∈ s.walkers, g ∈ w.tasks) ∨ ∃ w ∈ s.workers, g ∈ w.tasks)
    rw [exists_mem_set Worker.tasks _ g hw, exists_mem_split Worker.tasks g hw]
    simp only [Worker.tasks]

theorem checkDiff_snd {a b : Option FileInfo} {d : Bool} {info : Option FileInfo}
    (h : checkDiff a b = some (d, info)) : info = a := by
  unfold checkDiff at h
  split at h
  · simp at h; exact h.2.symm
  · split at h
    · simp at h
    · split at h
      · simp at h; exact h.2.symm
      · split at h <;> (simp at h; exact h.2.symm)

/-! ## Theorems: runs of the pipeline on a file system -/

theorem taskOutcome_copyTask (fs : FileSystem) (res now : Int) (fault : Option Fault)
    (srcDir dstDir f : String) :
    taskOutcome (stat fs (taskPath srcDir f)) (stat fs (taskPath dstDir f))
        (copyFile fs res now fault (taskPath srcDir f) (taskPath dstDir f)
          (stat fs (taskPath srcDir f))).2 =
      (copyTask fs res now fault srcDir dstDir f).2 := by
  unfold taskOutcome copyTask
  simp only
  cases hcd : checkDiff (stat fs (taskPath srcDir f)) (stat fs (taskPath dstDir f)) with
  | none => rfl
  | some p =>
    obtain ⟨d, info⟩ := p
    have hinfo := checkDiff_snd hcd
    subst hinfo
    simp only
    cases hl : sizeLabel (stat fs (taskPath srcDir f)) with
    | none => rfl
    | some l =>
      simp only
      cases d with
      | false => rfl
      | true =>
        simp only [if_true]
        cases hr : copyFile fs res now fault (taskPath srcDir f) (taskPath dstDir f)
            (stat fs (taskPath srcDir f)) with
        | mk fs1 r => cases r <;> rfl

theorem fsStep_move {cfg : Config} {srcDir dstDir : String} {res : Int} {w w1 : World}
    {b : Action} (h : fsStep cfg srcDir dstDir res w (.move b) = some w1) :
    (∃ c, step cfg w.st c = some w1.st ∧ w1.fs = w.fs ∧ Move cfg w.st w1.st) ∨
    (∃ c, step cfg w.st c = some w1.st ∧ w1.fs = w.fs ∧ Late w.st w1.st) := by
  have key : ∀ s1, step cfg w.st b = some s1 → (∀ i x y c, b ≠ .work i x y c) →
      w1 = { st := s1, fs := w.fs } →
      (∃ c, step cfg w.st c = some w1.st ∧ w1.fs = w.fs ∧ Move cfg w.st w1.st) ∨
      (∃ c, step cfg w.st c = some w1.st ∧ w1.fs = w.fs ∧ Late w.st w1.st) := by
    intro s1 hs hb hw1
    subst hw1
    rcases step_cases hs with hm | ⟨_, _, _, _, _, hbb, _⟩ | hm
    · exact Or.inl ⟨_, hs, rfl, hm.1⟩
    · exact absurd hbb (hb _ _ _ _)
    · exact Or.inr ⟨_, hs, rfl, hm.1⟩
  cases b with
  | work i x y c => simp [fsStep] at h
  | main =>
    simp only [fsStep] at h
    split at h
    · simp at h
    · rename_i s1 hs
      simp at h
      exact key s1 hs (by simp) h.symm
  | mainSend i =>
    simp only [fsStep] at h
    split at h
    · simp at h
    · rename_i s1 hs
      simp at h
      exact key s1 hs (by simp) h.symm
  | mainRecvErr i =>
    simp only [fsStep] at h
    split at h
    · simp at h
    · rename_i s1 hs
      simp at h
      exact key s1 hs (by simp) h.symm
  | walk j =>
    simp only [fsStep] at h
    split at h
    · simp at h
    · rename_i s1 hs
      simp at h
      exact key s1 hs (by simp) h.symm
  | walkSend j i =>
    simp only [fsStep] at h
    split at h
    · simp at h
    · rename_i s1 hs
      simp at h
      exact key s1 hs (by simp) h.symm
  | countErr i =>
    simp only [fsStep] at h
    split at h
    · simp at h
    · rename_i s1 hs
      simp at h
      exact key s1 hs (by simp) h.symm
  | recvClosed i =>
    simp only [fsStep] at h
    split at h
    · simp at h
    · rename_i s1 hs
      simp at h
      exact key s1 hs (by simp) h.symm

/-- What a step on the file system is: a `Move`, the handling of a task, a step
after `close(ch)`, or a record written to the log. -/
theorem fsStep_cases {cfg : Config} {srcDir dstDir : String} {res : Int} {w w1 : World}
    {a : FsAction} (h : fsStep cfg srcDir dstDir res w a = some w1) :
    (∃ b, step cfg w.st b = some w1.st ∧ w1.fs = w.fs ∧ Move cfg w.st w1.st) ∨
    (∃ b i f now fault, step cfg w.st b = some w1.st ∧ w.st.crashed = false ∧
      w.st.workers.get? i = some (.work f) ∧
      w1.st = finishTask w.st i f (copyTask w.fs res now fault srcDir dstDir f).2 ∧
      w1.fs = (copyTask w.fs res now fault srcDir dstDir f).1) ∨
    (∃ b, step cfg w.st b = some w1.st ∧ w1.fs = w.fs ∧ Late w.st w1.st) ∨
    (∃ now record, w1.st = w.st ∧ w.st.crashed = false ∧
      w1.fs = appendLog w.fs cfg.logFileName now record) := by
  cases a with
  | move b =>
    rcases fsStep_move h with h1 | h1
    · exact Or.inl h1
    · exact Or.inr (Or.inr (Or.inl h1))
  | copy i now fault =>
    right; left
    simp only [fsStep] at h
    split at h
    · rename_i f hw
      split at h
      · simp at h
      · rename_i s1 hs
        simp at h; subst h
        rcases step_cases hs with hm | ⟨i1, f1, _, _, _, hb, hc, hw1, hs1⟩ | hm
        · exact absurd rfl (hm.2 _ _ _ _)
        · simp only [Action.work.injEq] at hb
          obtain ⟨rfl, rfl, rfl, rfl⟩ := hb
          rw [hw] at hw1
          simp at hw1
          subst hw1
          rw [taskOutcome_copyTask] at hs1
          exact ⟨_, i, f, now, fault, hs, hc, hw, hs1, rfl⟩
        · exact absurd rfl (hm.2 _ _ _ _)
    · simp at h
  | log now record =>
    right; right; right
    simp only [fsStep] at h
    split at h
    · simp at h
    · rename_i hc
      split at h
      · simp at h
      · simp at h; subst h
        exact ⟨now, record, rfl, by simpa using hc, rfl⟩

theorem fsReachable_base {cfg : Config} {srcDir dstDir : String} {res : Int} {fs0 : FileSystem}
    {w : World} (h : FsReachable cfg srcDir dstDir res fs0 w) : Reachable cfg w.st := by
  induction h with
  | init => exact Reachable.init
  | step a _ hs ih =>
    rcases fsStep_cases hs with ⟨b, hb, _⟩ | ⟨b, _, _, _, _, hb, _⟩ | ⟨b, hb, _⟩ | ⟨_, _, hst, _⟩
    · exact Reachable.step b ih hb
    · exact Reachable.step b ih hb
    · exact Reachable.step b ih hb
    · rw [hst]; exact ih

theorem finish_hasTask {s : State} {i : Nat} {f : String} (b : Worker)
    (hw : s.workers.get? i = some (.work f)) (g : String) :
    State.hasTask { s with workers := s.workers.set i b } g ↔
      (g ∈ s.main.tasks ∨ (∃ w ∈ s.walkers, g ∈ w.tasks) ∨
        (g ∈ b.tasks ∨ ∃ w ∈ s.workers.eraseIdx i, g ∈ w.tasks)) := by
  simp only [State.hasTask]
  rw [exists_mem_set Worker.tasks b g hw]

theorem start_hasTask {s : State} {i : Nat} {f : String}
    (hw : s.workers.get? i = some (.work f)) (g : String) :
    s.hasTask g ↔
      (g ∈ s.main.tasks ∨ (∃ w ∈ s.walkers, g ∈ w.tasks) ∨
        (g = f ∨ ∃ w ∈ s.workers.eraseIdx i, g ∈ w.tasks)) := by
  simp only [State.hasTask]
  rw [exists_mem_split Worker.tasks g hw]
  simp only [Worker.tasks, List.mem_singleton]

theorem finish_sub {s : State} {i : Nat} {f : String} (o : Outcome)
    (hw : s.workers.get? i = some (.work f)) {g : String}
    (h : (finishTask s i f o).hasTask g) : s.hasTask g := by
  rw [start_hasTask hw]
  cases o with
  | skip =>
    have h1 := (finish_hasTask .recv hw g).1 (by simpa [finishTask, State.hasTask] using h)
    simp only [Worker.tasks, List.not_mem_nil, false_or] at h1
    rcases h1 with h1 | h1 | h1
    · exact Or.inl h1
    · exact Or.inr (Or.inl h1)
    · exact Or.inr (Or.inr (Or.inr h1))
  | done =>
    have h1 := (finish_hasTask .recv hw g).1 (by simpa [finishTask, State.hasTask] using h)
    simp only [Worker.tasks, List.not_mem_nil, false_or] at h1
    rcases h1 with h1 | h1 | h1
    · exact Or.inl h1
    · exact Or.inr (Or.inl h1)
    · exact Or.inr (Or.inr (Or.inr h1))
  | fail =>
    have h1 := (finish_hasTask (.sendErr f) hw g).1
      (by simpa [finishTask, State.hasTask] using h)
    simpa only [Worker.tasks, List.mem_singleton] using h1
  | panic =>
    rw [← start_hasTask hw]
    exact h

theorem finish_keep {s : State} {i : Nat} {f : String} (o : Outcome)
    (hw : s.workers.get? i = some (.work f)) {g : String}
    (h : s.hasTask g) (hne : g ≠ f) : (finishTask s i f o).hasTask g := by
  rw [start_hasTask hw] at h
  have h2 : g ∈ s.main.tasks ∨ (∃ w ∈ s.walkers, g ∈ w.tasks) ∨
      ∃ w ∈ s.workers.eraseIdx i, g ∈ w.tasks := by
    rcases h with h | h | h | h
    · exact Or.inl h
    · exact Or.inr (Or.inl h)
    · exact absurd h hne
    · exact Or.inr (Or.inr h)
  have key : ∀ b : Worker, State.hasTask { s with workers := s.workers.set i b } g := by
    intro b
    rw [finish_hasTask b hw]
    rcases h2 with h | h | h
    · exact Or.inl h
    · exact Or.inr (Or.inl h)
    · exact Or.inr (Or.inr (Or.inr h))
  cases o with
  | skip => exact key .recv
  | done => exact key .recv
  | fail => exact key (.sendErr f)
  | panic =>
    show State.hasTask { s with crashed := true } g
    have e : State.hasTask { s with crashed := true } g ↔ s.hasTask g := Iff.rfl
    rw [e, start_hasTask hw]
    rcases h2 with h | h | h
    · exact Or.inl h
    · exact Or.inr (Or.inl h)
    · exact Or.inr (Or.inr (Or.inr h))

theorem finish_fail {s : State} {i : Nat} {f : String}
    (hw : s.workers.get? i = some (.work f)) : (finishTask s i f .fail).hasTask f := by
  show State.hasTask { s with workers := s.workers.set i (.sendErr f) } f
  rw [finish_hasTask (.sendErr f) hw]
  exact Or.inr (Or.inr (Or.inl (by simp [Worker.tasks])))

theorem init_hasTask (cfg : Config) (g : String) : (init cfg).hasTask g ↔ g ∈ cfg.tasks := by
  simp only [State.hasTask, init, MainPc.tasks, Config.tasks, List.not_mem_nil, false_and,
    exists_false, false_or]
  constructor
  · rintro (h | ⟨w, hw, hg⟩)
    · exact h
    · rw [List.eq_of_mem_replicate hw] at hg
      simp [Worker.tasks] at hg
  · exact fun h => Or.inl h

theorem hasTask_of_work {s : State} {i : Nat} {f : String}
    (hw : s.workers.get? i = some (.work f)) : s.hasTask f :=
  (start_hasTask hw f).2 (Or.inr (Or.inr (Or.inl rfl)))


theorem chOpen_of_move {cfg : Config} {s s1 : State} (h : Move cfg s s1)
    (ho : s1.main.chOpen = true) : s.main.chOpen = true := by
  cases h with
  | close hc hm => simp [MainPc.chOpen] at ho
  | pollWait hc hm => exact ho
  | walk hc hw => exact ho
  | walkSend hc hw hwk => exact ho
  | countErr hc hw => exact ho
  | discoverDone hc hm => simp [hm, MainPc.chOpen]
  | countTop hc hm => simp [hm, MainPc.chOpen]
  | spawn hc hm => simp [hm, MainPc.chOpen]
  | waitDone hc hm hw => simp [hm, MainPc.chOpen]
  | loopEnter hc hm hlt => simp [hm, MainPc.chOpen]
  | loopLimit hc hm hlt => simp [hm, MainPc.chOpen]
  | pollPass hc hm hle => simp [hm, MainPc.chOpen]
  | errNone hc hm he0 => simp [hm, MainPc.chOpen]
  | errSome hc hm he0 => simp [hm, MainPc.chOpen]
  | sendTop hc hm hw => simp [hm, MainPc.chOpen]
  | drainSend hc hm hw => simp [hm, MainPc.chOpen]
  | drainRecv hc hm hw => simp [hm, MainPc.chOpen]

theorem not_chOpen_of_late {s s1 : State} (h : Late s s1) : s1.main.chOpen = false := by
  cases h with
  | exit hc hm => rfl
  | recvClosed hc hm hw => simp [hm, MainPc.chOpen]

theorem stampKept_congr {res : Int} {fs fs1 : FileSystem} {p : String} (h : fs1 p = fs p) :
    stampKept res fs1 p = stampKept res fs p := by
  simp [stampKept, stat_congr h]

/-- Every step on the file system preserves `Tracked`, when the paths of the run
are apart and the destination's file system keeps the time stamps of the source
files. -/
theorem tracked_step {cfg : Config} {srcDir dstDir : String} {res : Int} {fs0 : FileSystem}
    {w w1 : World} {a : FsAction} (hap : pathsApart cfg srcDir dstDir)
    (hkept : ∀ g ∈ cfg.tasks, stampKept res fs0 (taskPath srcDir g) = true)
    (ht : Tracked cfg srcDir dstDir fs0 w) (hs : fsStep cfg srcDir dstDir res w a = some w1) :
    Tracked cfg srcDir dstDir fs0 w1 := by
  intro ho1
  obtain ⟨_, hdisj, hlog⟩ := hap
  rcases fsStep_cases hs with ⟨b, _, hfs, hm⟩ | ⟨b, i, f, now, fault, _, hc, hw, hst, hfs⟩ |
    ⟨b, _, _, hl⟩ | ⟨now, record, hst, _, hfs⟩
  · obtain ⟨t1, t2, t3⟩ := ht (chOpen_of_move hm ho1)
    refine ⟨fun g hg => t1 g ((move_tasks hm g).1 hg), fun g hg => ?_, fun g hg => ?_⟩
    · rcases t2 g hg with h | h
      · exact Or.inl ((move_tasks hm g).2 h)
      · exact Or.inr (hfs ▸ h)
    · rw [hfs]; exact t3 g hg
  · have ho : w.st.main.chOpen = true := by
      rw [hst, finish_main] at ho1
      exact ho1
    obtain ⟨t1, t2, t3⟩ := ht ho
    have hf : f ∈ cfg.tasks := t1 f (hasTask_of_work hw)
    have hsrc : ∀ g ∈ cfg.tasks, w1.fs (taskPath srcDir g) = w.fs (taskPath srcDir g) := by
      intro g hg
      rw [hfs]
      exact copyTask_agree _ _ _ _ _ _ _
        (fun e => hdisj f (List.mem_cons_of_mem _ hf) g hg e.symm)
    refine ⟨fun g hg => t1 g (finish_sub _ hw (hst ▸ hg)), fun g hg => ?_,
      fun g hg => (hsrc g hg).trans (t3 g hg)⟩
    have agree : ∀ g ∈ cfg.tasks, g ≠ f → upToDate w.fs srcDir dstDir g →
        upToDate w1.fs srcDir dstDir g := by
      intro g hg hne hu
      refine upToDate_of_agree hu (hsrc g hg) ?_
      rw [hfs]
      exact copyTask_agree _ _ _ _ _ _ _ (fun e => hne (taskPath_inj e))
    by_cases hgf : g = f
    · subst hgf
      have hk : stampKept res w.fs (taskPath srcDir g) = true := by
        rw [stampKept_congr (t3 g hg)]
        exact hkept g hg
      rcases copyTask_cases w.fs res now fault srcDir dstDir g hk with h | h | h | h
      · right
        rw [hfs, h.1]
        exact h.2
      · right
        rw [hfs]
        exact h.2.1
      · left
        rw [hst, h]
        exact finish_fail hw
      · left
        rw [hst, h]
        exact hasTask_of_work hw
    · rcases t2 g hg with h | h
      · left
        rw [hst]
        exact finish_keep _ hw h hgf
      · exact Or.inr (agree g hg hgf h)
  · rw [not_chOpen_of_late hl] at ho1
    exact absurd ho1 (by simp)
  · obtain ⟨t1, t2, t3⟩ := ht (hst ▸ ho1)
    have hsrc : ∀ g ∈ cfg.tasks, w1.fs (taskPath srcDir g) = w.fs (taskPath srcDir g) := by
      intro g hg
      rw [hfs]
      exact appendLog_agree _ _ _ _ (fun e => (hlog g hg).1 e.symm)
    refine ⟨fun g hg => t1 g (hst ▸ hg), fun g hg => ?_, fun g hg => (hsrc g hg).trans (t3 g hg)⟩
    rcases t2 g hg with h | h
    · exact Or.inl (hst ▸ h)
    · refine Or.inr (upToDate_of_agree h (hsrc g hg) ?_)
      rw [hfs]
      exact appendLog_agree _ _ _ _ (fun e => (hlog g hg).2 e.symm)

theorem tracked_reachable {cfg : Config} {srcDir dstDir : String} {res : Int} {fs0 : FileSystem}
    {w : World} (hap : pathsApart cfg srcDir dstDir)
    (hkept : ∀ g ∈ cfg.tasks, stampKept res fs0 (taskPath srcDir g) = true)
    (h : FsReachable cfg srcDir dstDir res fs0 w) : Tracked cfg srcDir dstDir fs0 w := by
  induction h with
  | init =>
    exact fun _ => ⟨fun g hg => (init_hasTask cfg g).1 hg,
      fun g hg => Or.inl ((init_hasTask cfg g).2 hg), fun _ _ => rfl⟩
  | step a _ hs ih => exact tracked_step hap hkept ih hs

theorem move_basic {cfg : Config} {s s1 : State} (h : Move cfg s s1) :
    s1.completed = s.completed ∧ s1.crashed = s.crashed ∧ s.crashed = false ∧
      ((∀ wk ∈ s.workers, ∀ f, wk ≠ Worker.sendErr f) →
        ∀ wk ∈ s1.workers, ∀ f, wk ≠ Worker.sendErr f) := by
  have key : ∀ (i : Nat) (b : Worker), (∀ f, b ≠ Worker.sendErr f) →
      (∀ wk ∈ s.workers, ∀ f, wk ≠ Worker.sendErr f) →
      ∀ wk ∈ s.workers.set i b, ∀ f, wk ≠ Worker.sendErr f := by
    intro i b hb hall wk hwk f
    rcases List.mem_or_eq_of_mem_set hwk with h | h
    · exact hall wk h f
    · exact h ▸ hb f
  cases h with
  | sendTop hc hm hw => exact ⟨rfl, rfl, hc, key _ _ (by simp)⟩
  | drainSend hc hm hw => exact ⟨rfl, rfl, hc, key _ _ (by simp)⟩
  | drainRecv hc hm hw => exact ⟨rfl, rfl, hc, key _ _ (by simp)⟩
  | walkSend hc hw hwk => exact ⟨rfl, rfl, hc, key _ _ (by simp)⟩
  | countErr hc hw => exact ⟨rfl, rfl, hc, key _ _ (by simp)⟩
  | discoverDone hc hm => exact ⟨rfl, rfl, hc, fun h => h⟩
  | countTop hc hm => exact ⟨rfl, rfl, hc, fun h => h⟩
  | spawn hc hm => exact ⟨rfl, rfl, hc, fun h => h⟩
  | waitDone hc hm hw => exact ⟨rfl, rfl, hc, fun h => h⟩
  | loopEnter hc hm hlt => exact ⟨rfl, rfl, hc, fun h => h⟩
  | loopLimit hc hm hlt => exact ⟨rfl, rfl, hc, fun h => h⟩
  | pollPass hc hm hle => exact ⟨rfl, rfl, hc, fun h => h⟩
  | pollWait hc hm => exact ⟨rfl, rfl, hc, fun h => h⟩
  | errNone hc hm he0 => exact ⟨rfl, rfl, hc, fun h => h⟩
  | errSome hc hm he0 => exact ⟨rfl, rfl, hc, fun h => h⟩
  | close hc hm => exact ⟨rfl, rfl, hc, fun h => h⟩
  | walk hc hw => exact ⟨rfl, rfl, hc, fun h => h⟩

/-- Every step on a file system in which all destinations are up to date
preserves `Settled`. -/
theorem settled_step {cfg : Config} {srcDir dstDir : String} {res : Int} {fs1 : FileSystem}
    {w w1 : World} {a : FsAction} (hap : pathsApart cfg srcDir dstDir)
    (hup : ∀ g ∈ cfg.tasks, upToDate fs1 srcDir dstDir g)
    (ht : Settled cfg fs1 w) (hs : fsStep cfg srcDir dstDir res w a = some w1) :
    Settled cfg fs1 w1 := by
  intro ho1
  obtain ⟨_, _, hlog⟩ := hap
  rcases fsStep_cases hs with ⟨b, _, hfs, hm⟩ | ⟨b, i, f, now, fault, _, hc, hw, hst, hfs⟩ |
    ⟨b, _, _, hl⟩ | ⟨now, record, hst, _, hfs⟩
  · obtain ⟨h1, h2, h3, h4, h5⟩ := ht (chOpen_of_move hm ho1)
    have hb := move_basic hm
    exact ⟨fun p hp => by rw [hfs]; exact h1 p hp, hb.1.trans h2, hb.2.1.trans h3, hb.2.2.2 h4,
      fun g hg => h5 g ((move_tasks hm g).1 hg)⟩
  · have ho : w.st.main.chOpen = true := by
      rw [hst, finish_main] at ho1
      exact ho1
    obtain ⟨h1, h2, h3, h4, h5⟩ := ht ho
    have hf : f ∈ cfg.tasks := h5 f (hasTask_of_work hw)
    have hu : upToDate w.fs srcDir dstDir f :=
      upToDate_of_agree (hup f hf) (h1 _ (fun e => (hlog f hf).1 e.symm))
        (h1 _ (fun e => (hlog f hf).2 e.symm))
    have hskip := copyTask_upToDate hu res now fault
    rw [hskip] at hst hfs
    refine ⟨fun p hp => by rw [hfs]; exact h1 p hp, ?_, ?_, ?_,
      fun g hg => h5 g (finish_sub .skip hw (hst ▸ hg))⟩
    · rw [hst]; exact h2
    · rw [hst]; exact h3
    · rw [hst]
      intro wk hwk f1
      rcases List.mem_or_eq_of_mem_set hwk with h | h
      · exact h4 wk h f1
      · rw [h]; simp
  · rw [not_chOpen_of_late hl] at ho1
    exact absurd ho1 (by simp)
  · obtain ⟨h1, h2, h3, h4, h5⟩ := ht (hst ▸ ho1)
    refine ⟨fun p hp => ?_, hst ▸ h2, hst ▸ h3, hst ▸ h4, fun g hg => h5 g (hst ▸ hg)⟩
    rw [hfs, appendLog_agree _ _ _ _ hp]
    exact h1 p hp

theorem settled_reachable {cfg : Config} {srcDir dstDir : String} {res : Int} {fs1 : FileSystem}
    {w : World} (hap : pathsApart cfg srcDir dstDir)
    (hup : ∀ g ∈ cfg.tasks, upToDate fs1 srcDir dstDir g)
    (h : FsReachable cfg srcDir dstDir res fs1 w) : Settled cfg fs1 w := by
  induction h with
  | init =>
    refine fun _ => ⟨fun _ _ => rfl, rfl, rfl, ?_, fun g hg => (init_hasTask cfg g).1 hg⟩
    intro wk hwk f
    rw [List.eq_of_mem_replicate hwk]
    simp
  | step a _ hs ih => exact settled_step hap hup ih hs

theorem zero_of_sum {α : Type} (f : α → Nat) {l : List α} (h : (l.map f).sum = 0) :
    ∀ x ∈ l, f x = 0 := by
  induction l with
  | nil => simp
  | cons x xs ih =>
    simp only [List.map, List.sum_cons] at h
    intro y hy
    simp only [List.mem_cons] at hy
    rcases hy with rfl | hy
    · omega
    · exact ih (by omega) y hy

theorem sum_zero {α : Type} (f : α → Nat) {l : List α} (h : ∀ x ∈ l, f x = 0) :
    (l.map f).sum = 0 := by
  induction l with
  | nil => simp
  | cons x xs ih =>
    simp only [List.map, List.sum_cons]
    rw [h x (by simp), ih (fun y hy => h y (List.mem_cons_of_mem _ hy))]

theorem tasks_of_finished {w : Walker} (h : w.finished = true) :
    w.tasks = [] ∧ w.pending.length = 0 := by
  obtain ⟨p, sd⟩ := w
  simp only [Walker.finished, Bool.and_eq_true, List.isEmpty_iff, Option.isNone_iff_eq_none] at h
  simp [Walker.tasks, h.1, h.2]

theorem tasks_of_load {w : Worker} (h : w.load = 0) : w.tasks = [] := by
  cases w <;> simp [Worker.load, Worker.tasks] at h ⊢

/-- When the retry loop has ended, no task is left, nothing is left to count,
and every counted file is completed or skipped. -/
theorem loop_end {cfg : Config} {s : State} (hr : Reachable cfg s) (hpos : 0 < cfg.retryCount)
    (hm : s.main = .loopExit) :
    (∀ g, ¬ s.hasTask g) ∧ s.fileCount = (mainDiscover cfg.topFiles ⟨0, []⟩).fileCount ∧
      s.completed + s.skipCount = s.fileCount ∧ s.errorCount = 0 := by
  obtain ⟨⟨he, _, _, hn⟩, hk, _, ht, hu⟩ := progress_reachable hr
  have hn := hn (by simp [hm, MainPc.chOpen])
  have hfin := hk (by simp [hm, MainPc.pastWait])
  have hfl := ht hpos (by simp [hm, MainPc.pastTest])
  rw [List.all_eq_true] at hfin
  have hload : (s.workers.map Worker.load).sum = 0 := by
    simp only [State.inFlight] at hfl
    omega
  refine ⟨?_, ?_, by omega, he⟩
  · rintro g (h | ⟨w, hw, hg⟩ | ⟨w, hw, hg⟩)
    · simp [hm, MainPc.tasks] at h
    · rw [(tasks_of_finished (hfin w hw)).1] at hg
      simp at hg
    · rw [tasks_of_load (zero_of_sum Worker.load hload w hw)] at hg
      simp at hg
  · have : (s.walkers.map (fun w => w.pending.length)).sum = 0 :=
      sum_zero _ (fun w hw => (tasks_of_finished (hfin w hw)).2)
    simp only [State.uncounted, hm, MainPc.uncounted, this] at hu
    omega

/-- Past `wg.Wait()` every published file is counted. -/
theorem discovery_end {cfg : Config} {s : State} (hr : Reachable cfg s)
    (hm : s.main.pastWait = true) :
    s.fileCount = (mainDiscover cfg.topFiles ⟨0, []⟩).fileCount := by
  obtain ⟨_, hk, _, _, hu⟩ := progress_reachable hr
  have hfin := hk hm
  rw [List.all_eq_true] at hfin
  have h0 : (s.walkers.map (fun w => w.pending.length)).sum = 0 :=
    sum_zero _ (fun w hw => (tasks_of_finished (hfin w hw)).2)
  have h1 : s.main.uncounted = 0 := by
    cases hpc : s.main <;> simp [hpc, MainPc.pastWait, MainPc.uncounted] at hm ⊢
  simp only [State.uncounted, h0, h1] at hu
  omega

/-! ## Theorems: after the retry loop -/

theorem pastLoop_of_move {cfg : Config} {s s1 : State} (h : Move cfg s s1)
    (hp : s1.main.pastLoop = true) (hne : s1.main ≠ .loopExit) : s.main.pastLoop = true := by
  cases h with
  | close hc hm => simp [hm, MainPc.pastLoop]
  | loopLimit hc hm hlt => exact absurd rfl hne
  | errNone hc hm he0 => exact absurd rfl hne
  | pollWait hc hm => exact hp
  | walk hc hw => exact hp
  | walkSend hc hw hwk => exact hp
  | countErr hc hw => exact hp
  | discoverDone hc hm => simp [MainPc.pastLoop] at hp
  | countTop hc hm => simp [MainPc.pastLoop] at hp
  | spawn hc hm => simp [MainPc.pastLoop] at hp
  | waitDone hc hm hw => simp [MainPc.pastLoop] at hp
  | loopEnter hc hm hlt => simp [MainPc.pastLoop] at hp
  | pollPass hc hm hle => simp [MainPc.pastLoop] at hp
  | errSome hc hm he0 => simp [MainPc.pastLoop] at hp
  | sendTop hc hm hw => simp [MainPc.pastLoop] at hp
  | drainSend hc hm hw => simp [MainPc.pastLoop] at hp
  | drainRecv hc hm hw => simp [MainPc.pastLoop] at hp

theorem late_basic {s s1 : State} (h : Late s s1) :
    s.main = .closed ∧ s1.crashed = false := by
  cases h with
  | exit hc hm => exact ⟨hm, hc⟩
  | recvClosed hc hm hw => exact ⟨hm, hc⟩

theorem step_not_exited {cfg : Config} {s s1 : State} {a : Action}
    (hs : step cfg s a = some s1) (c : Nat) : s.main ≠ .exited c := by
  intro hm
  unfold step at hs
  split at hs
  · simp at hs
  · simp [hm] at hs

/-- Between `close(ch)` and the return of `main` a worker that holds a task holds
the empty name. -/
theorem held_after_loop {cfg : Config} {s s1 : State} {a : Action} {i : Nat} {f : String}
    (hr : Reachable cfg s) (hpos : 0 < cfg.retryCount) (hs : step cfg s a = some s1)
    (hp : s.main.pastLoop = true) (hw : s.workers.get? i = some (.work f)) :
    s.main = .closed ∧ f = "" := by
  obtain ⟨hi, hpr, hcl⟩ := closing_reachable hr
  have hm : s.main = .closed := by
    cases hm : s.main <;> simp [hm, MainPc.pastLoop] at hp
    · have hfl := hpr.2.2.1 hpos (by simp [hm, MainPc.pastTest])
      have := le_sum_of_get? Worker.load hw
      simp only [State.inFlight, Worker.load] at hfl this
      omega
    · rfl
    · exact absurd hm (step_not_exited hs _)
  refine ⟨hm, ?_⟩
  rcases hcl.2 hpos hm _ (List.get?_mem hw) with h | h | h <;> simp at h
  exact h

/-- Every step of a run preserves `Ended`. -/
theorem ended_step {cfg : Config} {srcDir dstDir : String} {res : Int} {fs0 : FileSystem}
    {w w1 : World} {a : FsAction} (hpos : 0 < cfg.retryCount)
    (hap : pathsApart cfg srcDir dstDir)
    (hkept : ∀ g ∈ cfg.tasks, stampKept res fs0 (taskPath srcDir g) = true)
    (hr : FsReachable cfg srcDir dstDir res fs0 w) (he : Ended cfg srcDir dstDir w)
    (hs : fsStep cfg srcDir dstDir res w a = some w1) : Ended cfg srcDir dstDir w1 := by
  intro hp1 g hg
  have hr1 : FsReachable cfg srcDir dstDir res fs0 w1 := FsReachable.step a hr hs
  by_cases hx : w1.st.main = .loopExit
  · obtain ⟨_, t2, _⟩ := tracked_reachable hap hkept hr1 (by simp [hx, MainPc.chOpen])
    rcases t2 g hg with h | h
    · exact absurd h ((loop_end (fsReachable_base hr1) hpos hx).1 g)
    · exact h
  · obtain ⟨hne, hdisj, hlog⟩ := hap
    rcases fsStep_cases hs with ⟨b, _, hfs, hm⟩ | ⟨b, i, f, now, fault, hb, hc, hw, hst, hfs⟩ |
      ⟨b, _, hfs, hl⟩ | ⟨now, record, hst, _, hfs⟩
    · rw [hfs]
      exact he (pastLoop_of_move hm hp1 hx) g hg
    · have hp : w.st.main.pastLoop = true := by
        rw [hst, finish_main] at hp1
        exact hp1
      obtain ⟨_, hf⟩ := held_after_loop (fsReachable_base hr) hpos hb hp hw
      subst hf
      refine upToDate_of_agree (he hp g hg) ?_ ?_
      · rw [hfs]
        exact copyTask_agree _ _ _ _ _ _ _
          (fun e => hdisj "" (List.mem_cons_self _ _) g hg e.symm)
      · rw [hfs]
        refine copyTask_agree _ _ _ _ _ _ _ (fun e => hne ?_)
        rw [← taskPath_inj e]
        exact hg
    · rw [hfs]
      have hp : w.st.main.pastLoop = true := by
        simp [(late_basic hl).1, MainPc.pastLoop]
      exact he hp g hg
    · refine upToDate_of_agree (he (hst ▸ hp1) g hg) ?_ ?_
      · rw [hfs]
        exact appendLog_agree _ _ _ _ (fun e => (hlog g hg).1 e.symm)
      · rw [hfs]
        exact appendLog_agree _ _ _ _ (fun e => (hlog g hg).2 e.symm)

/-- When a run has left the retry loop every discovered file has an up-to-date
destination, also after the workers have run on the closed channel. -/
theorem ended_reachable {cfg : Config} {srcDir dstDir : String} {res : Int} {fs0 : FileSystem}
    {w : World} (hpos : 0 < cfg.retryCount) (hap : pathsApart cfg srcDir dstDir)
    (hkept : ∀ g ∈ cfg.tasks, stampKept res fs0 (taskPath srcDir g) = true)
    (h : FsReachable cfg srcDir dstDir res fs0 w) : Ended cfg srcDir dstDir w := by
  induction h with
  | init => exact fun hp => by simp [init, MainPc.pastLoop] at hp
  | step a hr hs ih => exact ended_step hpos hap hkept hr ih hs

/-- Every step of a run preserves `Sound`. -/
theorem sound_step {cfg : Config} {srcDir dstDir : String} {res : Int} {fs0 : FileSystem}
    {w w1 : World} {a : FsAction} (hpos : 0 < cfg.retryCount)
    (hr : FsReachable cfg srcDir dstDir res fs0 w) (hsd : Sound srcDir w)
    (hs : fsStep cfg srcDir dstDir res w a = some w1) : Sound srcDir w1 := by
  obtain ⟨hdir, hnc⟩ := hsd
  rcases fsStep_cases hs with ⟨b, _, hfs, hm⟩ | ⟨b, i, f, now, fault, hb, hc, hw, hst, hfs⟩ |
    ⟨b, _, hfs, hl⟩ | ⟨now, record, hst, hc, hfs⟩
  · have hb := move_basic hm
    exact ⟨hfs ▸ hdir, fun _ => hb.2.1.trans hb.2.2.1⟩
  · refine ⟨by rw [hfs, copyTask_isDirectory]; exact hdir, fun hp1 => ?_⟩
    have hp : w.st.main.pastLoop = true := by
      rw [hst, finish_main] at hp1
      exact hp1
    obtain ⟨_, hf⟩ := held_after_loop (fsReachable_base hr) hpos hb hp hw
    subst hf
    obtain ⟨s, hs0⟩ := stat_of_isDirectory hdir
    have hnp := copyTask_no_panic w.fs res now fault srcDir dstDir ""
      (s := s) (by simpa [taskPath] using hs0)
    rw [hst]
    cases ho : (copyTask w.fs res now fault srcDir dstDir "").2 with
    | skip => exact hc
    | done => exact hc
    | fail => exact hc
    | panic => exact absurd ho hnp
  · exact ⟨hfs ▸ hdir, fun _ => (late_basic hl).2⟩
  · exact ⟨by rw [hfs, appendLog_isDirectory]; exact hdir, fun _ => hst ▸ hc⟩

/-- On a source root that is a directory no goroutine panics once the retry loop
is left. -/
theorem sound_reachable {cfg : Config} {srcDir dstDir : String} {res : Int} {fs0 : FileSystem}
    {w : World} (hpos : 0 < cfg.retryCount) (hdir : isDirectory fs0 srcDir = true)
    (h : FsReachable cfg srcDir dstDir res fs0 w) : Sound srcDir w := by
  induction h with
  | init => exact ⟨hdir, fun _ => rfl⟩
  | step a hr hs ih => exact sound_step hpos hr ih hs

/-! ## Theorems: a run in which no copy fails comes to the end of the retry loop -/

theorem step_work {cfg : Config} {s : State} {i : Nat} {f : String}
    (hc : s.crashed = false) (hne : ∀ c, s.main ≠ .exited c)
    (hw : s.workers.get? i = some (.work f)) (x y : Option FileInfo) (c : CopyResult) :
    step cfg s (.work i x y c) = some (finishTask s i f (taskOutcome x y c)) := by
  unfold step
  simp only [hc]
  have hw1 : s.workers[i]? = some (.work f) := by simpa using hw
  cases hm : s.main
  case exited c => exact absurd hm (hne c)
  all_goals simp [hw1]

theorem step_walk {cfg : Config} {s : State} {j : Nat} {f : String} {rest : List String}
    (hc : s.crashed = false) (hne : ∀ c, s.main ≠ .exited c)
    (hw : s.walkers.get? j = some { pending := f :: rest, sending := none }) :
    step cfg s (.walk j) =
      some { s with fileCount := s.fileCount + 1,
                    walkers := s.walkers.set j { pending := rest, sending := some f } } := by
  unfold step
  simp only [hc]
  have hw1 : s.walkers[j]? = some { pending := f :: rest, sending := none } := by
    simpa using hw
  cases hm : s.main
  case exited c => exact absurd hm (hne c)
  all_goals simp [hw1]

theorem step_walkSend {cfg : Config} {s : State} {j i : Nat} {f : String} {p : List String}
    (hc : s.crashed = false) (hne : ∀ c, s.main ≠ .exited c)
    (hw : s.walkers.get? j = some { pending := p, sending := some f })
    (hk : s.workers.get? i = some .recv) :
    step cfg s (.walkSend j i) =
      some { s with walkers := s.walkers.set j { pending := p, sending := none },
                    workers := s.workers.set i (.work f) } := by
  unfold step
  simp only [hc]
  have hw1 : s.walkers[j]? = some { pending := p, sending := some f } := by simpa using hw
  have hk1 : s.workers[i]? = some .recv := by simpa using hk
  cases hm : s.main
  case exited c => exact absurd hm (hne c)
  all_goals simp [hw1, hk1]

theorem fsStep_of_step {cfg : Config} {srcDir dstDir : String} {res : Int} {w : World}
    {b : Action} (s1 : State) (hb : ∀ i x y c, b ≠ .work i x y c)
    (hs : step cfg w.st b = some s1) :
    fsStep cfg srcDir dstDir res w (.move b) = some { st := s1, fs := w.fs } := by
  cases b with
  | work i x y c => exact absurd rfl (hb i x y c)
  | main => simp [fsStep, hs]
  | mainSend i => simp [fsStep, hs]
  | mainRecvErr i => simp [fsStep, hs]
  | walk j => simp [fsStep, hs]
  | walkSend j i => simp [fsStep, hs]
  | countErr i => simp [fsStep, hs]
  | recvClosed i => simp [fsStep, hs]

theorem fsStep_copy {cfg : Config} {srcDir dstDir : String} {res : Int} {w : World}
    {i : Nat} {f : String} (hc : w.st.crashed = false) (hne : ∀ c, w.st.main ≠ .exited c)
    (hw : w.st.workers.get? i = some (.work f)) (now : Int) (fault : Option Fault) :
    fsStep cfg srcDir dstDir res w (.copy i now fault) =
      some { st := finishTask w.st i f (copyTask w.fs res now fault srcDir dstDir f).2,
             fs := (copyTask w.fs res now fault srcDir dstDir f).1 } := by
  simp only [fsStep, hw]
  rw [step_work hc hne hw, taskOutcome_copyTask]

theorem exists_unfinished {l : List Walker} (h : ¬ l.all Walker.finished = true) :
    ∃ j w, l.get? j = some w ∧ w.finished = false := by
  rw [List.all_eq_true] at h
  push_neg at h
  obtain ⟨w, hw, hf⟩ := h
  obtain ⟨j, hj⟩ := List.get?_of_mem hw
  exact ⟨j, w, hj, by simpa using hf⟩

theorem load_of_finished {w : Walker} (h : w.finished = true) : w.load = 0 := by
  obtain ⟨p, sd⟩ := w
  simp only [Walker.finished, Bool.and_eq_true, List.isEmpty_iff, Option.isNone_iff_eq_none] at h
  simp [Walker.load, h.2]

theorem quiet_set {s : State} (hq : Quiet s) (i : Nat) (b : Worker)
    (hb : ∀ f, b ≠ Worker.sendErr f) :
    ∀ wk ∈ s.workers.set i b, ∀ f, wk ≠ Worker.sendErr f := by
  intro wk hwk f
  rcases List.mem_or_eq_of_mem_set hwk with h | h
  · exact hq.2 wk h f
  · exact h ▸ hb f

/-- As long as `main` is in or before the retry loop, no goroutine has panicked,
no worker is blocked on `chErr` and every task held by a worker can be skipped or
copied, some step is enabled that brings the end of the loop nearer and leaves
the pipeline in such a state. -/
theorem advance {cfg : Config} {srcDir dstDir : String} {res : Int} {fs0 : FileSystem}
    {w : World} (hpos : 0 < cfg.retryCount) (hth : 0 < cfg.thread)
    (hr : FsReachable cfg srcDir dstDir res fs0 w) (hnp : w.st.main.pastLoop = false)
    (hq : Quiet w.st)
    (hgood : ∀ i f, w.st.workers.get? i = some (.work f) →
      (copyTask w.fs res 0 none srcDir dstDir f).2 = .skip ∨
      (copyTask w.fs res 0 none srcDir dstDir f).2 = .done) :
    ∃ a w1, fsStep cfg srcDir dstDir res w a = some w1 ∧ w1.st.main.chOpen = true ∧
      Quiet w1.st ∧ w1.st.potential < w.st.potential := by
  have ho : w.st.main.chOpen = true := by
    cases hm : w.st.main <;> simp [hm, MainPc.pastLoop, MainPc.chOpen] at hnp ⊢
  have hne : ∀ c, w.st.main ≠ .exited c := by
    intro c hm
    simp [hm, MainPc.chOpen] at ho
  have h3 := hq.1
  obtain ⟨⟨he, hd, hce, hn⟩, ⟨hk, hrc, _, hu⟩, ⟨hlen, _⟩⟩ :=
    closing_reachable (fsReachable_base hr)
  have hn := hn ho
  by_cases hex : ∃ i f, w.st.workers.get? i = some (.work f)
  · -- a worker holds a task: it skips or copies it
    obtain ⟨i, f, hw⟩ := hex
    have hsum := sum_map_set Worker.load w.st.workers i _ Worker.recv hw
    simp only [Worker.load] at hsum
    refine ⟨.copy i 0 none, _, fsStep_copy h3 hne hw 0 none, ?_, ?_, ?_⟩
    · rw [finish_main]
      exact ho
    · rcases hgood i f hw with h | h <;> rw [h] <;>
        exact ⟨h3, quiet_set hq i .recv (by simp)⟩
    · rcases hgood i f hw with h | h <;> rw [h] <;>
        (simp only [finishTask, State.potential, State.uncounted]
         omega)
  · -- every worker waits on `ch`
    have hall : ∀ wk ∈ w.st.workers, wk = Worker.recv := by
      intro wk hwk
      cases wk with
      | recv => rfl
      | work f =>
        obtain ⟨k, hk1⟩ := List.get?_of_mem hwk
        exact absurd ⟨k, f, hk1⟩ hex
      | sendErr f => exact absurd rfl (hq.2 _ hwk f)
      | countErr => exact absurd rfl (hce _ hwk)
    have hw0 : w.st.workers.get? 0 = some .recv := by
      cases hws : w.st.workers with
      | nil =>
        rw [hws] at hlen
        simp at hlen
        omega
      | cons x xs =>
        have := hall x (by rw [hws]; exact List.mem_cons_self _ _)
        simp [this]
    have hload : (w.st.workers.map Worker.load).sum = 0 :=
      sum_zero _ (fun x hx => by rw [hall x hx]; rfl)
    cases hm : w.st.main with
    | discover rest =>
      cases rest with
      | nil =>
        refine ⟨.move .main, _, fsStep_of_step
          { w.st with main := .wait } (by simp) (by simp [step, h3, hm, mainStep]), rfl, hq, ?_⟩
        simp [State.potential, State.uncounted, MainPc.uncounted, MainPc.rank, MainPc.load, hm,
          mainDiscover]
      | cons e rest =>
        cases e with
        | file n =>
          refine ⟨.move .main, _, fsStep_of_step
            { w.st with fileCount := w.st.fileCount + 1, main := .sendTop n rest } (by simp)
            (by simp [step, h3, hm, mainStep]), rfl, hq, ?_⟩
          simp only [State.potential, State.uncounted, MainPc.uncounted, MainPc.rank,
            MainPc.load, hm, mainDiscover_file, List.length_cons]
          omega
        | dir n r cs =>
          refine ⟨.move .main, _, fsStep_of_step
            { w.st with walkers := w.st.walkers ++ [walkerFor n r cs],
                        main := .discover rest } (by simp)
            (by simp [step, h3, hm, mainStep]), rfl, hq, ?_⟩
          have e0 : Walker.load (walkerFor n r cs) = 0 := rfl
          simp only [State.potential, State.uncounted, MainPc.uncounted, MainPc.rank,
            MainPc.load, hm, mainDiscover_dir, List.length_cons, List.map_append,
            List.sum_append, List.map_cons, List.map_nil, List.sum_cons, List.sum_nil, e0]
          omega
    | sendTop n rest =>
      refine ⟨.move (.mainSend 0), _, fsStep_of_step
        { w.st with workers := w.st.workers.set 0 (.work n), main := .discover rest } (by simp)
        (by
          have hw1 : w.st.workers[0]? = some .recv := by simpa using hw0
          simp [step, h3, hm, hw1]), rfl, ⟨h3, quiet_set hq 0 _ (by simp)⟩, ?_⟩
      have := sum_map_set Worker.load w.st.workers 0 _ (Worker.work n) hw0
      simp only [Worker.load] at this
      simp only [State.potential, State.uncounted, MainPc.uncounted, MainPc.rank,
        MainPc.load, hm]
      omega
    | wait =>
      by_cases hfin : w.st.walkers.all Walker.finished = true
      · refine ⟨.move .main, _, fsStep_of_step
          { w.st with retCnt := 0, main := .loopHead } (by simp)
          (by simp [step, h3, hm, mainStep, hfin]), rfl, hq, ?_⟩
        simp [State.potential, State.uncounted, MainPc.uncounted, MainPc.rank, MainPc.load, hm]
      · obtain ⟨j, wk, hj, hnf⟩ := exists_unfinished hfin
        obtain ⟨p, sd⟩ := wk
        cases sd with
        | some f =>
          refine ⟨.move (.walkSend j 0), _, fsStep_of_step _ (by simp)
            (step_walkSend h3 hne hj hw0), ho, ⟨h3, quiet_set hq 0 _ (by simp)⟩, ?_⟩
          have a1 := sum_map_set Walker.load w.st.walkers j _
            { pending := p, sending := none } hj
          have a2 := sum_map_set (fun x : Walker => x.pending.length) w.st.walkers j _
            { pending := p, sending := none } hj
          have a3 := sum_map_set Worker.load w.st.workers 0 _ (Worker.work f) hw0
          have e0 : Walker.load { pending := p, sending := none } = 0 := rfl
          have e1 : Walker.load { pending := p, sending := some f } = 1 := rfl
          rw [e0, e1] at a1
          simp only [Worker.load] at a3
          simp only [State.potential, State.uncounted] at a2 ⊢
          omega
        | none =>
          cases p with
          | nil => simp [Walker.finished] at hnf
          | cons f rest =>
            refine ⟨.move (.walk j), _, fsStep_of_step _ (by simp) (step_walk h3 hne hj), ho,
              hq, ?_⟩
            have a1 := sum_map_set Walker.load w.st.walkers j _
              { pending := rest, sending := some f } hj
            have a2 := sum_map_set (fun x : Walker => x.pending.length) w.st.walkers j _
              { pending := rest, sending := some f } hj
            have e0 : Walker.load { pending := f :: rest, sending := none } = 0 := rfl
            have e1 : Walker.load { pending := rest, sending := some f } = 1 := rfl
            rw [e0, e1] at a1
            simp only [State.potential, State.uncounted, List.length_cons] at a2 ⊢
            omega
    | loopHead =>
      refine ⟨.move .main, _, fsStep_of_step
        { w.st with main := .poll } (by simp)
        (by simp [step, h3, hm, mainStep, hrc, hpos]), rfl, hq, ?_⟩
      simp [State.potential, State.uncounted, MainPc.uncounted, MainPc.rank, MainPc.load, hm]
    | poll =>
      have hwl : (w.st.walkers.map Walker.load).sum = 0 := by
        have hfin := hk (by simp [hm, MainPc.pastWait])
        rw [List.all_eq_true] at hfin
        exact sum_zero _ (fun x hx => load_of_finished (hfin x hx))
      have htest : w.st.fileCount ≤ w.st.completed + w.st.errorCount + w.st.skipCount := by
        simp only [State.inFlight, hm, MainPc.load] at hn
        omega
      refine ⟨.move .main, _, fsStep_of_step
        { w.st with main := .checkErr } (by simp)
        (by simp [step, h3, hm, mainStep, htest]), rfl, hq, ?_⟩
      simp [State.potential, State.uncounted, MainPc.uncounted, MainPc.rank, MainPc.load, hm]
    | checkErr =>
      refine ⟨.move .main, _, fsStep_of_step
        { w.st with main := .loopExit } (by simp)
        (by simp [step, h3, hm, mainStep, he]), rfl, hq, ?_⟩
      simp [State.potential, State.uncounted, MainPc.uncounted, MainPc.rank, MainPc.load, hm]
    | drainRecv => simp [hm, MainPc.inDrain] at hd
    | drainSend f => simp [hm, MainPc.inDrain] at hd
    | loopExit => simp [hm, MainPc.pastLoop] at hnp
    | closed => simp [hm, MainPc.pastLoop] at hnp
    | exited c => simp [hm, MainPc.pastLoop] at hnp

/-- When every task that a worker can hold before `close(ch)` can be skipped or
copied, the end of the retry loop can be reached from every world of the run in
which `ch` is open, no goroutine has panicked and no worker is blocked on
`chErr`. -/
theorem can_finish {cfg : Config} {srcDir dstDir : String} {res : Int} {fs0 : FileSystem}
    (hpos : 0 < cfg.retryCount) (hth : 0 < cfg.thread)
    (hgood : ∀ w, FsReachable cfg srcDir dstDir res fs0 w → w.st.main.chOpen = true →
      ∀ i f, w.st.workers.get? i = some (.work f) →
        (copyTask w.fs res 0 none srcDir dstDir f).2 = .skip ∨
        (copyTask w.fs res 0 none srcDir dstDir f).2 = .done) :
    ∀ (n : Nat) (w : World), FsReachable cfg srcDir dstDir res fs0 w →
      w.st.main.chOpen = true → Quiet w.st → w.st.potential < n →
      ∃ acts w3, fsRun cfg srcDir dstDir res w acts = some w3 ∧ w3.st.main = .loopExit := by
  intro n
  induction n with
  | zero => intro w _ _ _ h; omega
  | succ n ih =>
    intro w hr ho hq hlt
    by_cases hx : w.st.main = .loopExit
    · exact ⟨[], w, rfl, hx⟩
    · have hnp : w.st.main.pastLoop = false := by
        cases hm : w.st.main <;> simp [hm, MainPc.pastLoop, MainPc.chOpen] at ho hx ⊢
      obtain ⟨a, w1, hs, ho1, hq1, hdec⟩ := advance hpos hth hr hnp hq (hgood w hr ho)
      obtain ⟨acts, w3, hrun, hend⟩ := ih w1 (FsReachable.step a hr hs) ho1 hq1 (by omega)
      exact ⟨a :: acts, w3, by simp [fsRun, hs, hrun], hend⟩

/-- In a run on a file system in which every destination is up to date a worker
skips the task it holds. -/
theorem good_second {cfg : Config} {srcDir dstDir : String} {res : Int} {fs1 : FileSystem}
    (hap : pathsApart cfg srcDir dstDir)
    (hup : ∀ g ∈ cfg.tasks, upToDate fs1 srcDir dstDir g) (w : World)
    (hr : FsReachable cfg srcDir dstDir res fs1 w) (ho : w.st.main.chOpen = true)
    (i : Nat) (f : String) (hw : w.st.workers.get? i = some (.work f)) :
    (copyTask w.fs res 0 none srcDir dstDir f).2 = .skip ∨
    (copyTask w.fs res 0 none srcDir dstDir f).2 = .done := by
  obtain ⟨h1, _, _, _, h5⟩ := settled_reachable hap hup hr ho
  have hf : f ∈ cfg.tasks := h5 f (hasTask_of_work hw)
  have hu : upToDate w.fs srcDir dstDir f :=
    upToDate_of_agree (hup f hf) (h1 _ (fun e => (hap.2.2 f hf).1 e.symm))
      (h1 _ (fun e => (hap.2.2 f hf).2 e.symm))
  left
  rw [copyTask_upToDate hu]

/-- No step of a run makes or removes a directory. -/
theorem isDirectory_reachable {cfg : Config} {srcDir dstDir : String} {res : Int}
    {fs0 : FileSystem} {w : World} (h : FsReachable cfg srcDir dstDir res fs0 w) (p : String) :
    isDirectory w.fs p = isDirectory fs0 p := by
  induction h with
  | init => rfl
  | step a hr hs ih =>
    rcases fsStep_cases hs with ⟨_, _, hfs, _⟩ | ⟨_, _, _, _, _, _, _, _, _, hfs⟩ |
      ⟨_, _, hfs, _⟩ | ⟨_, _, _, _, hfs⟩
    · rw [hfs]; exact ih
    · rw [hfs, copyTask_isDirectory]; exact ih
    · rw [hfs]; exact ih
    · rw [hfs, appendLog_isDirectory]; exact ih

/-- With no failing system call, a regular source file and a destination that is
no directory and not the source itself, an iteration of the worker loop ends with
a skip or with a copy. -/
theorem copyTask_plain {fs : FileSystem} {srcDir dstDir f : String} (res now : Int)
    (hsrc : isPlainFile fs (taskPath srcDir f) = true)
    (hdst : isDirectory fs (taskPath dstDir f) = false)
    (hne : taskPath srcDir f ≠ taskPath dstDir f) :
    (copyTask fs res now none srcDir dstDir f).2 = .skip ∨
    (copyTask fs res now none srcDir dstDir f).2 = .done := by
  unfold isPlainFile at hsrc
  cases hfile : fs (taskPath srcDir f) with
  | none => simp [hfile] at hsrc
  | some src =>
    have hnd : src.isDir = false := by simpa [hfile] using hsrc
    have hs : stat fs (taskPath srcDir f) =
        some { size := (src.data.length : Int), modTime := src.modTime } := by
      simp [stat, hfile]
    obtain ⟨l, hl⟩ := sizeLabel_some { size := (src.data.length : Int), modTime := src.modTime }
    have hcopy : (copyFile fs res now none (taskPath srcDir f) (taskPath dstDir f)
        (some { size := (src.data.length : Int), modTime := src.modTime })).2 = .ok := by
      simp [copyFile, hfile, hdst, Function.update_noteq hne, hnd]
    unfold copyTask
    simp only [hs]
    cases hd : checkDiff (some { size := (src.data.length : Int), modTime := src.modTime })
        (stat fs (taskPath dstDir f)) with
    | none =>
      exfalso
      cases hdd : stat fs (taskPath dstDir f) with
      | none => simp [checkDiff, hdd] at hd
      | some d =>
        simp only [checkDiff, hdd] at hd
        split at hd
        · simp at hd
        · split at hd <;> simp at hd
    | some r =>
      obtain ⟨diff, info⟩ := r
      have hinfo := checkDiff_snd hd
      subst hinfo
      simp only [hl]
      cases diff with
      | false => left; simp
      | true =>
        right
        simp only [if_true]
        cases hr : copyFile fs res now none (taskPath srcDir f) (taskPath dstDir f)
            (some { size := (src.data.length : Int), modTime := src.modTime }) with
        | mk fs1 r =>
          rw [hr] at hcopy
          simp only at hcopy
          subst hcopy
          rfl

/-- In a run on a source of regular files whose destinations are no directories
a worker can skip or copy the task it holds. -/
theorem good_first {cfg : Config} {srcDir dstDir : String} {res : Int} {fs0 : FileSystem}
    (hap : pathsApart cfg srcDir dstDir)
    (hkept : ∀ g ∈ cfg.tasks, stampKept res fs0 (taskPath srcDir g) = true)
    (hplain : sourcesPlain cfg srcDir dstDir fs0) (w : World)
    (hr : FsReachable cfg srcDir dstDir res fs0 w) (ho : w.st.main.chOpen = true)
    (i : Nat) (f : String) (hw : w.st.workers.get? i = some (.work f)) :
    (copyTask w.fs res 0 none srcDir dstDir f).2 = .skip ∨
    (copyTask w.fs res 0 none srcDir dstDir f).2 = .done := by
  obtain ⟨t1, _, t3⟩ := tracked_reachable hap hkept hr ho
  have hf : f ∈ cfg.tasks := t1 f (hasTask_of_work hw)
  refine copyTask_plain res 0 ?_ ?_ ?_
  · simpa [isPlainFile, t3 f hf] using (hplain f hf).1
  · rw [isDirectory_reachable hr]
    exact (hplain f hf).2
  · exact fun e => hap.2.1 f (List.mem_cons_of_mem _ hf) f hf e.symm

theorem quiet_init (cfg : Config) : Quiet (init cfg) := by
  refine ⟨rfl, ?_⟩
  intro wk hwk f
  simp only [init] at hwk
  rw [List.eq_of_mem_replicate hwk]
  simp

theorem fsReachable_run {cfg : Config} {srcDir dstDir : String} {res : Int} {fs0 : FileSystem}
    (acts : List FsAction) : ∀ {w : World}, FsReachable cfg srcDir dstDir res fs0 w →
      ∀ w1, fsRun cfg srcDir dstDir res w acts = some w1 →
        FsReachable cfg srcDir dstDir res fs0 w1 := by
  induction acts with
  | nil =>
    intro w h w1 hr
    simp [fsRun] at hr
    exact hr ▸ h
  | cons a rest ih =>
    intro w h w1 hr
    simp only [fsRun] at hr
    split at hr
    · simp at hr
    · rename_i w2 hs
      exact ih (FsReachable.step a h hs) w1 hr

/-- When `main` returns, it returns with status 0. -/
theorem exited_zero {cfg : Config} {s : State} (h : Reachable cfg s) :
    ∀ c, s.main = .exited c → c = 0 := by
  induction h with
  | init => intro c hm; simp [init] at hm
  | step a hr hs ih =>
    intro c hm
    rcases step_cases hs with hmv | ⟨i, f, x, y, r, _, _, _, rfl⟩ | hl
    · cases hmv.1 with
      | pollWait hc hm0 => exact ih c hm
      | walk hc hw => exact ih c hm
      | walkSend hc hw hwk => exact ih c hm
      | countErr hc hw => exact ih c hm
      | _ => simp at hm
    · rw [finish_main] at hm
      exact ih c hm
    · cases hl.1 with
      | exit hc hm0 =>
        simp at hm
        exact hm.symm
      | recvClosed hc hm0 hw =>
        simp [hm0] at hm

/-! ## Theorems: the counters after `close(ch)`, a second run, the exit status, discovery -/

theorem firstEnd_run :
    fsRun cfgTree "src" "dst" 1 { st := init cfgTree, fs := sampleFs }
      (sampleSchedule 1700000100000000000) = some firstEnd := rfl

theorem firstExit_run :
    fsRun cfgTree "src" "dst" 1 firstEnd (sampleClose 1700000100000000000) = some firstExit :=
  rfl

set_option maxRecDepth 100000 in
theorem secondEnd_run :
    fsRun cfgTree "src" "dst" 1 { st := init cfgTree, fs := firstExit.fs }
      (sampleSchedule 1700000200000000000) = some secondEnd := rfl

theorem coarseExit_run :
    fsRun cfgTree "src" "dst" 1000000000 { st := init cfgTree, fs := sampleFs }
      (sampleSchedule 1700000100000000000 ++ sampleClose 1700000100000000000) =
        some coarseExit := rfl

set_option maxRecDepth 100000 in
theorem coarseSecond_run :
    fsRun cfgTree "src" "dst" 1000000000 { st := init cfgTree, fs := coarseExit.fs }
      (sampleSchedule 1700000200000000000) = some coarseSecond := rfl

set_option maxRecDepth 100000 in
theorem coarseSecond_main : coarseSecond.st.main = .loopExit := rfl

/-- As long as `ch` is open the outcome counters do not exceed `fileCount`. -/
theorem outcomes_before_close (cfg : Config) (s : State) (h : Reachable cfg s)
    (ho : s.main.chOpen = true) :
    s.completed + s.skipCount + s.errorCount ≤ s.fileCount := by
  have hi := (inv_reachable h).2.2.2 ho
  omega

/-- The state of the run on the empty source root in which the workers have
skipped the empty name `n` times after `close(ch)`. -/
theorem skips_after_close (n : Nat) :
    Reachable cfgEmpty { init cfgEmpty with main := .closed, skipCount := n } := by
  induction n with
  | zero => exact reachable_run Reachable.init toClose _ rfl
  | succ n ih => exact reachable_run ih onClosed _ rfl


/-- C4 (the code at a failing input): a run on an empty source root.  `main`
passes `wg.Wait()`, the completion test (0 ≥ 0) and the error test, leaves the
loop and closes `ch`; worker 0 receives the empty string from the closed
channel, stats the two roots (two directories of the same size, the
destination not the older one) and counts a skip: `skipCount` is 1 and
`fileCount` is 0.  The same after the copy of the single file `a.txt`:
`completed + skipCount` is 2 and `fileCount` is 1.  The workers can repeat the
step, so every value of `skipCount` is reached with `fileCount = 0`. -/
theorem closed_channel_overcounts :
    (∃ s, run cfgEmpty (init cfgEmpty) (toClose ++ onClosed) = some s ∧
      s.main = .closed ∧ s.completed = 0 ∧ s.skipCount = 1 ∧ s.errorCount = 0 ∧
      s.fileCount = 0 ∧ ¬ s.completed + s.skipCount + s.errorCount ≤ s.fileCount) ∧
    (∃ s, run cfgOne (init cfgOne)
        ([.main, .mainSend 0, .work 0 (some ⟨10, 1⟩) none .ok] ++ toClose ++ onClosed) = some s ∧
      s.main = .closed ∧ s.completed = 1 ∧ s.skipCount = 1 ∧ s.errorCount = 0 ∧
      s.fileCount = 1 ∧ ¬ s.completed + s.skipCount + s.errorCount ≤ s.fileCount) ∧
    (∀ n, ∃ s, Reachable cfgEmpty s ∧ s.skipCount = n ∧ s.fileCount = 0) :=
  ⟨⟨_, rfl, rfl, rfl, rfl, rfl, rfl, by decide⟩, ⟨_, rfl, rfl, rfl, rfl, rfl, rfl, by decide⟩,
    fun n => ⟨_, skips_after_close n, rfl, rfl⟩⟩

/-- The second run: after a first run has left the retry loop, a second run on
the file system the first one left copies nothing and skips every discovered
file, and it can always come to the end of its retry loop. -/
theorem second_run_skips (cfg : Config) (srcDir dstDir : String) (res : Int)
    (fs0 : FileSystem) (w1 w2 : World) (hpos : 0 < cfg.retryCount)
    (hap : pathsApart cfg srcDir dstDir)
    (hkept : ∀ g ∈ cfg.tasks, stampKept res fs0 (taskPath srcDir g) = true)
    (h1 : FsReachable cfg srcDir dstDir res fs0 w1) (e1 : w1.st.main.pastLoop = true)
    (h2 : FsReachable cfg srcDir dstDir res w1.fs w2) :
    (w2.st.main = .loopExit →
      w2.st.completed = 0 ∧ w2.st.skipCount = w2.st.fileCount ∧ w2.st.errorCount = 0 ∧
        w2.st.fileCount = (mainDiscover cfg.topFiles ⟨0, []⟩).fileCount ∧
        ∀ p, p ≠ cfg.logFileName → w2.fs p = w1.fs p) ∧
    (0 < cfg.thread → w2.st.main.chOpen = true →
      ∃ acts w3, fsRun cfg srcDir dstDir res w2 acts = some w3 ∧ w3.st.main = .loopExit) := by
  have hup : ∀ g ∈ cfg.tasks, upToDate w1.fs srcDir dstDir g :=
    ended_reachable hpos hap hkept h1 e1
  refine ⟨fun e2 => ?_, fun hth ho => ?_⟩
  swap
  · obtain ⟨_, _, q1, q2, _⟩ := settled_reachable hap hup h2 ho
    exact can_finish hpos hth (good_second hap hup) _ w2 h2 ho ⟨q1, q2⟩ (Nat.lt_succ_self _)
  obtain ⟨s1, s2, _, _, _⟩ := settled_reachable hap hup h2 (by simp [e2, MainPc.chOpen])
  have n2 := loop_end (fsReachable_base h2) hpos e2
  refine ⟨s2, ?_, n2.2.2.2, n2.2.1, s1⟩
  have := n2.2.2.1
  omega

/-- The first run: on a source of regular files whose destinations are no
directories there is a run that comes to the end of the retry loop. -/
theorem first_run_ends (cfg : Config) (srcDir dstDir : String) (res : Int)
    (fs0 : FileSystem) (hpos : 0 < cfg.retryCount) (hth : 0 < cfg.thread)
    (hap : pathsApart cfg srcDir dstDir)
    (hkept : ∀ g ∈ cfg.tasks, stampKept res fs0 (taskPath srcDir g) = true)
    (hplain : sourcesPlain cfg srcDir dstDir fs0) :
    ∃ acts w1, fsRun cfg srcDir dstDir res { st := init cfg, fs := fs0 } acts = some w1 ∧
      w1.st.main = .loopExit :=
  can_finish hpos hth (good_first hap hkept hplain) _ _ FsReachable.init rfl (quiet_init cfg)
    (Nat.lt_succ_self _)

/-- C5 as stated fails on a destination whose file system keeps whole seconds:
`copyFile` succeeds for `src/a.txt`, whose modification time has a fraction of a
second, the source is unchanged, and `checkDiff` on the pair still answers
`true`, because the stored stamp is earlier than the source's.  In the pipeline:
a first run copies both files and ends with status 0, and a second run on the
file system it left ends its retry loop with `completed = 2` and
`skipCount = 0`. -/
theorem rerun_copies_again :
    (copyFile sampleFs 1000000000 1700000100000000000 none "src/a.txt" "dst/a.txt"
        (stat sampleFs "src/a.txt")).2 = .ok ∧
    stat (copyFile sampleFs 1000000000 1700000100000000000 none "src/a.txt" "dst/a.txt"
        (stat sampleFs "src/a.txt")).1 "src/a.txt" = stat sampleFs "src/a.txt" ∧
    checkDiff
      (stat (copyFile sampleFs 1000000000 1700000100000000000 none "src/a.txt" "dst/a.txt"
        (stat sampleFs "src/a.txt")).1 "src/a.txt")
      (stat (copyFile sampleFs 1000000000 1700000100000000000 none "src/a.txt" "dst/a.txt"
        (stat sampleFs "src/a.txt")).1 "dst/a.txt") =
      some (true, some { size := 10, modTime := 1700000000123456789 }) ∧
    fsRun cfgTree "src" "dst" 1000000000 { st := init cfgTree, fs := sampleFs }
      (sampleSchedule 1700000100000000000 ++ sampleClose 1700000100000000000) =
        some coarseExit ∧
    coarseExit.st.completed = 2 ∧ coarseExit.st.errorCount = 0 ∧
    exitStatus coarseExit.st = some 0 ∧
    fsRun cfgTree "src" "dst" 1000000000 { st := init cfgTree, fs := coarseExit.fs }
      (sampleSchedule 1700000200000000000) = some coarseSecond ∧
    coarseSecond.st.main = .loopExit ∧ coarseSecond.st.completed = 2 ∧
    coarseSecond.st.skipCount = 0 ∧ coarseSecond.st.fileCount = 2 :=
  ⟨by decide, by decide, by decide, coarseExit_run, by decide, by decide, by decide,
    coarseSecond_run, coarseSecond_main, by decide, by decide, by decide⟩

/-- C5, as amended: when the destination's file system keeps the modification
time of the source as it is, then once `copyFile` has succeeded for a source
whose stat is the one that was passed to it, source and destination have the
same size and modification time and `checkDiff` on the pair answers `false` (the
source itself is untouched when the two paths differ).  Hence, under any
interleaving: when a first run on the file system `fs0` has left the retry
loop, in whatever state it then ended, and a second run of the same pipeline
starts on the file system the first one left, then at the end of the retry loop
of the second run `completed = 0`, `errorCount = 0`, `skipCount = fileCount`,
`fileCount` is the number of discovered files and no file but the log has
changed; and from every state of the second run before `close(ch)` the end of
the retry loop can be reached.  A first run that leaves its retry loop exists
when the discovered names are regular files and no destination is a directory.
The retry bound and the number of workers are positive (`main` uses 30 and 16)
and the paths of the run are apart. -/
theorem rerun_skips_everything :
    (∀ (fs : FileSystem) (res now : Int) (fault : Option Fault) (srcFile dstFile : String),
      stampKept res fs srcFile = true →
      (copyFile fs res now fault srcFile dstFile (stat fs srcFile)).2 = .ok →
      (∃ s, stat (copyFile fs res now fault srcFile dstFile (stat fs srcFile)).1 srcFile =
          some s ∧
        stat (copyFile fs res now fault srcFile dstFile (stat fs srcFile)).1 dstFile =
          some s) ∧
      checkDiff (stat (copyFile fs res now fault srcFile dstFile (stat fs srcFile)).1 srcFile)
          (stat (copyFile fs res now fault srcFile dstFile (stat fs srcFile)).1 dstFile) =
        some (false,
          stat (copyFile fs res now fault srcFile dstFile (stat fs srcFile)).1 srcFile) ∧
      (srcFile ≠ dstFile →
        stat (copyFile fs res now fault srcFile dstFile (stat fs srcFile)).1 srcFile =
          stat fs srcFile)) ∧
    (∀ (cfg : Config) (srcDir dstDir : String) (res : Int) (fs0 : FileSystem) (w1 w2 : World),
      0 < cfg.retryCount → pathsApart cfg srcDir dstDir →
      (∀ g ∈ cfg.tasks, stampKept res fs0 (taskPath srcDir g) = true) →
      FsReachable cfg srcDir dstDir res fs0 w1 → w1.st.main.pastLoop = true →
      FsReachable cfg srcDir dstDir res w1.fs w2 →
      (w2.st.main = .loopExit →
        w2.st.completed = 0 ∧ w2.st.skipCount = w2.st.fileCount ∧ w2.st.errorCount = 0 ∧
          w2.st.fileCount = (mainDiscover cfg.topFiles ⟨0, []⟩).fileCount ∧
          ∀ p, p ≠ cfg.logFileName → w2.fs p = w1.fs p) ∧
      (0 < cfg.thread → w2.st.main.chOpen = true →
        ∃ acts w3, fsRun cfg srcDir dstDir res w2 acts = some w3 ∧
          w3.st.main = .loopExit)) ∧
    (∀ (cfg : Config) (srcDir dstDir : String) (res : Int) (fs0 : FileSystem),
      0 < cfg.retryCount → 0 < cfg.thread → pathsApart cfg srcDir dstDir →
      (∀ g ∈ cfg.tasks, stampKept res fs0 (taskPath srcDir g) = true) →
      sourcesPlain cfg srcDir dstDir fs0 →
      ∃ acts w1, fsRun cfg srcDir dstDir res { st := init cfg, fs := fs0 } acts = some w1 ∧
        w1.st.main = .loopExit) := by
  refine ⟨?_, ?_, ?_⟩
  · intro fs res now fault srcFile dstFile hk h
    obtain ⟨⟨s, h1, h2⟩, h3⟩ := copyFile_ok h hk
    refine ⟨⟨s, h1, h2⟩, ?_, fun hne => ?_⟩
    · rw [h1, h2, checkDiff_same]
    · exact stat_congr (h3 srcFile hne)
  · intro cfg srcDir dstDir res fs0 w1 w2 hpos hap hkept h1 e1 h2
    exact second_run_skips cfg srcDir dstDir res fs0 w1 w2 hpos hap hkept h1 e1 h2
  · intro cfg srcDir dstDir res fs0 hpos hth hap hkept hplain
    exact first_run_ends cfg srcDir dstDir res fs0 hpos hth hap hkept hplain

theorem sample_apart : pathsApart cfgTree "src" "dst" := by
  unfold pathsApart
  decide

theorem sample_plain : sourcesPlain cfgTree "src" "dst" sampleFs := by
  unfold sourcesPlain
  decide

theorem firstExit_reachable : FsReachable cfgTree "src" "dst" 1 sampleFs firstExit :=
  fsReachable_run _ (fsReachable_run _ FsReachable.init _ firstEnd_run) _ firstExit_run

/-- A witness for C5 as amended: on the tree `a.txt`, `sub/b.txt` and a file
system that keeps nanoseconds the first run ends with `completed = 2`, the
second comes to the end of its retry loop with `completed = 0` and
`skipCount = fileCount = 2`. -/
theorem rerun_skips_everything_witness :
    checkDiff (stat (copyFile sampleFs 1 1700000100000000000 none "src/a.txt" "dst/a.txt"
        (stat sampleFs "src/a.txt")).1 "src/a.txt")
      (stat (copyFile sampleFs 1 1700000100000000000 none "src/a.txt" "dst/a.txt"
        (stat sampleFs "src/a.txt")).1 "dst/a.txt") =
      some (false, some { size := 10, modTime := 1700000000123456789 }) ∧
    firstExit.st.completed = 2 ∧ firstExit.st.skipCount = 0 ∧ firstExit.st.fileCount = 2 ∧
    secondEnd.st.completed = 0 ∧ secondEnd.st.skipCount = 2 ∧ secondEnd.st.fileCount = 2 ∧
    (∃ acts w3, fsRun cfgTree "src" "dst" 1 { st := init cfgTree, fs := firstExit.fs } acts =
      some w3 ∧ w3.st.main = .loopExit) ∧
    ∃ acts w1, fsRun cfgTree "src" "dst" 1 { st := init cfgTree, fs := sampleFs } acts =
      some w1 ∧ w1.st.main = .loopExit :=
  have h := rerun_skips_everything.2.1 cfgTree "src" "dst" 1 sampleFs firstExit secondEnd
    (by decide) sample_apart (by decide) firstExit_reachable rfl
    (fsReachable_run _ FsReachable.init _ secondEnd_run)
  have h0 := rerun_skips_everything.2.1 cfgTree "src" "dst" 1 sampleFs firstExit
    { st := init cfgTree, fs := firstExit.fs }
    (by decide) sample_apart (by decide) firstExit_reachable rfl FsReachable.init
  have e := h.1 rfl
  ⟨((rerun_skips_everything.1 sampleFs 1 1700000100000000000 none "src/a.txt" "dst/a.txt"
      (by decide) (by decide)).2.1).trans (by decide),
    by decide, by decide, by decide,
    e.1, e.2.1.trans (e.2.2.2.1.trans (by decide)), e.2.2.2.1.trans (by decide),
    h0.2 (by decide) rfl,
    rerun_skips_everything.2.2 cfgTree "src" "dst" 1 sampleFs (by decide) (by decide)
      sample_apart (by decide) sample_plain⟩

/-- C7: in every run on a source root that is a directory, on a file system
that nothing but the program changes, once the retry loop has ended
`errorCount` is 0, the loop has not run to its limit (`retCnt` is below
`retryCount`) and no goroutine has panicked, also not a worker on the closed
channel; so when the process has ended its exit status is 0, which is what the
claim says for a loop that ends with `errored = 0`, and no run ends its loop at
the retry limit with `errored > 0`.  `main` can always go on to `close(ch)` and
return, which ends the process with status 0.  The retry bound is positive
(`main` uses 30). -/
theorem exit_status_after_loop (cfg : Config) (srcDir dstDir : String) (res : Int)
    (fs0 : FileSystem) (w : World) (hpos : 0 < cfg.retryCount)
    (hdir : isDirectory fs0 srcDir = true)
    (h : FsReachable cfg srcDir dstDir res fs0 w) (hend : w.st.main.pastLoop = true) :
    w.st.errorCount = 0 ∧ w.st.retCnt < cfg.retryCount ∧ w.st.crashed = false ∧
    (∀ c, exitStatus w.st = some c →
      (cfg.retryCount ≤ w.st.retCnt ∧ 0 < w.st.errorCount → c ≠ 0) ∧
      (w.st.errorCount = 0 → c = 0)) ∧
    ∃ acts w2, fsRun cfg srcDir dstDir res w acts = some w2 ∧ exitStatus w2.st = some 0 := by
  have hr := fsReachable_base h
  obtain ⟨hi, hp, _⟩ := closing_reachable hr
  have hc : w.st.crashed = false := (sound_reachable hpos hdir h).2 hend
  have hx := exited_zero hr
  have hret : w.st.retCnt < cfg.retryCount := by
    rw [hp.2.1]
    exact hpos
  refine ⟨hi.1, hret, hc, fun c hs => ⟨fun hh => ?_, fun _ => ?_⟩, ?_⟩
  · omega
  · simp only [exitStatus, hc] at hs
    cases hm : w.st.main <;> simp [hm] at hs
    subst hs
    exact hx _ hm
  · cases hm : w.st.main <;> simp [hm, MainPc.pastLoop] at hend
    · refine ⟨[.move .main, .move .main], { st := { w.st with main := .exited 0 }, fs := w.fs },
        ?_, by simp [exitStatus, hc]⟩
      simp [fsRun, fsStep, step, mainStep, hc, hm]
    · refine ⟨[.move .main], { st := { w.st with main := .exited 0 }, fs := w.fs },
        ?_, by simp [exitStatus, hc]⟩
      simp [fsRun, fsStep, step, mainStep, hc, hm]
    · rename_i c
      refine ⟨[], w, rfl, ?_⟩
      simp [exitStatus, hc, hm, hx c hm]

/-- A witness for C7: the run on the tree `a.txt`, `sub/b.txt` in which worker 0
handles the empty name after `close(ch)` ends with status 0 and
`errorCount = 0`. -/
theorem exit_status_after_loop_witness :
    isDirectory sampleFs "src" = true ∧ firstExit.st.errorCount = 0 ∧
      firstExit.st.crashed = false ∧ exitStatus firstExit.st = some 0 :=
  have h := exit_status_after_loop cfgTree "src" "dst" 1 sampleFs firstExit (by decide)
    (by decide) firstExit_reachable rfl
  ⟨by decide, h.1, h.2.2.1, by decide⟩

/-- C3: for a source tree whose directories can all be read (and whose names are
as a file system gives them), discovery sends exactly the relative paths of the
non-directory entries beneath the root, one per entry, no path twice, and
`fileCount` ends equal to the number of names sent and to the number of files
in the tree; in the pipeline, under any interleaving, `fileCount` is that number
in every state in which `main` is past `wg.Wait()`. -/
theorem discovery_exactly_once (top : List Entry) (hr : listAllReadable top = true)
    (hw : treeWellFormed top = true) :
    (mainDiscover top ⟨0, []⟩).sent = (listFilePaths top).map relPath ∧
      (listFilePaths top).Nodup ∧
      (mainDiscover top ⟨0, []⟩).sent.Nodup ∧
      (mainDiscover top ⟨0, []⟩).fileCount = (mainDiscover top ⟨0, []⟩).sent.length ∧
      (mainDiscover top ⟨0, []⟩).fileCount = (listFilePaths top).length ∧
      ∀ (cfg : Config) (s : State), cfg.topFiles = top → Reachable cfg s →
        s.main.pastWait = true → s.fileCount = (listFilePaths top).length := by
  simp only [treeWellFormed, Bool.and_eq_true, decide_eq_true_eq] at hw
  have hnd := listFilePaths_nodup top hw.1 hw.2
  have hcount : (mainDiscover top ⟨0, []⟩).fileCount = (listFilePaths top).length := by
    rw [mainDiscover_eq top _ hr]
    simp
  refine ⟨?_, hnd, ?_, ?_, hcount, ?_⟩
  · rw [mainDiscover_eq top _ hr]
    simp
  · rw [mainDiscover_eq top _ hr]
    simp only [List.nil_append]
    refine List.Nodup.map_on ?_ hnd
    intro p hp q hq hpq
    exact relPath_inj p q (listFilePaths_ne_nil top p hp) (listFilePaths_ne_nil top q hq)
      (listFilePaths_good top hw.2 p hp) (listFilePaths_good top hw.2 q hq) hpq
  · rw [mainDiscover_eq top _ hr]
    simp
  · intro cfg s htop hreach hpast
    rw [discovery_end hreach hpast, htop, hcount]

/-- A witness for C3: the tree `a.txt`, `sub/b.txt` yields the two names and
`fileCount = 2`, also at the end of a run of the pipeline. -/
theorem discovery_exactly_once_witness :
    (mainDiscover sampleTree ⟨0, []⟩).sent = ["a.txt", "sub/b.txt"] ∧
      (mainDiscover sampleTree ⟨0, []⟩).fileCount = 2 ∧ firstEnd.st.fileCount = 2 :=
  have h := discovery_exactly_once sampleTree (by decide) (by decide)
  ⟨h.1.trans (by decide), h.2.2.2.2.1.trans (by decide),
    (h.2.2.2.2.2 cfgTree firstEnd.st rfl
      (fsReachable_base (fsReachable_run _ FsReachable.init _ firstEnd_run)) rfl).trans
      (by decide)⟩

end Rcopy
